import Mathlib

/-!
# vecmat: fixed-size vectors and matrices

A shallow embedding of `include/vecmat/vector.hpp` and
`include/vecmat/matrix.hpp`.

* A container is its inline storage: `data : Fin N → T` for `T data[N]`.
* Code that can throw or touch storage past its end runs in `Exec`: the
  outcome of the run together with the list of element accesses it made.
* `size_t` is 64 bits wide; index arithmetic wraps modulo `SIZE_MAX + 1`.
* Counted `for` loops are `forRange`.
* `std::istream` and `std::ostream` are library code: the operations the
  readers and writers call are modelled from the C++ standard; `int` elements
  are integers between `INT_MIN` and `INT_MAX`.
-/

namespace vecmat

/-! ## Execution model -/

/-- Largest value of `size_t` (64-bit target). -/
def SIZE_MAX : Nat := 2 ^ 64 - 1

/-- One evaluation of `data[i]` on a container holding `extent` elements. -/
structure Access where
  extent : Nat
  index : Nat
deriving DecidableEq

/-- How a run ends: normally with a value, by a thrown `std::out_of_range`,
or by touching storage past the end of the array (no defined behaviour). -/
inductive Outcome (α : Type) where
  | ok (v : α) : Outcome α
  | out_of_range : Outcome α
  | undefined : Outcome α
deriving DecidableEq

/-- A run: its outcome and the element accesses made, oldest first. -/
structure Exec (α : Type) where
  result : Outcome α
  trace : List Access

namespace Exec

/-- Normal completion without touching any element. -/
def ret {α : Type} (v : α) : Exec α := ⟨Outcome.ok v, []⟩

/-- Sequencing: the continuation runs only after normal completion. -/
def andThen {α β : Type} (x : Exec α) (f : α → Exec β) : Exec β :=
  match x.result with
  | Outcome.ok v => ⟨(f v).result, x.trace ++ (f v).trace⟩
  | Outcome.out_of_range => ⟨Outcome.out_of_range, x.trace⟩
  | Outcome.undefined => ⟨Outcome.undefined, x.trace⟩

/-- The statement `throw std::out_of_range(__func__)`. -/
def throw_out_of_range {α : Type} : Exec α := ⟨Outcome.out_of_range, []⟩

end Exec

instance : Monad Exec where
  pure := Exec.ret
  bind := Exec.andThen

/-- The loop `for (size_t i = 0; i < n; ++i) s = body(i, s)`. -/
def forRange {σ : Type} (n : Nat) (body : Nat → σ → Exec σ) (s : σ) : Exec σ :=
  match n with
  | 0 => pure s
  | k + 1 => forRange k body s >>= body k

/-- Evaluation of `data[i]` as an rvalue on an array of `K` elements. -/
def raw_read {K : Nat} {T : Type} (data : Fin K → T) (i : Nat) : Exec T :=
  if h : i < K then ⟨Outcome.ok (data ⟨i, h⟩), [⟨K, i⟩]⟩
  else ⟨Outcome.undefined, [⟨K, i⟩]⟩

/-- Use of `data[i]` as an lvalue on an array of `K` elements: the element is
replaced by `f` of its current value. -/
def raw_modify {K : Nat} {T : Type} (data : Fin K → T) (i : Nat) (f : T → T) :
    Exec (Fin K → T) :=
  if i < K then
    ⟨Outcome.ok (fun x => if x.val = i then f (data x) else data x), [⟨K, i⟩]⟩
  else ⟨Outcome.undefined, [⟨K, i⟩]⟩

/-! ## vector.hpp -/

/-- The aggregate `template <size_t N, typename T> struct vector`. -/
@[ext] structure vector (N : Nat) (T : Type) where
  data : Fin N → T

namespace vector

variable {N : Nat} {T : Type}

/-- Value initialisation `vector<N, T> c {}`. -/
def zero [Zero T] : vector N T := ⟨fun _ => 0⟩

/-- Aggregate initialisation `vector<N, T> a {{x0, x1, ...}}`; elements with
no initialiser are zero. -/
def ofList [Zero T] (xs : List T) : vector N T := ⟨fun k => xs.getD k.val 0⟩

/-- Source: `operator[](const size_t & i) const`.  For `i >= N` the body
builds a `std::out_of_range` temporary and drops it (there is no `throw`);
`data[i]` is evaluated in either case. -/
def op_subscript (a : vector N T) (i : Nat) : Exec T :=
  raw_read a.data i

/-- Source: `operator[](const size_t & i)` used as the target of a store
(`b[i] = v` is `op_subscript_modify b i (fun _ => v)`). -/
def op_subscript_modify (a : vector N T) (i : Nat) (f : T → T) : Exec (vector N T) :=
  raw_modify a.data i f >>= fun d => pure ⟨d⟩

/-- Source: `operator()(const size_t & i) const`. -/
def op_call (a : vector N T) (i : Nat) : Exec T :=
  a.op_subscript i

/-- Source: `operator()(const size_t & i)` used as the target of a store. -/
def op_call_modify (a : vector N T) (i : Nat) (f : T → T) : Exec (vector N T) :=
  a.op_subscript_modify i f

end vector

/-- Source: `enum coords_t {X=0, Y, Z, W}`. -/
def X : Nat := 0
/-- Source: `enum coords_t`, second enumerator. -/
def Y : Nat := 1
/-- Source: `enum coords_t`, third enumerator. -/
def Z : Nat := 2
/-- Source: `enum coords_t`, fourth enumerator. -/
def W : Nat := 3

/-- Source: `T dot(const vector<N, T> & a, const vector<N, T> & b)`. -/
def dot_vv {N : Nat} {T : Type} [Zero T] [Add T] [Mul T]
    (a b : vector N T) : Exec T :=
  forRange N (fun i ret => do
    let x ← a.op_subscript i
    let y ← b.op_subscript i
    pure (ret + x * y)) 0

/-- Source: `vector<3, T> cross(const vector<N, T> & a, const vector<M, T> & b)`.
The conditions guarding `a[Z]` and `b[Z]` are those of the source, line by
line.  Operands are evaluated left to right. -/
def cross {N M : Nat} {T : Type} [Zero T] [Mul T] [Sub T]
    (a : vector N T) (b : vector M T) : Exec (vector 3 T) :=
  if N < 2 ∨ 4 < N ∨ M < 2 ∨ 4 < M then Exec.throw_out_of_range
  else do
    let c : vector 3 T := vector.zero
    -- c[X] = a[Y] * (M > 2 ? b[Z] : 0) - (N > 2 ? a[Z] : 0) * b[Y];
    let t1 ← a.op_subscript Y
    let t2 ← (if M > 2 then b.op_subscript Z else pure 0)
    let t3 ← (if N > 2 then a.op_subscript Z else pure 0)
    let t4 ← b.op_subscript Y
    let c ← c.op_subscript_modify X (fun _ => t1 * t2 - t3 * t4)
    -- c[Y] = (M > 2 ? a[Z] : 0) * b[X] - a[X] * (N > 2 ? b[Z] : 0);
    let u1 ← (if M > 2 then a.op_subscript Z else pure 0)
    let u2 ← b.op_subscript X
    let u3 ← a.op_subscript X
    let u4 ← (if N > 2 then b.op_subscript Z else pure 0)
    let c ← c.op_subscript_modify Y (fun _ => u1 * u2 - u3 * u4)
    -- c[Z] = a[X] * b[Y] - a[Y] * b[X];
    let v1 ← a.op_subscript X
    let v2 ← b.op_subscript Y
    let v3 ← a.op_subscript Y
    let v4 ← b.op_subscript X
    let c ← c.op_subscript_modify Z (fun _ => v1 * v2 - v3 * v4)
    pure c

/-! ## matrix.hpp -/

/-- The aggregate `template <size_t N, size_t M, typename T> struct matrix`,
storage `T data[N * M]`. -/
@[ext] structure matrix (N M : Nat) (T : Type) where
  data : Fin (N * M) → T

namespace matrix

variable {N M : Nat} {T : Type}

/-- Value initialisation `matrix<N, M, T> c {}`. -/
def zero [Zero T] : matrix N M T := ⟨fun _ => 0⟩

/-- Aggregate initialisation `matrix<N, M, T> a {{x0, x1, ...}}`; elements
with no initialiser are zero. -/
def ofList [Zero T] (xs : List T) : matrix N M T := ⟨fun k => xs.getD k.val 0⟩

/-- Source: `operator[](const size_t & i) const`.  As for vectors, the
bounds test throws nothing and `data[i]` is evaluated in either case. -/
def op_subscript (a : matrix N M T) (i : Nat) : Exec T :=
  raw_read a.data i

/-- Source: `operator[](const size_t & i)` used as the target of a store. -/
def op_subscript_modify (a : matrix N M T) (i : Nat) (f : T → T) :
    Exec (matrix N M T) :=
  raw_modify a.data i f >>= fun d => pure ⟨d⟩

/-- Source: `operator()(const size_t & i, const size_t & j) const`:
`size_t k = i + j * N; return operator[](k);`. -/
def op_call (a : matrix N M T) (i j : Nat) : Exec T :=
  let k := (i + j * N) % (SIZE_MAX + 1)
  a.op_subscript k

/-- Source: `operator()(const size_t & i, const size_t & j)` used as the
target of a store. -/
def op_call_modify (a : matrix N M T) (i j : Nat) (f : T → T) :
    Exec (matrix N M T) :=
  let k := (i + j * N) % (SIZE_MAX + 1)
  a.op_subscript_modify k f

/-- The element of the in-range cell `(i, j)`: `data[i + j * N]`. -/
def cell (a : matrix N M T) (i : Fin N) (j : Fin M) : T :=
  a.data ⟨i.val + j.val * N, by
    have hi := i.isLt
    have hj := j.isLt
    calc i.val + j.val * N < N + j.val * N := by omega
      _ = (j.val + 1) * N := by ring
      _ ≤ M * N := Nat.mul_le_mul_right N hj
      _ = N * M := Nat.mul_comm M N⟩

end matrix

/-- Source: `matrix<N, O, T> dot(const matrix<N, M, T> & a, const matrix<M, O, T> & b)`. -/
def dot_mm {N M O : Nat} {T : Type} [Zero T] [Add T] [Mul T]
    (a : matrix N M T) (b : matrix M O T) : Exec (matrix N O T) :=
  forRange O (fun o c =>
    forRange N (fun n c =>
      forRange M (fun m c => do
        let x ← a.op_call n m
        let y ← b.op_call m o
        c.op_call_modify n o (fun t => t + x * y)) c) c) matrix.zero

/-- Source: `vector<N, T> dot(const matrix<N, M, T> & a, const vector<M, T> & b)`. -/
def dot_mv {N M : Nat} {T : Type} [Zero T] [Add T] [Mul T]
    (a : matrix N M T) (b : vector M T) : Exec (vector N T) :=
  forRange N (fun n c =>
    forRange M (fun m c => do
      let x ← a.op_call n m
      let y ← b.op_call m
      c.op_call_modify n (fun t => t + x * y)) c) vector.zero

/-- Source: `vector<M, T> dot(const vector<N, T> & a, const matrix<N, M, T> & b)`. -/
def dot_vm {N M : Nat} {T : Type} [Zero T] [Add T] [Mul T]
    (a : vector N T) (b : matrix N M T) : Exec (vector M T) :=
  forRange N (fun n c =>
    forRange M (fun m c => do
      let x ← a.op_call n
      let y ← b.op_call n m
      c.op_call_modify m (fun t => t + x * y)) c) vector.zero

/-- Source: `matrix<N, N, T> eye(void)`. -/
def eye (N : Nat) (T : Type) [Zero T] [One T] : Exec (matrix N N T) :=
  forRange N (fun n I => I.op_call_modify n n (fun _ => 1)) matrix.zero

/-! ## vector.hpp: negation and resizing -/

/-- Source: `vector operator-()`.  The local `vector<N, T> b;` is not
initialised: `b0` stands for its indeterminate initial contents. -/
def vector.op_neg {N : Nat} {T : Type} [Neg T] (a : vector N T) (b0 : vector N T) :
    Exec (vector N T) :=
  forRange N (fun i b => do
    let x ← a.op_subscript i
    b.op_subscript_modify i (fun _ => -x)) b0

/-- Source: `vecmat::vector<N, T> resize_cast(const vecmat::vector<M, U> & a)`;
`cast` is `static_cast<T>` on `U`. -/
def resize_cast_v (N : Nat) {M : Nat} {T U : Type} [Zero T] [Zero U] (cast : U → T)
    (a : vector M U) : Exec (vector N T) :=
  forRange N (fun i b => do
    let x ← (if i < M then a.op_subscript i else pure 0)
    b.op_subscript_modify i (fun _ => cast x)) vector.zero

/-! ## Scalar assignment -/

/-- Source: `vector operator=(T a)`: the range-for over `begin()..end()` stores
`a` in every element. -/
def vector.op_assign_scalar {N : Nat} {T : Type} (_self : vector N T) (a : T) : vector N T :=
  ⟨fun _ => a⟩

/-- Source: `matrix operator=(T a)`. -/
def matrix.op_assign_scalar {N M : Nat} {T : Type} (_self : matrix N M T) (a : T) :
    matrix N M T :=
  ⟨fun _ => a⟩

/-! ## Text streams

The readers and writers of the two headers run on `std::istream` and
`std::ostream`.  The stream operations they call are library code; they are
modelled from the C++ standard (C++11 and later) on a stream over a fixed
character sequence, with the default flags (`skipws` set, base 10, "C" locale).
-/

/-- Modelled from the C++ standard ([ios.base], [istream]): the state of an
input stream that the reader can observe: the character sequence, the get
position, and the state bits. -/
structure istream where
  text : List Char
  pos : Nat
  eofbit : Bool
  failbit : Bool
  badbit : Bool
deriving DecidableEq

/-- Modelled from the C++ standard ([cctype.syn], "C" locale): `isspace`:
space, `\t`, `\n`, `\v`, `\f`, `\r`. -/
def isspace (c : Char) : Bool :=
  c.toNat == 32 || (decide (9 ≤ c.toNat) && decide (c.toNat ≤ 13))

/-- Modelled from the C++ standard: `isdigit`. -/
def isdigit (c : Char) : Bool :=
  decide (48 ≤ c.toNat) && decide (c.toNat ≤ 57)

namespace istream

/-- Modelled from the C++ standard ([iostate.flags]): `good()`. -/
def good (s : istream) : Bool := !s.eofbit && !s.failbit && !s.badbit

/-- Modelled from the C++ standard ([iostate.flags]): `fail()`. -/
def fail (s : istream) : Bool := s.failbit || s.badbit

/-- The characters from the get position on. -/
def rest (s : istream) : List Char := s.text.drop s.pos

/-- Modelled from the C++ standard ([istream.sentry]): construction of a
sentry with `noskipws = true`: a stream that is not good gets `failbit`. -/
def sentry (s : istream) : istream × Bool :=
  if s.good then (s, true) else ({ s with failbit := true }, false)

/-- Extraction of whitespace up to the next other character; `eofbit` is set
when the end of the sequence is reached. -/
def skip_ws (s : istream) : istream :=
  let k := (s.rest.takeWhile isspace).length
  { s with pos := s.pos + k, eofbit := s.eofbit || (s.rest.drop k).isEmpty }

/-- Modelled from the C++ standard ([istream.manip]): `is >> std::ws`. -/
def ws (s : istream) : istream :=
  if s.sentry.2 then s.sentry.1.skip_ws else s.sentry.1

/-- Modelled from the C++ standard ([istream.unformatted]): `is.get()`; `none`
is `traits::eof()`. -/
def get (s : istream) : istream × Option Char :=
  if s.sentry.2 then
    match s.sentry.1.rest with
    | c :: _ => ({ s.sentry.1 with pos := s.sentry.1.pos + 1 }, some c)
    | [] => ({ s.sentry.1 with eofbit := true, failbit := true }, none)
  else (s.sentry.1, none)

/-- Modelled from the C++ standard ([istream.unformatted]): `is.unget()`:
clears `eofbit`, then steps back one character; `badbit` at the start. -/
def unget (s : istream) : istream :=
  let s1 := ({ s with eofbit := false } : istream)
  if s1.sentry.2 then
    if 0 < s1.pos then { s1 with pos := s1.pos - 1 } else { s1 with badbit := true }
  else s1.sentry.1

/-- Modelled from the C++ standard ([istream.unformatted]): `is.tellg()`;
`none` is `pos_type(-1)`, returned when the stream has failed. -/
def tellg (s : istream) : istream × Option Nat :=
  if s.sentry.1.fail then (s.sentry.1, none) else (s.sentry.1, some s.sentry.1.pos)

/-- Modelled from the C++ standard ([istream.unformatted]): `is.seekg(pos)`:
clears `eofbit`; repositions only if the stream has not failed; a position
outside the sequence sets `failbit`. -/
def seekg (s : istream) (p : Option Nat) : istream :=
  let s1 := ({ s with eofbit := false } : istream)
  if s1.sentry.1.fail then s1.sentry.1
  else
    match p with
    | some q =>
      if q ≤ s1.text.length then { s1.sentry.1 with pos := q }
      else { s1.sentry.1 with failbit := true }
    | none => { s1.sentry.1 with failbit := true }

end istream

/-- Modelled from the C++ standard ([facet.num.get.virtuals]): what `num_get`
reports for one field: the number of characters accumulated, whether the end
of the sequence was reached, whether the conversion failed, and the value
stored in the target. -/
structure Extraction (T : Type) where
  consumed : Nat
  eof : Bool
  fail : Bool
  value : T

/-- Modelled from the C++ standard ([istream.formatted]): `is >> x` for an
arithmetic `x`, given `num_get` for its type.  The sentry skips whitespace;
reaching the end there sets `eofbit` and `failbit`.  `none` means that the
target is left untouched. -/
def istream.extract {T : Type} (num_get : List Char → Extraction T) (s : istream) :
    istream × Option T :=
  if s.good then
    let s1 := s.skip_ws
    if s1.rest.isEmpty then ({ s1 with eofbit := true, failbit := true }, none)
    else
      let r := num_get s1.rest
      ({ s1 with pos := s1.pos + r.consumed, eofbit := s1.eofbit || r.eof,
                 failbit := s1.failbit || r.fail }, some r.value)
  else ({ s with failbit := true }, none)

/-- Smallest value of `int` (32 bits). -/
def INT_MIN : Int := -2147483648

/-- Largest value of `int` (32 bits). -/
def INT_MAX : Int := 2147483647

/-- Value of a run of decimal digits. -/
def digits_value (ds : List Char) : Nat :=
  ds.foldl (fun acc c => 10 * acc + (c.toNat - 48)) 0

/-- Modelled from the C++ standard ([facet.num.get.virtuals], [istream.formatted.arithmetic]):
`num_get` for `int`, base 10: an optional sign and the digits that follow are
accumulated; no digit, or a value outside `int`, is a failure that stores 0 or
the nearest bound. -/
def int_get (cs : List Char) : Extraction Int :=
  let sign : List Char :=
    match cs with
    | c :: _ => if c = '-' ∨ c = '+' then [c] else []
    | [] => []
  let ds := (cs.drop sign.length).takeWhile isdigit
  let consumed := sign.length + ds.length
  let eof := (cs.drop consumed).isEmpty
  if ds.isEmpty then ⟨consumed, eof, true, 0⟩
  else
    let v : Int := if sign = ['-'] then - (digits_value ds : Int) else (digits_value ds : Int)
    if v < INT_MIN then ⟨consumed, eof, true, INT_MIN⟩
    else if INT_MAX < v then ⟨consumed, eof, true, INT_MAX⟩
    else ⟨consumed, eof, false, v⟩

/-- Decimal digits of `n`, most significant first (`fuel` bounds the number
of digits). -/
def put_digits : Nat → Nat → List Char
  | 0, _ => []
  | fuel + 1, n =>
    if n < 10 then [Char.ofNat (48 + n)]
    else put_digits fuel (n / 10) ++ [Char.ofNat (48 + n % 10)]

/-- Modelled from the C++ standard ([facet.num.put.virtuals]): `num_put` for
`int` with the default flags (`printf` conversion `%d`). -/
def int_put (v : Int) : List Char :=
  if v < 0 then '-' :: put_digits (v.natAbs + 1) v.natAbs
  else put_digits (v.natAbs + 1) v.natAbs

/-! ## Stream operators of the containers -/

/-- The statement `is >> a[i]`, where `store i a f` is the use of `a[i]` as
the target of a store. -/
def extract_into {σ T : Type} (num_get : List Char → Extraction T)
    (store : Nat → σ → (T → T) → Exec σ) (i : Nat) (st : istream × σ) : Exec (istream × σ) :=
  store i st.2 (fun t => ((st.1.extract num_get).2).getD t) >>= fun a =>
    pure ((st.1.extract num_get).1, a)

/-- The loop of the two readers from index `i` on, with `k` iterations left:
```
for (; i < n; ++i) {
    if (!is.good()) { is.seekg(pos); a = quiet_NaN; break; }
    is >> std::ws;
    char comma = is.get();
    if (!is.good()) { is.seekg(pos); a = quiet_NaN; break; }
    if (comma != ',') is.unget();
    is >> std::ws >> a[i];
}
```
-/
def read_loop {σ T : Type} (num_get : List Char → Extraction T)
    (store : Nat → σ → (T → T) → Exec σ) (fill : σ → σ) (pos : Option Nat) :
    Nat → Nat → istream × σ → Exec (istream × σ)
  | 0, _, st => pure st
  | k + 1, i, st =>
    if !st.1.good then pure (st.1.seekg pos, fill st.2)
    else
      let is1 := st.1.ws
      let is2 := is1.get.1
      let comma := is1.get.2
      if !is2.good then pure (is2.seekg pos, fill st.2)
      else
        let is3 := if comma ≠ some ',' then is2.unget else is2
        extract_into num_get store i (is3.ws, st.2) >>= read_loop num_get store fill pos k (i + 1)

/-- Body of the two readers after the test for an empty container, for a
container of `n` elements:
```
std::istream::pos_type pos = is.tellg();
is >> std::ws >> a[0];
for (size_t i = 1; i < n; ++i) { ... }
return is;
```
-/
def read_elements {σ T : Type} (num_get : List Char → Extraction T)
    (store : Nat → σ → (T → T) → Exec σ) (fill : σ → σ) (n : Nat)
    (st : istream × σ) : Exec (istream × σ) :=
  extract_into num_get store 0 (st.1.tellg.1.ws, st.2) >>=
    read_loop num_get store fill st.1.tellg.2 (n - 1) 1

/-- Source: `std::istream & operator>>(std::istream & is, vector<N, T> & a)`;
`num_get` is the extraction of a `T` and `quiet_NaN` is
`std::numeric_limits<T>::quiet_NaN()`. -/
def op_extract_v {N : Nat} {T : Type} (num_get : List Char → Extraction T) (quiet_NaN : T)
    (is : istream) (a : vector N T) : Exec (istream × vector N T) :=
  if N ≤ 0 then pure (is, a)
  else read_elements num_get (fun i a f => a.op_subscript_modify i f)
    (fun a => a.op_assign_scalar quiet_NaN) N (is, a)

/-- Source: `std::istream & operator>>(std::istream & is, matrix<N, M, T> & a)`. -/
def op_extract_m {N M : Nat} {T : Type} (num_get : List Char → Extraction T) (quiet_NaN : T)
    (is : istream) (a : matrix N M T) : Exec (istream × matrix N M T) :=
  if N ≤ 0 ∨ M ≤ 0 then pure (is, a)
  else read_elements num_get (fun i a f => a.op_subscript_modify i f)
    (fun a => a.op_assign_scalar quiet_NaN) (N * M) (is, a)

/-- Body of the two writers after the test for an empty container, on an
output stream in good state whose characters so far are `os`:
```
os << a[0];
for (size_t i = 1; i < n; ++i)
    os << ", " << a[i];
return os;
```
`num_put` is the formatting of a `T`; iteration `k` of the model is `i = k + 1`. -/
def write_elements {T : Type} (num_put : T → List Char) (read : Nat → Exec T) (n : Nat)
    (os : List Char) : Exec (List Char) :=
  read 0 >>= fun x =>
    forRange (n - 1) (fun k os => read (k + 1) >>= fun y =>
      pure (os ++ [',', ' '] ++ num_put y)) (os ++ num_put x)

/-- Source: `std::ostream & operator<<(std::ostream & os, const vector<N, T> & a)`. -/
def op_insert_v {N : Nat} {T : Type} (num_put : T → List Char) (os : List Char)
    (a : vector N T) : Exec (List Char) :=
  if N ≤ 0 then pure os
  else write_elements num_put (fun i => a.op_subscript i) N os

/-- Source: `std::ostream & operator<<(std::ostream & os, const matrix<N, M, T> & a)`. -/
def op_insert_m {N M : Nat} {T : Type} (num_put : T → List Char) (os : List Char)
    (a : matrix N M T) : Exec (List Char) :=
  if N ≤ 0 ∨ M ≤ 0 then pure os
  else write_elements num_put (fun i => a.op_subscript i) (N * M) os

/-! ## Input texts of the readers -/

/-- A separator between two elements: whitespace, at most one comma,
whitespace (possibly nothing at all). -/
def is_sep (s : List Char) : Bool :=
  match s.dropWhile isspace with
  | [] => true
  | c :: t => c == ',' && t.all isspace

/-- The text `e` is a decimal numeral of the `int` value `v`: an optional sign
followed by at least one digit. -/
def is_int_text (e : List Char) (v : Int) : Bool :=
  match e with
  | [] => false
  | c :: t =>
    if c = '-' then
      !t.isEmpty && t.all isdigit && decide (-(digits_value t : Int) = v) && decide (INT_MIN ≤ v)
    else if c = '+' then
      !t.isEmpty && t.all isdigit && decide ((digits_value t : Int) = v) && decide (v ≤ INT_MAX)
    else
      e.all isdigit && decide ((digits_value e : Int) = v) && decide (v ≤ INT_MAX)

/-- The separator `s` keeps the numeral `e` apart from the numeral before it:
it is not empty, or `e` starts with a sign. -/
def delimits (s e : List Char) : Bool :=
  !s.isEmpty || e.head? == some '-' || e.head? == some '+'

/-- One element of an input text: what precedes its numeral, the numeral, and
the value. -/
structure Item where
  sep : List Char
  text : List Char
  value : Int

/-- An element after the first: a separator that delimits, then a numeral. -/
def item_ok (it : Item) : Bool :=
  is_sep it.sep && is_int_text it.text it.value && delimits it.sep it.text

/-- The first element: leading whitespace, then a numeral. -/
def first_ok (it : Item) : Bool :=
  it.sep.all isspace && is_int_text it.text it.value

/-- The characters of a run of elements. -/
def items_text (items : List Item) : List Char :=
  items.flatMap (fun it => it.sep ++ it.text)

/-- The container after the values `vs` have been stored at the indices
`i, i + 1, ...`, where `upd i a f` replaces element `i` of `a` by `f` of it. -/
def store_all {σ T : Type} (upd : Nat → σ → (T → T) → σ) : Nat → List T → σ → σ
  | _, [], a => a
  | i, v :: vs, a => store_all upd (i + 1) vs (upd i a (fun _ => v))

/-- Specification of the written text, `E (", " E)*`: the formatted elements
in order, consecutive ones separated by a comma and a space; nothing for no
element. -/
def written_text {T : Type} (num_put : T → List Char) : List T → List Char
  | [] => []
  | x :: xs => num_put x ++ xs.flatMap (fun y => [',', ' '] ++ num_put y)

/-! ## Comparison operators -/

/-- The comparison loop of `operator==` from index `i` on, with `k` iterations
left; `read_a i` and `read_b i` are `a[i]` and `b[i]`:
```
for (; i < n; ++i)
    if (a[i] != b[i])
        return false;
return true;
```
-/
def eq_loop {T : Type} [DecidableEq T] (read_a read_b : Nat → Exec T) :
    Nat → Nat → Exec Bool
  | 0, _ => pure true
  | k + 1, i =>
    read_a i >>= fun x => read_b i >>= fun y =>
      if x ≠ y then pure false else eq_loop read_a read_b k (i + 1)

/-- Source: `bool operator==(const vector<N, T> & a, const vector<M, T> & b)`. -/
def op_eq_v {N M : Nat} {T : Type} [DecidableEq T] (a : vector N T) (b : vector M T) :
    Exec Bool :=
  if M ≠ N then pure false
  else eq_loop (fun i => a.op_subscript i) (fun i => b.op_subscript i) N 0

/-- Source: `bool operator!=(const vector<N, T> & a, const vector<M, T> & b)`. -/
def op_ne_v {N M : Nat} {T : Type} [DecidableEq T] (a : vector N T) (b : vector M T) :
    Exec Bool :=
  op_eq_v a b >>= fun r => pure (!r)

/-- Source: `bool operator==(const matrix<N, M, T> & a, const matrix<I, J, T> & b)`. -/
def op_eq_m {N M I J : Nat} {T : Type} [DecidableEq T] (a : matrix N M T)
    (b : matrix I J T) : Exec Bool :=
  if N ≠ I ∨ M ≠ J then pure false
  else eq_loop (fun i => a.op_subscript i) (fun i => b.op_subscript i) (N * M) 0

/-- Source: `bool operator!=(const matrix<N, M, T> & a, const matrix<I, J, T> & b)`. -/
def op_ne_m {N M I J : Nat} {T : Type} [DecidableEq T] (a : matrix N M T)
    (b : matrix I J T) : Exec Bool :=
  op_eq_m a b >>= fun r => pure (!r)

/-! ## matrix.hpp: negation and resizing -/

/-- Source: `matrix operator-()`.  The local `matrix<N, M, T> b;` is not
initialised: `b0` stands for its indeterminate initial contents. -/
def matrix.op_neg {N M : Nat} {T : Type} [Neg T] (a : matrix N M T) (b0 : matrix N M T) :
    Exec (matrix N M T) :=
  forRange (N * M) (fun i b => do
    let x ← a.op_subscript i
    b.op_subscript_modify i (fun _ => -x)) b0

/-- Source: `vecmat::matrix<N, M, T> resize_cast(const vecmat::matrix<I, J, U> & a)`;
`cast` is `static_cast<T>` on `U`. -/
def resize_cast_m (N M : Nat) {I J : Nat} {T U : Type} [Zero T] [Zero U] (cast : U → T)
    (a : matrix I J U) : Exec (matrix N M T) :=
  forRange M (fun m b =>
    forRange N (fun n b => do
      let x ← (if n < I ∧ m < J then a.op_call n m else pure 0)
      b.op_call_modify n m (fun _ => cast x)) b) matrix.zero

/-! ## Compound assignment and scalar-on-left subtraction -/

/-- Outcome of a member operator that changes `*this` and ends in
`return *this;`: the container after the call, and the container that the
returned reference denotes. -/
structure Assigned (C : Type) where
  target : C
  returned : C

/-- The object that the parameter `const T & a` of a member function of a
container of `n` elements is bound to: an object that is not part of the
container and holds `s` throughout the call (a temporary, or a variable of the
caller), or element `j` of `*this`. -/
inductive ScalarRef (n : Nat) (T : Type) where
  | outside (s : T) : ScalarRef n T
  | element (j : Fin n) : ScalarRef n T

/-- The value read through the reference while the container holds `data`. -/
def ScalarRef.read {n : Nat} {T : Type} (a : ScalarRef n T) (data : Fin n → T) : T :=
  match a with
  | ScalarRef.outside s => s
  | ScalarRef.element j => data j

/-- The loop `for (auto & v: *this) v = v op a;` of the scalar compound
assignments from element `i` on, with `k` iterations left: each iteration
reads `a` through the reference and stores into the element it visits. -/
def scalar_loop {n : Nat} {T : Type} (op : T → T → T) (a : ScalarRef n T) :
    Nat → Nat → (Fin n → T) → (Fin n → T)
  | 0, _, d => d
  | k + 1, i, d =>
    scalar_loop op a k (i + 1) (fun x => if x.val = i then op (d x) (a.read d) else d x)

/-- Source: `vector & operator+=(const T & a)`: `for (auto & v: *this) v += a;`. -/
def vector.op_add_assign_scalar {N : Nat} {T : Type} [Add T] (self : vector N T)
    (a : ScalarRef N T) : Assigned (vector N T) :=
  ⟨⟨scalar_loop (fun v s => v + s) a N 0 self.data⟩,
   ⟨scalar_loop (fun v s => v + s) a N 0 self.data⟩⟩

/-- Source: `matrix & operator+=(const T & a)`: `for (auto & v: *this) v += a;`. -/
def matrix.op_add_assign_scalar {N M : Nat} {T : Type} [Add T] (self : matrix N M T)
    (a : ScalarRef (N * M) T) : Assigned (matrix N M T) :=
  ⟨⟨scalar_loop (fun v s => v + s) a (N * M) 0 self.data⟩,
   ⟨scalar_loop (fun v s => v + s) a (N * M) 0 self.data⟩⟩

/-- Source: `vector & operator+=(const vector & a)`: `std::transform` over
`a` and `*this` with `[](T s, T t) -> T { return t + s; }`, stored in `*this`. -/
def vector.op_add_assign {N : Nat} {T : Type} [Add T] (self a : vector N T) :
    Assigned (vector N T) :=
  ⟨⟨fun k => (fun s t => t + s) (a.data k) (self.data k)⟩,
   ⟨fun k => (fun s t => t + s) (a.data k) (self.data k)⟩⟩

/-- Source: `vector & operator-=(const vector & a)`, lambda `return t - s;`. -/
def vector.op_sub_assign {N : Nat} {T : Type} [Sub T] (self a : vector N T) :
    Assigned (vector N T) :=
  ⟨⟨fun k => (fun s t => t - s) (a.data k) (self.data k)⟩,
   ⟨fun k => (fun s t => t - s) (a.data k) (self.data k)⟩⟩

/-- Source: `vector & operator*=(const vector & a)`, lambda `return t * s;`. -/
def vector.op_mul_assign {N : Nat} {T : Type} [Mul T] (self a : vector N T) :
    Assigned (vector N T) :=
  ⟨⟨fun k => (fun s t => t * s) (a.data k) (self.data k)⟩,
   ⟨fun k => (fun s t => t * s) (a.data k) (self.data k)⟩⟩

/-- Source: `vector & operator/=(const vector & a)`, lambda `return t / s;`. -/
def vector.op_div_assign {N : Nat} {T : Type} [Div T] (self a : vector N T) :
    Assigned (vector N T) :=
  ⟨⟨fun k => (fun s t => t / s) (a.data k) (self.data k)⟩,
   ⟨fun k => (fun s t => t / s) (a.data k) (self.data k)⟩⟩

/-- Source: `matrix & operator+=(const matrix & a)`, lambda `return t + s;`. -/
def matrix.op_add_assign {N M : Nat} {T : Type} [Add T] (self a : matrix N M T) :
    Assigned (matrix N M T) :=
  ⟨⟨fun k => (fun s t => t + s) (a.data k) (self.data k)⟩,
   ⟨fun k => (fun s t => t + s) (a.data k) (self.data k)⟩⟩

/-- Source: `matrix & operator-=(const matrix & a)`, lambda `return t - s;`. -/
def matrix.op_sub_assign {N M : Nat} {T : Type} [Sub T] (self a : matrix N M T) :
    Assigned (matrix N M T) :=
  ⟨⟨fun k => (fun s t => t - s) (a.data k) (self.data k)⟩,
   ⟨fun k => (fun s t => t - s) (a.data k) (self.data k)⟩⟩

/-- Source: `matrix & operator*=(const matrix & a)`, lambda `return t * s;`. -/
def matrix.op_mul_assign {N M : Nat} {T : Type} [Mul T] (self a : matrix N M T) :
    Assigned (matrix N M T) :=
  ⟨⟨fun k => (fun s t => t * s) (a.data k) (self.data k)⟩,
   ⟨fun k => (fun s t => t * s) (a.data k) (self.data k)⟩⟩

/-- Source: `matrix & operator/=(const matrix & a)`, lambda `return t / s;`. -/
def matrix.op_div_assign {N M : Nat} {T : Type} [Div T] (self a : matrix N M T) :
    Assigned (matrix N M T) :=
  ⟨⟨fun k => (fun s t => t / s) (a.data k) (self.data k)⟩,
   ⟨fun k => (fun s t => t / s) (a.data k) (self.data k)⟩⟩

/-- Source: `vector<N, T> operator-(const U & a, vector<N, T> b)`:
`return (-b) += static_cast<T>(a);`.  `b` is the function's own copy of the
operand; `b0` is the indeterminate local of `operator-()`; the scalar is the
temporary made by the cast. -/
def op_sub_sv {N : Nat} {T U : Type} [Neg T] [Add T] (cast : U → T) (a : U)
    (b : vector N T) (b0 : vector N T) : Exec (vector N T) :=
  b.op_neg b0 >>= fun nb => pure (nb.op_add_assign_scalar (ScalarRef.outside (cast a))).returned

/-- Source: `matrix<N, M, T> operator-(const U & a, matrix<N, M, T> b)`. -/
def op_sub_sm {N M : Nat} {T U : Type} [Neg T] [Add T] (cast : U → T) (a : U)
    (b : matrix N M T) (b0 : matrix N M T) : Exec (matrix N M T) :=
  b.op_neg b0 >>= fun nb => pure (nb.op_add_assign_scalar (ScalarRef.outside (cast a))).returned

/-! ## Input texts on which a read fails -/

/-- Where the numeral of a further element would have to start: after
whitespace, at most one comma, and whitespace. -/
def next_field (rest : List Char) : List Char :=
  let r1 := rest.dropWhile isspace
  let r2 := if r1.head? = some ',' then r1.tail else r1
  r2.dropWhile isspace

/-- No `int` can be obtained at the start of `field`: the data has ended or
`num_get` fails there. -/
def no_int_at (field : List Char) : Bool :=
  field.isEmpty || (int_get field).fail

/-- The elements of an input text that can be obtained: none, or a first
element followed by further ones. -/
def elems_ok (elems : List Item) : Bool :=
  match elems with
  | [] => true
  | first :: others => first_ok first && others.all item_ok

/-- After the elements `elems` no further element can be obtained from
`rest`: the first element is looked for after whitespace, a further one after
a separator. -/
def no_element (elems : List Item) (rest : List Char) : Bool :=
  match elems with
  | [] => no_int_at (rest.dropWhile isspace)
  | _ :: _ => no_int_at (next_field rest)

/-! ## Scalar compound assignment and binary operators -/

/-- Source: `vector & operator-=(const T & a)`: `for (auto & v: *this) v -= a;`. -/
def vector.op_sub_assign_scalar {N : Nat} {T : Type} [Sub T] (self : vector N T)
    (a : ScalarRef N T) : Assigned (vector N T) :=
  ⟨⟨scalar_loop (fun v s => v - s) a N 0 self.data⟩,
   ⟨scalar_loop (fun v s => v - s) a N 0 self.data⟩⟩

/-- Source: `vector & operator*=(const T & a)`: `for (auto & v: *this) v *= a;`. -/
def vector.op_mul_assign_scalar {N : Nat} {T : Type} [Mul T] (self : vector N T)
    (a : ScalarRef N T) : Assigned (vector N T) :=
  ⟨⟨scalar_loop (fun v s => v * s) a N 0 self.data⟩,
   ⟨scalar_loop (fun v s => v * s) a N 0 self.data⟩⟩

/-- Source: `vector & operator/=(const T & a)`: `for (auto & v: *this) v /= a;`. -/
def vector.op_div_assign_scalar {N : Nat} {T : Type} [Div T] (self : vector N T)
    (a : ScalarRef N T) : Assigned (vector N T) :=
  ⟨⟨scalar_loop (fun v s => v / s) a N 0 self.data⟩,
   ⟨scalar_loop (fun v s => v / s) a N 0 self.data⟩⟩

/-- Source: `matrix & operator-=(const T & a)`: `for (auto & v: *this) v -= a;`. -/
def matrix.op_sub_assign_scalar {N M : Nat} {T : Type} [Sub T] (self : matrix N M T)
    (a : ScalarRef (N * M) T) : Assigned (matrix N M T) :=
  ⟨⟨scalar_loop (fun v s => v - s) a (N * M) 0 self.data⟩,
   ⟨scalar_loop (fun v s => v - s) a (N * M) 0 self.data⟩⟩

/-- Source: `matrix & operator*=(const T & a)`: `for (auto & v: *this) v *= a;`. -/
def matrix.op_mul_assign_scalar {N M : Nat} {T : Type} [Mul T] (self : matrix N M T)
    (a : ScalarRef (N * M) T) : Assigned (matrix N M T) :=
  ⟨⟨scalar_loop (fun v s => v * s) a (N * M) 0 self.data⟩,
   ⟨scalar_loop (fun v s => v * s) a (N * M) 0 self.data⟩⟩

/-- Source: `matrix & operator/=(const T & a)`: `for (auto & v: *this) v /= a;`. -/
def matrix.op_div_assign_scalar {N M : Nat} {T : Type} [Div T] (self : matrix N M T)
    (a : ScalarRef (N * M) T) : Assigned (matrix N M T) :=
  ⟨⟨scalar_loop (fun v s => v / s) a (N * M) 0 self.data⟩,
   ⟨scalar_loop (fun v s => v / s) a (N * M) 0 self.data⟩⟩

/-- Source: `vector<N, T> operator+(const U & a, vector<N, T> b)`:
`return b += static_cast<T>(a);` on the function's own copy `b`;
the scalar is the temporary made by the cast. -/
def op_add_sv {N : Nat} {T U : Type} [Add T] (cast : U → T) (a : U) (b : vector N T) :
    vector N T :=
  (b.op_add_assign_scalar (ScalarRef.outside (cast a))).returned

/-- Source: `vector<N, T> operator+(vector<N, T> a, const U & b)`:
`return a += static_cast<T>(b);` on the function's own copy `a`;
the scalar is the temporary made by the cast. -/
def op_add_vs {N : Nat} {T U : Type} [Add T] (cast : U → T) (a : vector N T) (b : U) :
    vector N T :=
  (a.op_add_assign_scalar (ScalarRef.outside (cast b))).returned

/-- Source: `vector<N, T> operator+(vector<N, T> a, const vector<N, T> & b)`:
`return a += b;` on the function's own copy `a`. -/
def op_add_vv {N : Nat} {T : Type} [Add T] (a b : vector N T) : vector N T :=
  (a.op_add_assign b).returned

/-- Source: `vector<N, T> operator-(vector<N, T> a, const U & b)`:
`return a -= static_cast<T>(b);` on the function's own copy `a`;
the scalar is the temporary made by the cast. -/
def op_sub_vs {N : Nat} {T U : Type} [Sub T] (cast : U → T) (a : vector N T) (b : U) :
    vector N T :=
  (a.op_sub_assign_scalar (ScalarRef.outside (cast b))).returned

/-- Source: `vector<N, T> operator-(vector<N, T> a, const vector<N, T> & b)`:
`return a -= b;` on the function's own copy `a`. -/
def op_sub_vv {N : Nat} {T : Type} [Sub T] (a b : vector N T) : vector N T :=
  (a.op_sub_assign b).returned

/-- Source: `vector<N, T> operator*(const U & a, vector<N, T> b)`:
`return b *= static_cast<T>(a);` on the function's own copy `b`;
the scalar is the temporary made by the cast. -/
def op_mul_sv {N : Nat} {T U : Type} [Mul T] (cast : U → T) (a : U) (b : vector N T) :
    vector N T :=
  (b.op_mul_assign_scalar (ScalarRef.outside (cast a))).returned

/-- Source: `vector<N, T> operator*(vector<N, T> a, const U & b)`:
`return a *= static_cast<T>(b);` on the function's own copy `a`;
the scalar is the temporary made by the cast. -/
def op_mul_vs {N : Nat} {T U : Type} [Mul T] (cast : U → T) (a : vector N T) (b : U) :
    vector N T :=
  (a.op_mul_assign_scalar (ScalarRef.outside (cast b))).returned

/-- Source: `vector<N, T> operator*(vector<N, T> a, const vector<N, T> & b)`:
`return a *= b;` on the function's own copy `a`. -/
def op_mul_vv {N : Nat} {T : Type} [Mul T] (a b : vector N T) : vector N T :=
  (a.op_mul_assign b).returned

/-- Source: `vector<N, T> operator/(vector<N, T> a, const U & b)`:
`return a /= static_cast<T>(b);` on the function's own copy `a`;
the scalar is the temporary made by the cast. -/
def op_div_vs {N : Nat} {T U : Type} [Div T] (cast : U → T) (a : vector N T) (b : U) :
    vector N T :=
  (a.op_div_assign_scalar (ScalarRef.outside (cast b))).returned

/-- Source: `vector<N, T> operator/(vector<N, T> a, const vector<N, T> & b)`:
`return a /= b;` on the function's own copy `a`. -/
def op_div_vv {N : Nat} {T : Type} [Div T] (a b : vector N T) : vector N T :=
  (a.op_div_assign b).returned

/-- Source: `matrix<N, M, T> operator+(const U & a, matrix<N, M, T> b)`:
`return b += static_cast<T>(a);` on the function's own copy `b`;
the scalar is the temporary made by the cast. -/
def op_add_sm {N M : Nat} {T U : Type} [Add T] (cast : U → T) (a : U) (b : matrix N M T) :
    matrix N M T :=
  (b.op_add_assign_scalar (ScalarRef.outside (cast a))).returned

/-- Source: `matrix<N, M, T> operator+(matrix<N, M, T> a, const U & b)`:
`return a += static_cast<T>(b);` on the function's own copy `a`;
the scalar is the temporary made by the cast. -/
def op_add_ms {N M : Nat} {T U : Type} [Add T] (cast : U → T) (a : matrix N M T) (b : U) :
    matrix N M T :=
  (a.op_add_assign_scalar (ScalarRef.outside (cast b))).returned

/-- Source: `matrix<N, M, T> operator+(matrix<N, M, T> a, const matrix<N, M, T> & b)`:
`return a += b;` on the function's own copy `a`. -/
def op_add_mm {N M : Nat} {T : Type} [Add T] (a b : matrix N M T) : matrix N M T :=
  (a.op_add_assign b).returned

/-- Source: `matrix<N, M, T> operator-(matrix<N, M, T> a, const U & b)`:
`return a -= static_cast<T>(b);` on the function's own copy `a`;
the scalar is the temporary made by the cast. -/
def op_sub_ms {N M : Nat} {T U : Type} [Sub T] (cast : U → T) (a : matrix N M T) (b : U) :
    matrix N M T :=
  (a.op_sub_assign_scalar (ScalarRef.outside (cast b))).returned

/-- Source: `matrix<N, M, T> operator-(matrix<N, M, T> a, const matrix<N, M, T> & b)`:
`return a -= b;` on the function's own copy `a`. -/
def op_sub_mm {N M : Nat} {T : Type} [Sub T] (a b : matrix N M T) : matrix N M T :=
  (a.op_sub_assign b).returned

/-- Source: `matrix<N, M, T> operator*(const U & a, matrix<N, M, T> b)`:
`return b *= static_cast<T>(a);` on the function's own copy `b`;
the scalar is the temporary made by the cast. -/
def op_mul_sm {N M : Nat} {T U : Type} [Mul T] (cast : U → T) (a : U) (b : matrix N M T) :
    matrix N M T :=
  (b.op_mul_assign_scalar (ScalarRef.outside (cast a))).returned

/-- Source: `matrix<N, M, T> operator*(matrix<N, M, T> a, const U & b)`:
`return a *= static_cast<T>(b);` on the function's own copy `a`;
the scalar is the temporary made by the cast. -/
def op_mul_ms {N M : Nat} {T U : Type} [Mul T] (cast : U → T) (a : matrix N M T) (b : U) :
    matrix N M T :=
  (a.op_mul_assign_scalar (ScalarRef.outside (cast b))).returned

/-- Source: `matrix<N, M, T> operator*(matrix<N, M, T> a, const matrix<N, M, T> & b)`:
`return a *= b;` on the function's own copy `a`. -/
def op_mul_mm {N M : Nat} {T : Type} [Mul T] (a b : matrix N M T) : matrix N M T :=
  (a.op_mul_assign b).returned

/-- Source: `matrix<N, M, T> operator/(matrix<N, M, T> a, const U & b)`:
`return a /= static_cast<T>(b);` on the function's own copy `a`;
the scalar is the temporary made by the cast. -/
def op_div_ms {N M : Nat} {T U : Type} [Div T] (cast : U → T) (a : matrix N M T) (b : U) :
    matrix N M T :=
  (a.op_div_assign_scalar (ScalarRef.outside (cast b))).returned

/-- Source: `matrix<N, M, T> operator/(matrix<N, M, T> a, const matrix<N, M, T> & b)`:
`return a /= b;` on the function's own copy `a`. -/
def op_div_mm {N M : Nat} {T : Type} [Div T] (a b : matrix N M T) : matrix N M T :=
  (a.op_div_assign b).returned

/-! ## Running code: basic facts -/

theorem Exec.result_pure {α : Type} (v : α) :
    (pure v : Exec α).result = Outcome.ok v := rfl

theorem Exec.result_bind_ok {α β : Type} {x : Exec α} {v : α} (f : α → Exec β)
    (h : x.result = Outcome.ok v) : (x >>= f).result = (f v).result := by
  show (Exec.andThen x f).result = (f v).result
  unfold Exec.andThen
  rw [h]

theorem idx_lt {N M i j : Nat} (hi : i < N) (hj : j < M) : i + j * N < N * M := by
  calc i + j * N < N + j * N := by omega
    _ = (j + 1) * N := by ring
    _ ≤ M * N := Nat.mul_le_mul_right N hj
    _ = N * M := Nat.mul_comm M N

theorem idx_inj {N n o n' o' : Nat} (hn : n < N) (hn' : n' < N)
    (h : n + o * N = n' + o' * N) : n = n' ∧ o = o' := by
  have hpos : 0 < N := by omega
  have h1 : (n + o * N) % N = n := by
    rw [Nat.add_mul_mod_self_right, Nat.mod_eq_of_lt hn]
  have h2 : (n' + o' * N) % N = n' := by
    rw [Nat.add_mul_mod_self_right, Nat.mod_eq_of_lt hn']
  have hnn : n = n' := by rw [← h1, ← h2, h]
  subst hnn
  have h3 : o * N = o' * N := by omega
  exact ⟨rfl, Nat.eq_of_mul_eq_mul_right hpos h3⟩

theorem raw_read_result {K : Nat} {T : Type} (data : Fin K → T) (i : Nat) (h : i < K) :
    (raw_read data i).result = Outcome.ok (data ⟨i, h⟩) := by
  unfold raw_read
  rw [dif_pos h]

theorem raw_modify_result {K : Nat} {T : Type} (data : Fin K → T) (i : Nat) (f : T → T)
    (h : i < K) :
    (raw_modify data i f).result
      = Outcome.ok (fun x => if x.val = i then f (data x) else data x) := by
  unfold raw_modify
  rw [if_pos h]

/-- Loop rule for accumulating loops: when every iteration completes and adds
`h i` to the observed part `π` of the state, the loop completes and has added
the sum of the `h i`. -/
theorem forRange_sum {σ ι T : Type} [AddCommMonoid T] (π : σ → ι → T)
    (n : Nat) (body : Nat → σ → Exec σ) (h : Nat → ι → T)
    (hbody : ∀ i, i < n → ∀ s, ∃ s', (body i s).result = Outcome.ok s' ∧
      ∀ x, π s' x = π s x + h i x)
    (s : σ) :
    ∃ s', (forRange n body s).result = Outcome.ok s' ∧
      ∀ x, π s' x = π s x + ∑ i in Finset.range n, h i x := by
  induction n with
  | zero => exact ⟨s, rfl, fun x => by simp⟩
  | succ k ih =>
    obtain ⟨s1, hs1, hp1⟩ := ih (fun i hi => hbody i (Nat.lt_succ_of_lt hi))
    obtain ⟨s2, hs2, hp2⟩ := hbody k (Nat.lt_succ_self k) s1
    refine ⟨s2, ?_, fun x => ?_⟩
    · show (forRange k body s >>= body k).result = Outcome.ok s2
      rw [Exec.result_bind_ok _ hs1, hs2]
    · rw [hp2, hp1, Finset.sum_range_succ, add_assoc]

theorem vector.op_subscript_result {N : Nat} {T : Type} (a : vector N T) (i : Fin N) :
    (a.op_subscript i.val).result = Outcome.ok (a.data i) :=
  raw_read_result a.data i.val i.isLt

theorem vector.op_subscript_modify_result {N : Nat} {T : Type} (a : vector N T)
    (i : Nat) (f : T → T) (h : i < N) :
    (a.op_subscript_modify i f).result
      = Outcome.ok ⟨fun x => if x.val = i then f (a.data x) else a.data x⟩ := by
  unfold vector.op_subscript_modify
  rw [Exec.result_bind_ok _ (raw_modify_result a.data i f h)]
  rfl

theorem vector.vec_call_result {N : Nat} {T : Type} (a : vector N T) (i : Fin N) :
    (a.op_call i.val).result = Outcome.ok (a.data i) :=
  a.op_subscript_result i

theorem vector.vec_call_modify_result {N : Nat} {T : Type} (a : vector N T)
    (i : Nat) (f : T → T) (h : i < N) :
    (a.op_call_modify i f).result
      = Outcome.ok ⟨fun x => if x.val = i then f (a.data x) else a.data x⟩ :=
  a.op_subscript_modify_result i f h

theorem matrix.op_call_eq {N M : Nat} {T : Type} (a : matrix N M T) (i j : Nat)
    (hi : i < N) (hj : j < M) (hsz : N * M ≤ SIZE_MAX) :
    a.op_call i j = a.op_subscript (i + j * N) := by
  have hk : i + j * N < SIZE_MAX + 1 := by
    have := idx_lt hi hj
    omega
  unfold matrix.op_call
  simp only [Nat.mod_eq_of_lt hk]

theorem matrix.op_call_result {N M : Nat} {T : Type} (a : matrix N M T)
    (i : Fin N) (j : Fin M) (hsz : N * M ≤ SIZE_MAX) :
    (a.op_call i.val j.val).result = Outcome.ok (a.cell i j) := by
  rw [matrix.op_call_eq a i.val j.val i.isLt j.isLt hsz]
  exact raw_read_result a.data _ (idx_lt i.isLt j.isLt)

theorem matrix.op_call_modify_result {N M : Nat} {T : Type} (a : matrix N M T)
    (i j : Nat) (f : T → T) (hi : i < N) (hj : j < M) (hsz : N * M ≤ SIZE_MAX) :
    (a.op_call_modify i j f).result
      = Outcome.ok ⟨fun x => if x.val = i + j * N then f (a.data x) else a.data x⟩ := by
  have hk : i + j * N < SIZE_MAX + 1 := by
    have := idx_lt hi hj
    omega
  unfold matrix.op_call_modify matrix.op_subscript_modify
  simp only [Nat.mod_eq_of_lt hk]
  rw [Exec.result_bind_ok _ (raw_modify_result a.data _ f (idx_lt hi hj))]
  rfl

/-- Result of the vector inner product. -/
theorem dot_vv_result {N : Nat} {T : Type} [Semiring T] (a b : vector N T) :
    (dot_vv a b).result = Outcome.ok (∑ i : Fin N, a.data i * b.data i) := by
  obtain ⟨s, hs, hp⟩ := forRange_sum (fun (s : T) (_ : Unit) => s) N
    (fun i ret => do
      let x ← a.op_subscript i
      let y ← b.op_subscript i
      pure (ret + x * y))
    (fun i _ => if h : i < N then a.data ⟨i, h⟩ * b.data ⟨i, h⟩ else 0)
    (fun i hi s => ⟨s + a.data ⟨i, hi⟩ * b.data ⟨i, hi⟩, by
      rw [Exec.result_bind_ok _ (a.op_subscript_result ⟨i, hi⟩),
        Exec.result_bind_ok _ (b.op_subscript_result ⟨i, hi⟩)]
      rfl, fun _ => by simp [hi]⟩) 0
  have h := hp ()
  simp only [zero_add] at h
  unfold dot_vv
  rw [hs, h, Finset.sum_range]
  simp

theorem sum_ite_const {ι T : Type} [AddCommMonoid T] (p : Prop) [Decidable p]
    (s : Finset ι) (f : ι → T) :
    (∑ i in s, if p then f i else 0) = if p then ∑ i in s, f i else 0 := by
  split_ifs <;> simp

/-- A double sum over all cells that keeps only the cell with linear index
`n0 + o0 * N` keeps the term of `(n0, o0)`. -/
theorem sum_idx_eq {T : Type} [AddCommMonoid T] (N O n0 o0 : Nat)
    (hn0 : n0 < N) (ho0 : o0 < O) (F : Nat → Nat → T) :
    (∑ o in Finset.range O, ∑ n in Finset.range N,
      if n0 + o0 * N = n + o * N then F n o else 0) = F n0 o0 := by
  rw [Finset.sum_eq_single o0]
  · rw [Finset.sum_eq_single n0]
    · simp
    · intro n hn hne
      rw [if_neg]
      intro h
      exact hne (idx_inj hn0 (Finset.mem_range.mp hn) h).1.symm
    · intro h
      exact absurd (Finset.mem_range.mpr hn0) h
  · intro o _ hne
    apply Finset.sum_eq_zero
    intro n hn
    rw [if_neg]
    intro h
    exact hne (idx_inj hn0 (Finset.mem_range.mp hn) h).2.symm
  · intro h
    exact absurd (Finset.mem_range.mpr ho0) h

/-- Result of the matrix product, cell by cell. -/
theorem dot_mm_result {N M O : Nat} {T : Type} [Semiring T]
    (a : matrix N M T) (b : matrix M O T)
    (hNM : N * M ≤ SIZE_MAX) (hMO : M * O ≤ SIZE_MAX) (hNO : N * O ≤ SIZE_MAX) :
    ∃ c, (dot_mm a b).result = Outcome.ok c ∧
      ∀ (n : Fin N) (o : Fin O), c.cell n o = ∑ m : Fin M, a.cell n m * b.cell m o := by
  obtain ⟨g, hg⟩ : ∃ g : Nat → Nat → Nat → T,
      ∀ (n : Fin N) (m : Fin M) (o : Fin O), g n m o = a.cell n m * b.cell m o :=
    ⟨fun n m o => if h : n < N ∧ m < M ∧ o < O then
        a.cell ⟨n, h.1⟩ ⟨m, h.2.1⟩ * b.cell ⟨m, h.2.1⟩ ⟨o, h.2.2⟩ else 0,
      fun n m o => by simp [n.isLt, m.isLt, o.isLt]⟩
  -- the statement inside the innermost loop
  have hstmt : ∀ o, o < O → ∀ n, n < N → ∀ m, m < M → ∀ c : matrix N O T,
      ∃ c', (do
          let x ← a.op_call n m
          let y ← b.op_call m o
          c.op_call_modify n o (fun t => t + x * y)).result = Outcome.ok c' ∧
        ∀ x, c'.data x = c.data x + (if x.val = n + o * N then g n m o else 0) := by
    intro o ho n hn m hm c
    refine ⟨⟨fun x => if x.val = n + o * N then
      c.data x + a.cell ⟨n, hn⟩ ⟨m, hm⟩ * b.cell ⟨m, hm⟩ ⟨o, ho⟩ else c.data x⟩, ?_, ?_⟩
    · rw [Exec.result_bind_ok _ (a.op_call_result ⟨n, hn⟩ ⟨m, hm⟩ hNM),
        Exec.result_bind_ok _ (b.op_call_result ⟨m, hm⟩ ⟨o, ho⟩ hMO)]
      exact c.op_call_modify_result n o _ hn ho hNO
    · intro x
      have := hg ⟨n, hn⟩ ⟨m, hm⟩ ⟨o, ho⟩
      simp only at this
      rw [this]
      by_cases hx : x.val = n + o * N
      · simp only [if_pos hx]
      · simp only [if_neg hx, add_zero]
  -- the loop over m
  have hm_loop : ∀ o, o < O → ∀ n, n < N → ∀ c : matrix N O T,
      ∃ c', (forRange M (fun m c => do
          let x ← a.op_call n m
          let y ← b.op_call m o
          c.op_call_modify n o (fun t => t + x * y)) c).result = Outcome.ok c' ∧
        ∀ x, c'.data x = c.data x +
          ∑ m in Finset.range M, (if x.val = n + o * N then g n m o else 0) :=
    fun o ho n hn c =>
      forRange_sum (fun (c : matrix N O T) => c.data) M _ _
        (fun m hm c => hstmt o ho n hn m hm c) c
  -- the loop over n
  have hn_loop : ∀ o, o < O → ∀ c : matrix N O T,
      ∃ c', (forRange N (fun n c => forRange M (fun m c => do
          let x ← a.op_call n m
          let y ← b.op_call m o
          c.op_call_modify n o (fun t => t + x * y)) c) c).result = Outcome.ok c' ∧
        ∀ x, c'.data x = c.data x + ∑ n in Finset.range N,
          ∑ m in Finset.range M, (if x.val = n + o * N then g n m o else 0) :=
    fun o ho c =>
      forRange_sum (fun (c : matrix N O T) => c.data) N _ _
        (fun n hn c => hm_loop o ho n hn c) c
  -- the loop over o
  obtain ⟨c, hc, hdata⟩ := forRange_sum (fun (c : matrix N O T) => c.data) O _ _
    (fun o ho c => hn_loop o ho c) (matrix.zero : matrix N O T)
  refine ⟨c, hc, fun n o => ?_⟩
  unfold matrix.cell
  rw [hdata]
  simp only [matrix.zero, zero_add, sum_ite_const]
  rw [sum_idx_eq N O n.val o.val n.isLt o.isLt (fun n o => ∑ m in Finset.range M, g n m o),
    Finset.sum_range]
  exact Finset.sum_congr rfl (fun m _ => hg n m o)

/-- Result of the matrix-vector product, element by element. -/
theorem dot_mv_result {N M : Nat} {T : Type} [Semiring T]
    (a : matrix N M T) (b : vector M T) (hNM : N * M ≤ SIZE_MAX) :
    ∃ c, (dot_mv a b).result = Outcome.ok c ∧
      ∀ n : Fin N, c.data n = ∑ m : Fin M, a.cell n m * b.data m := by
  obtain ⟨g, hg⟩ : ∃ g : Nat → Nat → T,
      ∀ (n : Fin N) (m : Fin M), g n m = a.cell n m * b.data m :=
    ⟨fun n m => if h : n < N ∧ m < M then a.cell ⟨n, h.1⟩ ⟨m, h.2⟩ * b.data ⟨m, h.2⟩ else 0,
      fun n m => by simp [n.isLt, m.isLt]⟩
  have hstmt : ∀ n, n < N → ∀ m, m < M → ∀ c : vector N T,
      ∃ c', (do
          let x ← a.op_call n m
          let y ← b.op_call m
          c.op_call_modify n (fun t => t + x * y)).result = Outcome.ok c' ∧
        ∀ x, c'.data x = c.data x + (if x.val = n then g n m else 0) := by
    intro n hn m hm c
    refine ⟨⟨fun x => if x.val = n then
      c.data x + a.cell ⟨n, hn⟩ ⟨m, hm⟩ * b.data ⟨m, hm⟩ else c.data x⟩, ?_, ?_⟩
    · rw [Exec.result_bind_ok _ (a.op_call_result ⟨n, hn⟩ ⟨m, hm⟩ hNM),
        Exec.result_bind_ok _ (b.vec_call_result ⟨m, hm⟩)]
      exact c.vec_call_modify_result n _ hn
    · intro x
      have := hg ⟨n, hn⟩ ⟨m, hm⟩
      simp only at this
      rw [this]
      by_cases hx : x.val = n
      · simp only [if_pos hx]
      · simp only [if_neg hx, add_zero]
  have hm_loop : ∀ n, n < N → ∀ c : vector N T,
      ∃ c', (forRange M (fun m c => do
          let x ← a.op_call n m
          let y ← b.op_call m
          c.op_call_modify n (fun t => t + x * y)) c).result = Outcome.ok c' ∧
        ∀ x, c'.data x = c.data x +
          ∑ m in Finset.range M, (if x.val = n then g n m else 0) :=
    fun n hn c =>
      forRange_sum (fun (c : vector N T) => c.data) M _ _
        (fun m hm c => hstmt n hn m hm c) c
  obtain ⟨c, hc, hdata⟩ := forRange_sum (fun (c : vector N T) => c.data) N _ _
    (fun n hn c => hm_loop n hn c) (vector.zero : vector N T)
  refine ⟨c, hc, fun n => ?_⟩
  rw [hdata]
  simp only [vector.zero, zero_add, sum_ite_const, Finset.sum_ite_eq, Finset.mem_range,
    n.isLt, if_true]
  rw [Finset.sum_range]
  exact Finset.sum_congr rfl (fun m _ => hg n m)

/-- Result of the vector-matrix product, element by element. -/
theorem dot_vm_result {N M : Nat} {T : Type} [Semiring T]
    (a : vector N T) (b : matrix N M T) (hNM : N * M ≤ SIZE_MAX) :
    ∃ c, (dot_vm a b).result = Outcome.ok c ∧
      ∀ m : Fin M, c.data m = ∑ n : Fin N, a.data n * b.cell n m := by
  obtain ⟨g, hg⟩ : ∃ g : Nat → Nat → T,
      ∀ (n : Fin N) (m : Fin M), g n m = a.data n * b.cell n m :=
    ⟨fun n m => if h : n < N ∧ m < M then a.data ⟨n, h.1⟩ * b.cell ⟨n, h.1⟩ ⟨m, h.2⟩ else 0,
      fun n m => by simp [n.isLt, m.isLt]⟩
  have hstmt : ∀ n, n < N → ∀ m, m < M → ∀ c : vector M T,
      ∃ c', (do
          let x ← a.op_call n
          let y ← b.op_call n m
          c.op_call_modify m (fun t => t + x * y)).result = Outcome.ok c' ∧
        ∀ x, c'.data x = c.data x + (if x.val = m then g n m else 0) := by
    intro n hn m hm c
    refine ⟨⟨fun x => if x.val = m then
      c.data x + a.data ⟨n, hn⟩ * b.cell ⟨n, hn⟩ ⟨m, hm⟩ else c.data x⟩, ?_, ?_⟩
    · rw [Exec.result_bind_ok _ (a.vec_call_result ⟨n, hn⟩),
        Exec.result_bind_ok _ (b.op_call_result ⟨n, hn⟩ ⟨m, hm⟩ hNM)]
      exact c.vec_call_modify_result m _ hm
    · intro x
      have := hg ⟨n, hn⟩ ⟨m, hm⟩
      simp only at this
      rw [this]
      by_cases hx : x.val = m
      · simp only [if_pos hx]
      · simp only [if_neg hx, add_zero]
  have hm_loop : ∀ n, n < N → ∀ c : vector M T,
      ∃ c', (forRange M (fun m c => do
          let x ← a.op_call n
          let y ← b.op_call n m
          c.op_call_modify m (fun t => t + x * y)) c).result = Outcome.ok c' ∧
        ∀ x, c'.data x = c.data x +
          ∑ m in Finset.range M, (if x.val = m then g n m else 0) :=
    fun n hn c =>
      forRange_sum (fun (c : vector M T) => c.data) M _ _
        (fun m hm c => hstmt n hn m hm c) c
  obtain ⟨c, hc, hdata⟩ := forRange_sum (fun (c : vector M T) => c.data) N _ _
    (fun n hn c => hm_loop n hn c) (vector.zero : vector M T)
  refine ⟨c, hc, fun m => ?_⟩
  rw [hdata]
  simp only [vector.zero, zero_add, Finset.sum_ite_eq, Finset.mem_range, m.isLt, if_true]
  rw [Finset.sum_range]
  exact Finset.sum_congr rfl (fun n _ => hg n m)

/-- Loop rule with an invariant indexed by the number of iterations done. -/
theorem forRange_inv {σ : Type} (P : Nat → σ → Prop) (n : Nat)
    (body : Nat → σ → Exec σ) (s : σ) (h0 : P 0 s)
    (hstep : ∀ i, i < n → ∀ s, P i s →
      ∃ s', (body i s).result = Outcome.ok s' ∧ P (i + 1) s') :
    ∃ s', (forRange n body s).result = Outcome.ok s' ∧ P n s' := by
  induction n with
  | zero => exact ⟨s, rfl, h0⟩
  | succ k ih =>
    obtain ⟨s1, hs1, hp1⟩ := ih (fun i hi => hstep i (Nat.lt_succ_of_lt hi))
    obtain ⟨s2, hs2, hp2⟩ := hstep k (Nat.lt_succ_self k) s1 hp1
    refine ⟨s2, ?_, hp2⟩
    show (forRange k body s >>= body k).result = Outcome.ok s2
    rw [Exec.result_bind_ok _ hs1, hs2]

/-- Result of `eye`, cell by cell. -/
theorem eye_result (N : Nat) (T : Type) [Zero T] [One T] (hNN : N * N ≤ SIZE_MAX) :
    ∃ I, (eye N T).result = Outcome.ok I ∧
      ∀ i j : Fin N, I.cell i j = if i = j then 1 else 0 := by
  obtain ⟨I, hI, hP⟩ := forRange_inv
    (fun k (I : matrix N N T) =>
      ∀ x, I.data x = if ∃ n, n < k ∧ x.val = n + n * N then 1 else 0)
    N (fun n I => I.op_call_modify n n (fun _ => 1)) (matrix.zero : matrix N N T)
    (fun x => by simp [matrix.zero])
    (fun k hk I hinv => ⟨_, I.op_call_modify_result k k _ hk hk hNN, fun x => by
      show (if x.val = k + k * N then (1 : T) else I.data x) = _
      rw [hinv x]
      by_cases hx : x.val = k + k * N
      · rw [if_pos hx, if_pos ⟨k, Nat.lt_succ_self k, hx⟩]
      · rw [if_neg hx]
        by_cases hex : ∃ n, n < k ∧ x.val = n + n * N
        · obtain ⟨n, hn, hxn⟩ := hex
          rw [if_pos ⟨n, hn, hxn⟩, if_pos ⟨n, Nat.lt_succ_of_lt hn, hxn⟩]
        · rw [if_neg hex, if_neg]
          rintro ⟨n, hn, hxn⟩
          rcases Nat.lt_succ_iff_lt_or_eq.mp hn with h | h
          · exact hex ⟨n, h, hxn⟩
          · exact hx (h ▸ hxn)⟩)
  refine ⟨I, hI, fun i j => ?_⟩
  unfold matrix.cell
  rw [hP]
  by_cases hij : i = j
  · subst hij
    rw [if_pos ⟨i.val, i.isLt, rfl⟩, if_pos rfl]
  · rw [if_neg hij, if_neg]
    rintro ⟨n, hn, hxn⟩
    have := idx_inj i.isLt hn hxn
    exact hij (Fin.ext (this.1.trans this.2.symm))

theorem matrix.ext_cell {N M : Nat} {T : Type} (a b : matrix N M T)
    (h : ∀ i j, a.cell i j = b.cell i j) : a = b := by
  apply matrix.ext
  funext x
  have hx := x.isLt
  have hN : 0 < N := by
    rcases Nat.eq_zero_or_pos N with h0 | h0
    · have hz : N * M = 0 := by rw [h0, Nat.zero_mul]
      omega
    · exact h0
  have hi : x.val % N < N := Nat.mod_lt _ hN
  have hj : x.val / N < M := Nat.div_lt_of_lt_mul hx
  have hidx : x.val % N + x.val / N * N = x.val := Nat.mod_add_div' x.val N
  have := h ⟨x.val % N, hi⟩ ⟨x.val / N, hj⟩
  unfold matrix.cell at this
  simp only [hidx] at this
  exact this

/-- The identity matrix is a unit of the matrix product on both sides. -/
theorem dot_mm_eye {N M : Nat} {T : Type} [Semiring T] (a : matrix N M T)
    (hNN : N * N ≤ SIZE_MAX) (hNM : N * M ≤ SIZE_MAX) (hMM : M * M ≤ SIZE_MAX) :
    (∃ I, (eye N T).result = Outcome.ok I ∧ (dot_mm I a).result = Outcome.ok a) ∧
    (∃ I, (eye M T).result = Outcome.ok I ∧ (dot_mm a I).result = Outcome.ok a) := by
  constructor
  · obtain ⟨I, hI, hcell⟩ := eye_result N T hNN
    obtain ⟨c, hc, hprod⟩ := dot_mm_result I a hNN hNM hNM
    refine ⟨I, hI, ?_⟩
    rw [hc]
    congr 1
    apply matrix.ext_cell
    intro n o
    rw [hprod]
    simp [hcell]
  · obtain ⟨I, hI, hcell⟩ := eye_result M T hMM
    obtain ⟨c, hc, hprod⟩ := dot_mm_result a I hNM hMM hNM
    refine ⟨I, hI, ?_⟩
    rw [hc]
    congr 1
    apply matrix.ext_cell
    intro n o
    rw [hprod]
    simp [hcell]

/-- Walking the columns one after the other, and each column top down, visits
the linear indices in increasing order. -/
theorem range_flatMap_columns {α : Type} (N : Nat) (F : Nat → Nat → α) (f : Nat → α) :
    ∀ M, (∀ i j, i < N → j < M → F i j = f (i + j * N)) →
      (List.range M).flatMap (fun j => (List.range N).map (fun i => F i j))
        = (List.range (N * M)).map f := by
  intro M
  induction M with
  | zero => intro _; simp
  | succ k ih =>
    intro h
    have hk := ih (fun i j hi hj => h i j hi (Nat.lt_succ_of_lt hj))
    have hcol : (List.range N).map (fun i => F i k)
        = (List.range N).map (fun i => f (N * k + i)) := by
      apply List.map_congr_left
      intro i hi
      rw [h i k (List.mem_range.mp hi) (Nat.lt_succ_self k), Nat.add_comm, Nat.mul_comm]
    rw [List.range_succ, List.flatMap_append, List.flatMap_singleton, hk, hcol,
      Nat.mul_succ, List.range_add, List.map_append, List.map_map]
    rfl

theorem map_range_getD {T : Type} [Zero T] (xs : List T) :
    (List.range xs.length).map (fun k => Outcome.ok (xs.getD k 0)) = xs.map Outcome.ok := by
  apply List.ext_getElem
  · simp
  · intro n h1 h2
    have hn : n < xs.length := by simpa using h2
    simp only [List.getElem_map, List.getElem_range, List.getD_eq_getElem xs 0 hn]

theorem matrix.ofList_op_call {N M : Nat} {T : Type} [Zero T] (xs : List T)
    (i j : Nat) (hi : i < N) (hj : j < M) (hsz : N * M ≤ SIZE_MAX) :
    ((matrix.ofList xs : matrix N M T).op_call i j).result
      = Outcome.ok (xs.getD (i + j * N) 0) :=
  (matrix.ofList xs : matrix N M T).op_call_result ⟨i, hi⟩ ⟨j, hj⟩ hsz

/-- C1. For an in-range pair `(i, j)` the pair accessor `a(i, j)` is the linear
access `a[i + j * N]` and yields the stored element `data[i + j * N]`; a matrix
initialised from the list `xs` of `N * M` elements yields `xs[i + j * N]`, and
reading `a(i, j)` with `j` outermost and `i` innermost lists `xs` in order. -/
theorem C1_pair_access_column_major {N M : Nat} {T : Type} [Zero T]
    (a : matrix N M T) (i j : Nat) (xs : List T)
    (hi : i < N) (hj : j < M) (hsz : N * M ≤ SIZE_MAX) (hxs : xs.length = N * M) :
    a.op_call i j = a.op_subscript (i + j * N) ∧
    (∃ h : i + j * N < N * M, (a.op_call i j).result = Outcome.ok (a.data ⟨i + j * N, h⟩)) ∧
    (∃ h : i + j * N < xs.length,
      ((matrix.ofList xs : matrix N M T).op_call i j).result
        = Outcome.ok (xs.get ⟨i + j * N, h⟩)) ∧
    (List.range M).flatMap (fun j => (List.range N).map (fun i =>
        ((matrix.ofList xs : matrix N M T).op_call i j).result))
      = xs.map Outcome.ok := by
  have hlt : i + j * N < N * M := idx_lt hi hj
  refine ⟨a.op_call_eq i j hi hj hsz, ⟨hlt, a.op_call_result ⟨i, hi⟩ ⟨j, hj⟩ hsz⟩,
    ⟨hxs ▸ hlt, ?_⟩, ?_⟩
  · rw [matrix.ofList_op_call xs i j hi hj hsz, List.getD_eq_getElem xs 0 (hxs ▸ hlt)]
    rfl
  · rw [range_flatMap_columns N _ (fun k => Outcome.ok (xs.getD k 0)) M
      (fun i j hi hj => matrix.ofList_op_call xs i j hi hj hsz), ← hxs]
    exact map_range_getD xs

/-- Witness for C1: the 3×4 matrix initialised with 0..11 of the access test. -/
theorem C1_pair_access_column_major_witness :
    (2 < 3 ∧ 3 < 4 ∧ 3 * 4 ≤ SIZE_MAX ∧ (List.range 12).length = 3 * 4) ∧
    ((matrix.ofList (List.range 12) : matrix 3 4 Nat).op_call 2 3
        = (matrix.ofList (List.range 12) : matrix 3 4 Nat).op_subscript (2 + 3 * 3) ∧
      (∃ h : 2 + 3 * 3 < 3 * 4,
        ((matrix.ofList (List.range 12) : matrix 3 4 Nat).op_call 2 3).result
          = Outcome.ok ((matrix.ofList (List.range 12) : matrix 3 4 Nat).data ⟨2 + 3 * 3, h⟩)) ∧
      (∃ h : 2 + 3 * 3 < (List.range 12).length,
        ((matrix.ofList (List.range 12) : matrix 3 4 Nat).op_call 2 3).result
          = Outcome.ok ((List.range 12).get ⟨2 + 3 * 3, h⟩)) ∧
      (List.range 4).flatMap (fun j => (List.range 3).map (fun i =>
          ((matrix.ofList (List.range 12) : matrix 3 4 Nat).op_call i j).result))
        = (List.range 12).map Outcome.ok) :=
  ⟨⟨by decide, by decide, by decide, by decide⟩,
    C1_pair_access_column_major _ 2 3 (List.range 12)
      (by decide) (by decide) (by decide) (by decide)⟩

/-- C2. `dot(a, b)` of an N×M and an M×O matrix completes and returns the matrix
`c` with `c(n, o) = Σ_{m < M} a(n, m) * b(m, o)` for every in-range `(n, o)`,
where `a.cell` and `b.cell` are the values the pair accessors return. -/
theorem C2_dot_matrix_matrix {N M O : Nat} {T : Type} [Semiring T]
    (a : matrix N M T) (b : matrix M O T)
    (hNM : N * M ≤ SIZE_MAX) (hMO : M * O ≤ SIZE_MAX) (hNO : N * O ≤ SIZE_MAX) :
    (∀ (n : Fin N) (m : Fin M), (a.op_call n m).result = Outcome.ok (a.cell n m)) ∧
    (∀ (m : Fin M) (o : Fin O), (b.op_call m o).result = Outcome.ok (b.cell m o)) ∧
    ∃ c, (dot_mm a b).result = Outcome.ok c ∧
      ∀ (n : Fin N) (o : Fin O),
        (c.op_call n o).result = Outcome.ok (∑ m : Fin M, a.cell n m * b.cell m o) := by
  refine ⟨fun n m => a.op_call_result n m hNM, fun m o => b.op_call_result m o hMO, ?_⟩
  obtain ⟨c, hc, hcell⟩ := dot_mm_result a b hNM hMO hNO
  exact ⟨c, hc, fun n o => by rw [c.op_call_result n o hNO, hcell]⟩

/-- Witness for C2: the 3×3 operands of the product test. -/
theorem C2_dot_matrix_matrix_witness :
    (3 * 3 ≤ SIZE_MAX) ∧
    ((∀ (n : Fin 3) (m : Fin 3),
        ((matrix.ofList [2, 9, 4, 7, 5, 3, 6, 1, 8] : matrix 3 3 Int).op_call n m).result
          = Outcome.ok ((matrix.ofList [2, 9, 4, 7, 5, 3, 6, 1, 8] : matrix 3 3 Int).cell n m)) ∧
      (∀ (m : Fin 3) (o : Fin 3),
        ((matrix.ofList [1, 0, 0, 0, 2, 0, 0, 0, 3] : matrix 3 3 Int).op_call m o).result
          = Outcome.ok ((matrix.ofList [1, 0, 0, 0, 2, 0, 0, 0, 3] : matrix 3 3 Int).cell m o)) ∧
      ∃ c, (dot_mm (matrix.ofList [2, 9, 4, 7, 5, 3, 6, 1, 8] : matrix 3 3 Int)
          (matrix.ofList [1, 0, 0, 0, 2, 0, 0, 0, 3] : matrix 3 3 Int)).result = Outcome.ok c ∧
        ∀ (n : Fin 3) (o : Fin 3), (c.op_call n o).result = Outcome.ok
          (∑ m : Fin 3, (matrix.ofList [2, 9, 4, 7, 5, 3, 6, 1, 8] : matrix 3 3 Int).cell n m
            * (matrix.ofList [1, 0, 0, 0, 2, 0, 0, 0, 3] : matrix 3 3 Int).cell m o)) :=
  ⟨by decide, C2_dot_matrix_matrix _ _ (by decide) (by decide) (by decide)⟩

/-- C3. `dot(a, b)` of an N×M matrix and an M-vector completes and returns the
N-vector `c` with `c(n) = Σ_{m < M} a(n, m) * b(m)` for every `n < N`. -/
theorem C3_dot_matrix_vector {N M : Nat} {T : Type} [Semiring T]
    (a : matrix N M T) (b : vector M T) (hNM : N * M ≤ SIZE_MAX) :
    (∀ (n : Fin N) (m : Fin M), (a.op_call n m).result = Outcome.ok (a.cell n m)) ∧
    (∀ m : Fin M, (b.op_call m).result = Outcome.ok (b.data m)) ∧
    ∃ c, (dot_mv a b).result = Outcome.ok c ∧
      ∀ n : Fin N, (c.op_call n).result = Outcome.ok (∑ m : Fin M, a.cell n m * b.data m) := by
  refine ⟨fun n m => a.op_call_result n m hNM, fun m => b.vec_call_result m, ?_⟩
  obtain ⟨c, hc, hdata⟩ := dot_mv_result a b hNM
  exact ⟨c, hc, fun n => by rw [c.vec_call_result n, hdata]⟩

/-- Witness for C3: the matrix and the vector (1, 2, 3) of the product test. -/
theorem C3_dot_matrix_vector_witness :
    (3 * 3 ≤ SIZE_MAX) ∧
    ((∀ (n : Fin 3) (m : Fin 3),
        ((matrix.ofList [2, 9, 4, 7, 5, 3, 6, 1, 8] : matrix 3 3 Int).op_call n m).result
          = Outcome.ok ((matrix.ofList [2, 9, 4, 7, 5, 3, 6, 1, 8] : matrix 3 3 Int).cell n m)) ∧
      (∀ m : Fin 3, ((vector.ofList [1, 2, 3] : vector 3 Int).op_call m).result
          = Outcome.ok ((vector.ofList [1, 2, 3] : vector 3 Int).data m)) ∧
      ∃ c, (dot_mv (matrix.ofList [2, 9, 4, 7, 5, 3, 6, 1, 8] : matrix 3 3 Int)
          (vector.ofList [1, 2, 3] : vector 3 Int)).result = Outcome.ok c ∧
        ∀ n : Fin 3, (c.op_call n).result = Outcome.ok
          (∑ m : Fin 3, (matrix.ofList [2, 9, 4, 7, 5, 3, 6, 1, 8] : matrix 3 3 Int).cell n m
            * (vector.ofList [1, 2, 3] : vector 3 Int).data m)) :=
  ⟨by decide, C3_dot_matrix_vector _ _ (by decide)⟩

/-- C4. `dot(a, b)` of an N-vector and an N×M matrix completes and returns the
M-vector `c` with `c(m) = Σ_{n < N} a(n) * b(n, m)` for every `m < M`. -/
theorem C4_dot_vector_matrix {N M : Nat} {T : Type} [Semiring T]
    (a : vector N T) (b : matrix N M T) (hNM : N * M ≤ SIZE_MAX) :
    (∀ n : Fin N, (a.op_call n).result = Outcome.ok (a.data n)) ∧
    (∀ (n : Fin N) (m : Fin M), (b.op_call n m).result = Outcome.ok (b.cell n m)) ∧
    ∃ c, (dot_vm a b).result = Outcome.ok c ∧
      ∀ m : Fin M, (c.op_call m).result = Outcome.ok (∑ n : Fin N, a.data n * b.cell n m) := by
  refine ⟨fun n => a.vec_call_result n, fun n m => b.op_call_result n m hNM, ?_⟩
  obtain ⟨c, hc, hdata⟩ := dot_vm_result a b hNM
  exact ⟨c, hc, fun m => by rw [c.vec_call_result m, hdata]⟩

/-- Witness for C4: the vector (1, 2, 3) and the matrix of the product test. -/
theorem C4_dot_vector_matrix_witness :
    (3 * 3 ≤ SIZE_MAX) ∧
    ((∀ n : Fin 3, ((vector.ofList [1, 2, 3] : vector 3 Int).op_call n).result
          = Outcome.ok ((vector.ofList [1, 2, 3] : vector 3 Int).data n)) ∧
      (∀ (n : Fin 3) (m : Fin 3),
        ((matrix.ofList [2, 9, 4, 7, 5, 3, 6, 1, 8] : matrix 3 3 Int).op_call n m).result
          = Outcome.ok ((matrix.ofList [2, 9, 4, 7, 5, 3, 6, 1, 8] : matrix 3 3 Int).cell n m)) ∧
      ∃ c, (dot_vm (vector.ofList [1, 2, 3] : vector 3 Int)
          (matrix.ofList [2, 9, 4, 7, 5, 3, 6, 1, 8] : matrix 3 3 Int)).result = Outcome.ok c ∧
        ∀ m : Fin 3, (c.op_call m).result = Outcome.ok
          (∑ n : Fin 3, (vector.ofList [1, 2, 3] : vector 3 Int).data n
            * (matrix.ofList [2, 9, 4, 7, 5, 3, 6, 1, 8] : matrix 3 3 Int).cell n m)) :=
  ⟨by decide, C4_dot_vector_matrix _ _ (by decide)⟩

/-- C5. `dot(a, b)` of two N-vectors completes and returns
`Σ_{n < N} a(n) * b(n)`, accumulated from 0; for `N = 0` it returns 0. -/
theorem C5_dot_vector_vector {T : Type} [Semiring T] :
    (∀ (N : Nat) (a b : vector N T),
      (∀ n : Fin N, (a.op_call n).result = Outcome.ok (a.data n)) ∧
      (∀ n : Fin N, (b.op_call n).result = Outcome.ok (b.data n)) ∧
      (dot_vv a b).result = Outcome.ok (∑ n : Fin N, a.data n * b.data n)) ∧
    (∀ a b : vector 0 T, (dot_vv a b).result = Outcome.ok 0) := by
  refine ⟨fun N a b => ⟨fun n => a.vec_call_result n, fun n => b.vec_call_result n,
    dot_vv_result a b⟩, fun a b => ?_⟩
  rw [dot_vv_result a b]
  simp

/-- C6. The identity matrix is a unit of the matrix product on both sides:
`dot(eye<N,T>(), a)` and `dot(a, eye<M,T>())` both complete and return `a`. -/
theorem C6_dot_eye_unit {N M : Nat} {T : Type} [Semiring T] (a : matrix N M T)
    (hNN : N * N ≤ SIZE_MAX) (hNM : N * M ≤ SIZE_MAX) (hMM : M * M ≤ SIZE_MAX) :
    (∃ I, (eye N T).result = Outcome.ok I ∧ (dot_mm I a).result = Outcome.ok a) ∧
    (∃ I, (eye M T).result = Outcome.ok I ∧ (dot_mm a I).result = Outcome.ok a) :=
  dot_mm_eye a hNN hNM hMM

/-- Witness for C6: a 3×5 matrix, as in the product test. -/
theorem C6_dot_eye_unit_witness :
    (3 * 3 ≤ SIZE_MAX ∧ 3 * 5 ≤ SIZE_MAX ∧ 5 * 5 ≤ SIZE_MAX) ∧
    ((∃ I, (eye 3 Int).result = Outcome.ok I ∧
        (dot_mm I (matrix.ofList [1, 2, 3, 4, 5, 6, 7, 8, 9, 10, 11, 12, 13, 14, 15] :
          matrix 3 5 Int)).result
        = Outcome.ok (matrix.ofList [1, 2, 3, 4, 5, 6, 7, 8, 9, 10, 11, 12, 13, 14, 15])) ∧
      (∃ I, (eye 5 Int).result = Outcome.ok I ∧
        (dot_mm (matrix.ofList [1, 2, 3, 4, 5, 6, 7, 8, 9, 10, 11, 12, 13, 14, 15] :
          matrix 3 5 Int) I).result
        = Outcome.ok (matrix.ofList [1, 2, 3, 4, 5, 6, 7, 8, 9, 10, 11, 12, 13, 14, 15]))) :=
  ⟨⟨by decide, by decide, by decide⟩, C6_dot_eye_unit _ (by decide) (by decide) (by decide)⟩

/-- C7. `eye<N,T>()` completes and returns the N×N matrix whose element
`(i, j)` is 1 when `i = j` and 0 otherwise, for all `i, j < N`. -/
theorem C7_eye_cells (N : Nat) (T : Type) [Zero T] [One T] (hNN : N * N ≤ SIZE_MAX) :
    ∃ I, (eye N T).result = Outcome.ok I ∧
      ∀ i j : Fin N, (I.op_call i j).result = Outcome.ok (if i = j then 1 else 0) := by
  obtain ⟨I, hI, hcell⟩ := eye_result N T hNN
  exact ⟨I, hI, fun i j => by rw [I.op_call_result i j hNN, hcell]⟩

/-- Witness for C7: the 4×4 identity. -/
theorem C7_eye_cells_witness :
    (4 * 4 ≤ SIZE_MAX) ∧
    ∃ I, (eye 4 Int).result = Outcome.ok I ∧
      ∀ i j : Fin 4, (I.op_call i j).result = Outcome.ok (if i = j then 1 else 0) :=
  ⟨by decide, C7_eye_cells 4 Int (by decide)⟩

/-- No run of `operator[]` ends in a throw. -/
theorem raw_read_not_thrown {K : Nat} {T : Type} (data : Fin K → T) (i : Nat) :
    (raw_read data i).result ≠ Outcome.out_of_range := by
  unfold raw_read
  split <;> simp

theorem raw_modify_not_thrown {K : Nat} {T : Type} (data : Fin K → T) (i : Nat)
    (f : T → T) : (raw_modify data i f).result ≠ Outcome.out_of_range := by
  unfold raw_modify
  split <;> simp

/-- A sequence throws only if one of its two parts does. -/
theorem Exec.bind_not_thrown {α β : Type} (x : Exec α) (f : α → Exec β)
    (hx : x.result ≠ Outcome.out_of_range)
    (hf : ∀ v, (f v).result ≠ Outcome.out_of_range) :
    (x >>= f).result ≠ Outcome.out_of_range := by
  show (Exec.andThen x f).result ≠ Outcome.out_of_range
  unfold Exec.andThen
  cases hres : x.result with
  | ok v => exact hf v
  | out_of_range => exact absurd hres hx
  | undefined => simp

theorem vector.op_subscript_not_thrown {N : Nat} {T : Type} (a : vector N T) (i : Nat) :
    (a.op_subscript i).result ≠ Outcome.out_of_range :=
  raw_read_not_thrown a.data i

theorem vector.op_subscript_modify_not_thrown {N : Nat} {T : Type} (a : vector N T)
    (i : Nat) (f : T → T) : (a.op_subscript_modify i f).result ≠ Outcome.out_of_range :=
  Exec.bind_not_thrown _ _ (raw_modify_not_thrown a.data i f) (fun _ => by
    show Outcome.ok _ ≠ Outcome.out_of_range
    simp)

theorem guarded_read_not_thrown {N : Nat} {T : Type} [Zero T] (p : Prop) [Decidable p]
    (a : vector N T) (i : Nat) :
    (if p then a.op_subscript i else pure 0).result ≠ Outcome.out_of_range := by
  split
  · exact a.op_subscript_not_thrown i
  · show Outcome.ok _ ≠ Outcome.out_of_range
    simp

/-- The guard of `cross` decides alone whether `std::out_of_range` is thrown. -/
theorem cross_thrown {N M : Nat} {T : Type} [Zero T] [Mul T] [Sub T]
    (a : vector N T) (b : vector M T) :
    ((N < 2 ∨ 4 < N ∨ M < 2 ∨ 4 < M) → cross a b = ⟨Outcome.out_of_range, []⟩) ∧
    (¬ (N < 2 ∨ 4 < N ∨ M < 2 ∨ 4 < M) → (cross a b).result ≠ Outcome.out_of_range) := by
  constructor
  · intro h
    unfold cross
    rw [if_pos h]
    rfl
  · intro h
    unfold cross
    rw [if_neg h]
    refine Exec.bind_not_thrown _ _ (a.op_subscript_not_thrown _) (fun _ => ?_)
    refine Exec.bind_not_thrown _ _ (guarded_read_not_thrown (M > 2) b _) (fun _ => ?_)
    refine Exec.bind_not_thrown _ _ (guarded_read_not_thrown (N > 2) a _) (fun _ => ?_)
    refine Exec.bind_not_thrown _ _ (b.op_subscript_not_thrown _) (fun _ => ?_)
    refine Exec.bind_not_thrown _ _ (vector.op_subscript_modify_not_thrown _ _ _) (fun _ => ?_)
    refine Exec.bind_not_thrown _ _ (guarded_read_not_thrown (M > 2) a _) (fun _ => ?_)
    refine Exec.bind_not_thrown _ _ (b.op_subscript_not_thrown _) (fun _ => ?_)
    refine Exec.bind_not_thrown _ _ (a.op_subscript_not_thrown _) (fun _ => ?_)
    refine Exec.bind_not_thrown _ _ (guarded_read_not_thrown (N > 2) b _) (fun _ => ?_)
    refine Exec.bind_not_thrown _ _ (vector.op_subscript_modify_not_thrown _ _ _) (fun _ => ?_)
    refine Exec.bind_not_thrown _ _ (a.op_subscript_not_thrown _) (fun _ => ?_)
    refine Exec.bind_not_thrown _ _ (b.op_subscript_not_thrown _) (fun _ => ?_)
    refine Exec.bind_not_thrown _ _ (a.op_subscript_not_thrown _) (fun _ => ?_)
    refine Exec.bind_not_thrown _ _ (b.op_subscript_not_thrown _) (fun _ => ?_)
    refine Exec.bind_not_thrown _ _ (vector.op_subscript_modify_not_thrown _ _ _) (fun _ => ?_)
    show Outcome.ok _ ≠ Outcome.out_of_range
    simp

/-- Where the two length tests agree (both operands of length 2, or both of
length 3 or 4) `cross` completes with the components of the R³ cross product,
a missing third component counting as 0. -/
theorem cross_result_same_guard {N M : Nat} {T : Type} [Zero T] [Mul T] [Sub T]
    (a : vector N T) (b : vector M T)
    (hN : 2 ≤ N ∧ N ≤ 4) (hM : 2 ≤ M ∧ M ≤ 4) (hg : 2 < N ↔ 2 < M) :
    ∃ c, (cross a b).result = Outcome.ok c ∧
      c.data 0 = a.data ⟨1, by omega⟩ * (if h : 2 < M then b.data ⟨2, h⟩ else 0)
        - (if h : 2 < N then a.data ⟨2, h⟩ else 0) * b.data ⟨1, by omega⟩ ∧
      c.data 1 = (if h : 2 < N then a.data ⟨2, h⟩ else 0) * b.data ⟨0, by omega⟩
        - a.data ⟨0, by omega⟩ * (if h : 2 < M then b.data ⟨2, h⟩ else 0) ∧
      c.data 2 = a.data ⟨0, by omega⟩ * b.data ⟨1, by omega⟩
        - a.data ⟨1, by omega⟩ * b.data ⟨0, by omega⟩ := by
  obtain ⟨hN2, hN4⟩ := hN
  obtain ⟨hM2, hM4⟩ := hM
  have hcases : (N = 2 ∧ M = 2) ∨ (N = 3 ∧ M = 3) ∨ (N = 3 ∧ M = 4) ∨ (N = 4 ∧ M = 3)
      ∨ (N = 4 ∧ M = 4) := by omega
  rcases hcases with ⟨rfl, rfl⟩ | ⟨rfl, rfl⟩ | ⟨rfl, rfl⟩ | ⟨rfl, rfl⟩ | ⟨rfl, rfl⟩ <;>
    exact ⟨_, rfl, rfl, rfl, rfl⟩

/-- C8, evaluated where the code departs from it.  For `a = (1, 0)` of length
2 and `b = (0, 1, 0)` of length 3 the statement for `c[Y]` evaluates `a[Z]`,
guarded by `M > 2` and not by `N > 2`: index 2 on a container of extent 2.  The
run has no defined result; the stated formula gives `(0, 0, 1)`. -/
theorem C8_cross_len2_len3_no_result :
    (cross (vector.ofList [1, 0] : vector 2 Int)
      (vector.ofList [0, 1, 0] : vector 3 Int)).result = Outcome.undefined ∧
    (⟨2, 2⟩ : Access) ∈ (cross (vector.ofList [1, 0] : vector 2 Int)
      (vector.ofList [0, 1, 0] : vector 3 Int)).trace :=
  ⟨rfl, by decide⟩

/-- C9, evaluated where the code departs from it.  For `a = (1, 0, 0)` of
length 3 and `b = (0, 1)` of length 2 the statement for `c[Y]` evaluates
`b[Z]`, guarded by `N > 2` and not by `M > 2`: the run reads index 2 of a
container of extent 2 and does not complete with a value. -/
theorem C9_cross_len3_len2_reads_past_end :
    (∃ r, r ∈ (cross (vector.ofList [1, 0, 0] : vector 3 Int)
        (vector.ofList [0, 1] : vector 2 Int)).trace ∧ r.extent = 2 ∧ r.extent ≤ r.index) ∧
    (cross (vector.ofList [1, 0, 0] : vector 3 Int)
      (vector.ofList [0, 1] : vector 2 Int)).result = Outcome.undefined :=
  ⟨⟨⟨2, 2⟩, by decide, rfl, by decide⟩, rfl⟩

/-- C10. When the length of `a` or of `b` is not 2, 3 or 4, `cross(a, b)` ends
by throwing `std::out_of_range` without having accessed any element; when both
lengths are 2, 3 or 4 it does not throw `std::out_of_range`. -/
theorem C10_cross_length_guard {N M : Nat} {T : Type} [Zero T] [Mul T] [Sub T]
    (a : vector N T) (b : vector M T) :
    ((¬ (N = 2 ∨ N = 3 ∨ N = 4) ∨ ¬ (M = 2 ∨ M = 3 ∨ M = 4)) →
      (cross a b).result = Outcome.out_of_range ∧ (cross a b).trace = []) ∧
    (((N = 2 ∨ N = 3 ∨ N = 4) ∧ (M = 2 ∨ M = 3 ∨ M = 4)) →
      (cross a b).result ≠ Outcome.out_of_range) := by
  constructor
  · intro h
    have hg : N < 2 ∨ 4 < N ∨ M < 2 ∨ 4 < M := by omega
    rw [(cross_thrown a b).1 hg]
    exact ⟨rfl, rfl⟩
  · intro h
    have hg : ¬ (N < 2 ∨ 4 < N ∨ M < 2 ∨ 4 < M) := by omega
    exact (cross_thrown a b).2 hg

/-- Witness for C10: lengths 5 and 3 (and 1 and 0) throw, lengths 2 and 4 do not. -/
theorem C10_cross_length_guard_witness :
    ((¬ (5 = 2 ∨ 5 = 3 ∨ 5 = 4) ∨ ¬ (3 = 2 ∨ 3 = 3 ∨ 3 = 4)) ∧
      (cross (vector.ofList [1, 0, 0, 0, 0] : vector 5 Int)
        (vector.ofList [0, 1, 0] : vector 3 Int)).result = Outcome.out_of_range ∧
      (cross (vector.ofList [1, 0, 0, 0, 0] : vector 5 Int)
        (vector.ofList [0, 1, 0] : vector 3 Int)).trace = []) ∧
    ((¬ (1 = 2 ∨ 1 = 3 ∨ 1 = 4) ∨ ¬ (0 = 2 ∨ 0 = 3 ∨ 0 = 4)) ∧
      (cross (vector.ofList [1] : vector 1 Int)
        (vector.ofList [] : vector 0 Int)).result = Outcome.out_of_range ∧
      (cross (vector.ofList [1] : vector 1 Int)
        (vector.ofList [] : vector 0 Int)).trace = []) ∧
    (((2 = 2 ∨ 2 = 3 ∨ 2 = 4) ∧ (4 = 2 ∨ 4 = 3 ∨ 4 = 4)) ∧
      (cross (vector.ofList [1, 0] : vector 2 Int)
        (vector.ofList [0, 1, 0, 0] : vector 4 Int)).result ≠ Outcome.out_of_range) :=
  ⟨⟨by decide, (C10_cross_length_guard _ _).1 (by decide)⟩,
    ⟨by decide, (C10_cross_length_guard _ _).1 (by decide)⟩,
    ⟨by decide, (C10_cross_length_guard _ _).2 (by decide)⟩⟩

/-! ## Cross product: algebra -/

/-- Negation completes, whatever the initial contents of its local result,
and negates every element. -/
theorem vector.op_neg_result {N : Nat} {T : Type} [Neg T] (a b0 : vector N T) :
    (a.op_neg b0).result = Outcome.ok ⟨fun x => - a.data x⟩ := by
  obtain ⟨b, hb, hP⟩ := forRange_inv
    (fun k (b : vector N T) => ∀ x : Fin N, x.val < k → b.data x = - a.data x)
    N (fun i b => do
      let x ← a.op_subscript i
      b.op_subscript_modify i (fun _ => -x)) b0
    (fun x hx => absurd hx (Nat.not_lt_zero _))
    (fun k hk b hinv => ⟨⟨fun x => if x.val = k then - a.data ⟨k, hk⟩ else b.data x⟩, by
        rw [Exec.result_bind_ok _ (a.op_subscript_result ⟨k, hk⟩)]
        exact b.op_subscript_modify_result k _ hk, fun x hx => by
        show (if x.val = k then - a.data ⟨k, hk⟩ else b.data x) = - a.data x
        by_cases hxk : x.val = k
        · rw [if_pos hxk]
          congr 2
          exact Fin.ext hxk.symm
        · rw [if_neg hxk]
          exact hinv x (by omega)⟩)
  unfold vector.op_neg
  rw [hb]
  congr 1
  apply vector.ext
  funext x
  exact hP x x.isLt

/-- Resizing completes; element `i` of the result is the cast of `a[i]` for
`i < M` and the cast of 0 otherwise. -/
theorem resize_cast_v_result (N : Nat) {M : Nat} {T U : Type} [Zero T] [Zero U]
    (cast : U → T) (a : vector M U) :
    (resize_cast_v N cast a).result
      = Outcome.ok ⟨fun x => cast (if h : x.val < M then a.data ⟨x.val, h⟩ else 0)⟩ := by
  obtain ⟨b, hb, hP⟩ := forRange_inv
    (fun k (b : vector N T) => ∀ x : Fin N, x.val < k →
      b.data x = cast (if h : x.val < M then a.data ⟨x.val, h⟩ else 0))
    N (fun i b => do
      let x ← (if i < M then a.op_subscript i else pure 0)
      b.op_subscript_modify i (fun _ => cast x)) (vector.zero : vector N T)
    (fun x hx => absurd hx (Nat.not_lt_zero _))
    (fun k hk b hinv =>
      ⟨⟨fun x => if x.val = k then cast (if h : k < M then a.data ⟨k, h⟩ else 0)
          else b.data x⟩, by
        beta_reduce
        by_cases hkM : k < M
        · rw [if_pos hkM, Exec.result_bind_ok _ (a.op_subscript_result ⟨k, hkM⟩),
            dif_pos hkM]
          exact b.op_subscript_modify_result k _ hk
        · rw [if_neg hkM, Exec.result_bind_ok _ (Exec.result_pure 0), dif_neg hkM]
          exact b.op_subscript_modify_result k _ hk, fun x hx => by
        show (if x.val = k then cast (if h : k < M then a.data ⟨k, h⟩ else 0)
          else b.data x) = _
        by_cases hxk : x.val = k
        · rw [if_pos hxk]
          subst hxk
          rfl
        · rw [if_neg hxk]
          exact hinv x (by omega)⟩)
  unfold resize_cast_v
  rw [hb]
  congr 1
  apply vector.ext
  funext x
  exact hP x x.isLt

/-- Components of `cross` on operands of length 3 or 4: only the first three
elements of each operand enter. -/
theorem cross_result_len34 {N M : Nat} {T : Type} [Zero T] [Mul T] [Sub T]
    (a : vector N T) (b : vector M T) (hN : N = 3 ∨ N = 4) (hM : M = 3 ∨ M = 4) :
    (cross a b).result = Outcome.ok ⟨fun x =>
      if x.val = 0 then
        a.data ⟨1, by omega⟩ * b.data ⟨2, by omega⟩ - a.data ⟨2, by omega⟩ * b.data ⟨1, by omega⟩
      else if x.val = 1 then
        a.data ⟨2, by omega⟩ * b.data ⟨0, by omega⟩ - a.data ⟨0, by omega⟩ * b.data ⟨2, by omega⟩
      else
        a.data ⟨0, by omega⟩ * b.data ⟨1, by omega⟩
          - a.data ⟨1, by omega⟩ * b.data ⟨0, by omega⟩⟩ := by
  rcases hN with rfl | rfl <;> rcases hM with rfl | rfl <;>
  · show Outcome.ok _ = Outcome.ok _
    congr 1
    apply vector.ext
    funext x
    rcases x with ⟨_ | _ | _ | x, hx⟩
    · rfl
    · rfl
    · rfl
    · omega

/-- C11. For two 2-vectors `cross(a, b)` completes and returns
`(0, 0, a(0)*b(1) - a(1)*b(0))`, the cross product of the embeddings with
third component 0. -/
theorem C11_cross_two_vectors {T : Type} [Ring T] (a b : vector 2 T) :
    (∀ i : Fin 2, (a.op_call i).result = Outcome.ok (a.data i)) ∧
    (∀ i : Fin 2, (b.op_call i).result = Outcome.ok (b.data i)) ∧
    (cross a b).result
      = Outcome.ok (vector.ofList [0, 0, a.data 0 * b.data 1 - a.data 1 * b.data 0]) := by
  refine ⟨fun i => a.vec_call_result i, fun i => b.vec_call_result i, ?_⟩
  obtain ⟨c, hc, h0, h1, h2⟩ := cross_result_same_guard a b ⟨by omega, by omega⟩
    ⟨by omega, by omega⟩ (by omega)
  rw [hc]
  congr 1
  apply vector.ext
  funext x
  rcases x with ⟨_ | _ | _ | x, hx⟩
  · rw [show (⟨0, hx⟩ : Fin 3) = 0 from rfl, h0]
    simp [vector.ofList]
  · rw [show (⟨0 + 1, hx⟩ : Fin 3) = 1 from rfl, h1]
    simp [vector.ofList]
  · rw [show (⟨0 + 1 + 1, hx⟩ : Fin 3) = 2 from rfl, h2]
    rfl
  · omega

/-- C12. For operands of length 3 or 4, `cross(a, b)` completes and equals
`cross(resize_cast<3,T>(a), resize_cast<3,T>(b))`; operands of such lengths
that agree on their first three components give the same result. -/
theorem C12_cross_ignores_fourth {N M : Nat} {T : Type} [Zero T] [Mul T] [Sub T]
    (a : vector N T) (b : vector M T) (hN : N = 3 ∨ N = 4) (hM : M = 3 ∨ M = 4) :
    (∃ a3 b3 c, (resize_cast_v 3 id a).result = Outcome.ok a3 ∧
      (resize_cast_v 3 id b).result = Outcome.ok b3 ∧
      (cross a b).result = Outcome.ok c ∧ (cross a3 b3).result = Outcome.ok c) ∧
    (∀ (N2 M2 : Nat) (a2 : vector N2 T) (b2 : vector M2 T),
      (N2 = 3 ∨ N2 = 4) → (M2 = 3 ∨ M2 = 4) →
      (∀ i, i < 3 → (a.op_call i).result = (a2.op_call i).result) →
      (∀ i, i < 3 → (b.op_call i).result = (b2.op_call i).result) →
      (cross a b).result = (cross a2 b2).result) := by
  constructor
  · refine ⟨_, _, _, resize_cast_v_result 3 id a, resize_cast_v_result 3 id b,
      cross_result_len34 a b hN hM, ?_⟩
    rw [cross_result_len34 _ _ (Or.inl rfl) (Or.inl rfl)]
    have h0 : 0 < N := by omega
    have h1 : 1 < N := by omega
    have h2 : 2 < N := by omega
    have k0 : 0 < M := by omega
    have k1 : 1 < M := by omega
    have k2 : 2 < M := by omega
    simp only [dif_pos h0, dif_pos h1, dif_pos h2, dif_pos k0, dif_pos k1, dif_pos k2, id]
  · intro N2 M2 a2 b2 hN2 hM2 ha hb
    have hd : ∀ {K K2 : Nat} (u : vector K T) (u2 : vector K2 T) (i : Nat)
        (h : i < K) (h2 : i < K2),
        (u.op_call i).result = (u2.op_call i).result → u.data ⟨i, h⟩ = u2.data ⟨i, h2⟩ := by
      intro K K2 u u2 i h h2 he
      rw [u.vec_call_result ⟨i, h⟩, u2.vec_call_result ⟨i, h2⟩] at he
      exact Outcome.ok.inj he
    rw [cross_result_len34 a b hN hM, cross_result_len34 a2 b2 hN2 hM2]
    rw [hd a a2 0 (by omega) (by omega) (ha 0 (by omega)),
      hd a a2 1 (by omega) (by omega) (ha 1 (by omega)),
      hd a a2 2 (by omega) (by omega) (ha 2 (by omega)),
      hd b b2 0 (by omega) (by omega) (hb 0 (by omega)),
      hd b b2 1 (by omega) (by omega) (hb 1 (by omega)),
      hd b b2 2 (by omega) (by omega) (hb 2 (by omega))]

/-- C13. For 3-vectors over a commutative ring `cross(u, v)` and `cross(v, u)`
complete and `cross(u, v)` is the negation of `cross(v, u)`. -/
theorem C13_cross_anticommutative {T : Type} [CommRing T] (u v : vector 3 T) :
    ∃ c d, (cross u v).result = Outcome.ok c ∧ (cross v u).result = Outcome.ok d ∧
      ∀ b0, (d.op_neg b0).result = Outcome.ok c := by
  refine ⟨_, _, cross_result_len34 u v (Or.inl rfl) (Or.inl rfl),
    cross_result_len34 v u (Or.inl rfl) (Or.inl rfl), fun b0 => ?_⟩
  rw [vector.op_neg_result]
  congr 1
  apply vector.ext
  funext x
  rcases x with ⟨_ | _ | _ | x, hx⟩
  · simp only [Nat.zero_eq, if_true]
    ring
  · simp
    ring
  · simp
    ring
  · omega

/-- C14. For 3-vectors over a commutative ring `cross(u, v)` completes and its
inner product with `u` completes and is 0. -/
theorem C14_cross_orthogonal_first {T : Type} [CommRing T] (u v : vector 3 T) :
    ∃ c, (cross u v).result = Outcome.ok c ∧ (dot_vv c u).result = Outcome.ok 0 := by
  refine ⟨_, cross_result_len34 u v (Or.inl rfl) (Or.inl rfl), ?_⟩
  rw [dot_vv_result, Fin.sum_univ_three]
  congr 1
  simp
  ring

/-! ## Streams: the operations on a good stream -/

theorem drop_add_of_drop_eq {txt x y : List Char} {p : Nat} (h : txt.drop p = x ++ y) :
    txt.drop (p + x.length) = y := by
  rw [← List.drop_drop, h, List.drop_left]

theorem takeWhile_run {q : Char → Bool} (w : List Char) (c : Char) (y : List Char)
    (hw : ∀ x ∈ w, q x = true) (hc : q c = false) :
    (w ++ c :: y).takeWhile q = w := by
  rw [List.takeWhile_append_of_pos hw, List.takeWhile_cons, hc]
  simp

theorem takeWhile_run_end {q : Char → Bool} (w : List Char)
    (hw : ∀ x ∈ w, q x = true) : (w ++ []).takeWhile q = w := by
  rw [List.append_nil]
  exact List.takeWhile_eq_self_iff.mpr hw

/-- Skipping whitespace in front of another character moves the get position
past it and leaves the stream good. -/
theorem istream.skip_ws_good (txt : List Char) (p : Nat) (w : List Char) (c : Char)
    (y : List Char) (hdrop : txt.drop p = w ++ c :: y)
    (hw : ∀ x ∈ w, isspace x = true) (hc : isspace c = false) :
    (⟨txt, p, false, false, false⟩ : istream).skip_ws
      = ⟨txt, p + w.length, false, false, false⟩ := by
  unfold istream.skip_ws istream.rest
  simp only [hdrop, takeWhile_run w c y hw hc, List.drop_left, List.isEmpty_cons,
    Bool.or_self]

theorem istream.ws_good (txt : List Char) (p : Nat) (w : List Char) (c : Char)
    (y : List Char) (hdrop : txt.drop p = w ++ c :: y)
    (hw : ∀ x ∈ w, isspace x = true) (hc : isspace c = false) :
    (⟨txt, p, false, false, false⟩ : istream).ws
      = ⟨txt, p + w.length, false, false, false⟩ := by
  have hg : (⟨txt, p, false, false, false⟩ : istream).sentry
      = (⟨txt, p, false, false, false⟩, true) := rfl
  unfold istream.ws
  rw [hg]
  exact istream.skip_ws_good txt p w c y hdrop hw hc

theorem istream.get_good (txt : List Char) (p : Nat) (c : Char) (y : List Char)
    (hdrop : txt.drop p = c :: y) :
    (⟨txt, p, false, false, false⟩ : istream).get
      = (⟨txt, p + 1, false, false, false⟩, some c) := by
  have hg : (⟨txt, p, false, false, false⟩ : istream).sentry
      = (⟨txt, p, false, false, false⟩, true) := rfl
  unfold istream.get
  rw [hg]
  simp only [istream.rest, hdrop, if_true]

theorem istream.unget_good (txt : List Char) (p : Nat) :
    (⟨txt, p + 1, false, false, false⟩ : istream).unget
      = ⟨txt, p, false, false, false⟩ := by
  unfold istream.unget
  have hg : (⟨txt, p + 1, false, false, false⟩ : istream).sentry
      = (⟨txt, p + 1, false, false, false⟩, true) := rfl
  simp only [hg, if_true, Nat.succ_pos, Nat.add_sub_cancel]

/-- Formatted extraction on a good stream, in front of a field that `num_get`
accepts: the field is consumed, the value delivered, and `eofbit` is set
exactly when nothing follows the field. -/
theorem istream.extract_good {T : Type} (num_get : List Char → Extraction T)
    (txt : List Char) (p : Nat) (w : List Char) (c : Char) (e y : List Char) (v : T)
    (hdrop : txt.drop p = w ++ ((c :: e) ++ y))
    (hw : ∀ x ∈ w, isspace x = true) (hc : isspace c = false)
    (hget : num_get ((c :: e) ++ y) = ⟨(c :: e).length, y.isEmpty, false, v⟩) :
    (⟨txt, p, false, false, false⟩ : istream).extract num_get
      = (⟨txt, p + w.length + (c :: e).length, y.isEmpty, false, false⟩, some v) := by
  have hskip := istream.skip_ws_good txt p w c (e ++ y) hdrop hw hc
  have hrest : txt.drop (p + w.length) = (c :: e) ++ y := drop_add_of_drop_eq hdrop
  have hget' : num_get (c :: (e ++ y)) = ⟨(c :: e).length, y.isEmpty, false, v⟩ := hget
  unfold istream.extract
  simp only [istream.good, Bool.not_false, Bool.and_self, if_true, hskip, istream.rest, hrest,
    hget', List.cons_append, List.isEmpty_cons, Bool.false_or, Bool.or_false,
    Bool.false_eq_true, if_false]

/-! ## Numerals -/

theorem isdigit_not_space {c : Char} (h : isdigit c = true) : isspace c = false := by
  unfold isdigit at h
  unfold isspace
  simp only [Bool.and_eq_true, decide_eq_true_eq] at h
  simp only [Bool.or_eq_false_iff, beq_eq_false_iff_ne, ne_eq, Bool.and_eq_false_imp,
    decide_eq_true_eq, decide_eq_false_iff_not, not_le]
  omega

theorem isdigit_not_sign {c : Char} (h : isdigit c = true) :
    c ≠ '-' ∧ c ≠ '+' ∧ c ≠ ',' := by
  refine ⟨?_, ?_, ?_⟩ <;>
  · rintro rfl
    revert h
    decide

theorem takeWhile_digits (t y : List Char) (ht : ∀ c ∈ t, isdigit c = true)
    (hy : ∀ c y', y = c :: y' → isdigit c = false) :
    (t ++ y).takeWhile isdigit = t := by
  cases y with
  | nil => exact takeWhile_run_end t ht
  | cons c y' => exact takeWhile_run t c y' ht (hy c y' rfl)

/-- What `num_get` does in front of a numeral that is not continued by a
digit: the whole numeral is consumed and its value delivered without failure;
`eof` tells whether anything follows. -/
theorem int_get_numeral (e y : List Char) (v : Int) (he : is_int_text e v = true)
    (hy : ∀ c y', y = c :: y' → isdigit c = false) :
    int_get (e ++ y) = ⟨e.length, y.isEmpty, false, v⟩ := by
  cases e with
  | nil => simp [is_int_text] at he
  | cons c t =>
    unfold is_int_text at he
    by_cases hm : c = '-'
    · subst hm
      simp only [if_true, Bool.and_eq_true, Bool.not_eq_true', List.isEmpty_eq_false,
        List.all_eq_true, decide_eq_true_eq] at he
      obtain ⟨⟨⟨hne, hd⟩, hv⟩, hmin⟩ := he
      have htw := takeWhile_digits t y hd hy
      have hmax : ¬ INT_MAX < v := by
        have : (0 : Int) ≤ (digits_value t : Int) := Int.ofNat_nonneg _
        unfold INT_MAX
        omega
      have hemp : t.isEmpty = false := by
        cases t with
        | nil => exact absurd rfl hne
        | cons _ _ => rfl
      unfold int_get
      simp only [List.cons_append, true_or, if_true, List.length_cons, List.length_nil,
        Nat.zero_add, List.drop_succ_cons, List.drop_zero, htw, hemp, Bool.false_eq_true,
        if_false, hv, not_lt.mpr hmin, hmax]
      congr 1
      · omega
      · rw [show 1 + t.length = t.length + 1 from Nat.add_comm _ _, List.drop_succ_cons,
          List.drop_left]
    · by_cases hp : c = '+'
      · subst hp
        simp only [if_true, Bool.and_eq_true, Bool.not_eq_true', List.isEmpty_eq_false,
          List.all_eq_true, decide_eq_true_eq, show ('+' : Char) ≠ '-' by decide, if_false]
          at he
        obtain ⟨⟨⟨hne, hd⟩, hv⟩, hmax⟩ := he
        have htw := takeWhile_digits t y hd hy
        have hmin : ¬ v < INT_MIN := by
          have : (0 : Int) ≤ (digits_value t : Int) := Int.ofNat_nonneg _
          unfold INT_MIN
          omega
        have hemp : t.isEmpty = false := by
          cases t with
          | nil => exact absurd rfl hne
          | cons _ _ => rfl
        unfold int_get
        simp only [List.cons_append, or_true, if_true, List.length_cons, List.length_nil,
          Nat.zero_add, List.drop_succ_cons, List.drop_zero, htw, hemp, Bool.false_eq_true,
          if_false, hv, hmin, not_lt.mpr hmax, show ¬ (['+'] = ['-']) by decide]
        congr 1
        · omega
        · rw [show 1 + t.length = t.length + 1 from Nat.add_comm _ _, List.drop_succ_cons,
            List.drop_left]
      · simp only [hm, hp, if_false, Bool.and_eq_true, List.all_eq_true,
          decide_eq_true_eq] at he
        obtain ⟨⟨hd, hv⟩, hmax⟩ := he
        have htw := takeWhile_digits (c :: t) y hd hy
        have hmin : ¬ v < INT_MIN := by
          have : (0 : Int) ≤ (digits_value (c :: t) : Int) := Int.ofNat_nonneg _
          unfold INT_MIN
          omega
        unfold int_get
        simp only [List.cons_append, hm, hp, or_self, if_false, List.length_nil, List.drop_zero,
          Nat.zero_add]
        rw [show c :: (t ++ y) = (c :: t) ++ y from rfl, htw]
        simp only [List.isEmpty_cons, Bool.false_eq_true, if_false, hv, hmin,
          not_lt.mpr hmax, List.drop_left, show ¬ (([] : List Char) = ['-']) by decide]

/-- A numeral starts with a sign or a digit: not with whitespace, not with a
comma. -/
theorem is_int_text_head (e : List Char) (v : Int) (he : is_int_text e v = true) :
    ∃ c t, e = c :: t ∧ isspace c = false ∧ c ≠ ',' ∧
      (isdigit c = true ∨ c = '-' ∨ c = '+') := by
  cases e with
  | nil => simp [is_int_text] at he
  | cons c t =>
    refine ⟨c, t, rfl, ?_⟩
    by_cases hm : c = '-'
    · subst hm
      exact ⟨by decide, by decide, Or.inr (Or.inl rfl)⟩
    · by_cases hp : c = '+'
      · subst hp
        exact ⟨by decide, by decide, Or.inr (Or.inr rfl)⟩
      · unfold is_int_text at he
        simp only [hm, hp, if_false, Bool.and_eq_true, List.all_eq_true,
          decide_eq_true_eq] at he
        have hc : isdigit c = true := he.1.1 c (List.mem_cons_self c t)
        exact ⟨isdigit_not_space hc, (isdigit_not_sign hc).2.2, Or.inl hc⟩

theorem digit_char (m : Nat) (hm : m < 10) :
    isdigit (Char.ofNat (48 + m)) = true ∧ (Char.ofNat (48 + m)).toNat - 48 = m := by
  interval_cases m <;> exact ⟨by decide, by decide⟩

theorem digits_value_append (xs : List Char) (c : Char) :
    digits_value (xs ++ [c]) = 10 * digits_value xs + (c.toNat - 48) := by
  unfold digits_value
  rw [List.foldl_append]
  rfl

/-- The digits written for `n` are at least one, all digits, and denote `n`. -/
theorem put_digits_spec : ∀ (fuel n : Nat), n < fuel →
    put_digits fuel n ≠ [] ∧ (∀ c ∈ put_digits fuel n, isdigit c = true) ∧
      digits_value (put_digits fuel n) = n := by
  intro fuel
  induction fuel with
  | zero => intro n h; exact absurd h (Nat.not_lt_zero _)
  | succ f ih =>
    intro n hn
    unfold put_digits
    by_cases h10 : n < 10
    · rw [if_pos h10]
      refine ⟨by simp, ?_, ?_⟩
      · intro c hc
        rw [List.mem_singleton.mp hc]
        exact (digit_char n h10).1
      · show 10 * 0 + ((Char.ofNat (48 + n)).toNat - 48) = n
        rw [(digit_char n h10).2]
        omega
    · rw [if_neg h10]
      have hdiv : n / 10 < f := by omega
      have hmod : n % 10 < 10 := Nat.mod_lt _ (by decide)
      obtain ⟨_, hd, hv⟩ := ih (n / 10) hdiv
      refine ⟨by simp, ?_, ?_⟩
      · intro c hc
        rcases List.mem_append.mp hc with h | h
        · exact hd c h
        · rw [List.mem_singleton.mp h]
          exact (digit_char (n % 10) hmod).1
      · rw [digits_value_append, hv, (digit_char (n % 10) hmod).2]
        omega

/-- The text written for an `int` is a numeral of it. -/
theorem is_int_text_int_put (v : Int) (hmin : INT_MIN ≤ v) (hmax : v ≤ INT_MAX) :
    is_int_text (int_put v) v = true := by
  obtain ⟨hne, hd, hv⟩ := put_digits_spec (v.natAbs + 1) v.natAbs (Nat.lt_succ_self _)
  unfold int_put
  by_cases hneg : v < 0
  · rw [if_pos hneg]
    unfold is_int_text
    simp only [if_true, Bool.and_eq_true, Bool.not_eq_true', List.isEmpty_eq_false,
      List.all_eq_true, decide_eq_true_eq]
    refine ⟨⟨⟨hne, hd⟩, ?_⟩, hmin⟩
    rw [hv]
    omega
  · rw [if_neg hneg]
    cases hp : put_digits (v.natAbs + 1) v.natAbs with
    | nil => exact absurd hp hne
    | cons c t =>
      have hc : isdigit c = true := hd c (by rw [hp]; exact List.mem_cons_self c t)
      unfold is_int_text
      simp only [(isdigit_not_sign hc).1, (isdigit_not_sign hc).2.1, if_false,
        Bool.and_eq_true, List.all_eq_true, decide_eq_true_eq]
      refine ⟨⟨by rw [← hp]; exact hd, ?_⟩, hmax⟩
      rw [← hp, hv]
      omega

/-! ## The readers on a well-formed text -/

theorem items_text_cons (it : Item) (tl : List Item) :
    items_text (it :: tl) = it.sep ++ it.text ++ items_text tl := by
  unfold items_text
  rw [List.flatMap_cons]

theorem is_sep_cases (s : List Char) (h : is_sep s = true) :
    (∀ x ∈ s, isspace x = true) ∨
    ∃ w t, s = w ++ ',' :: t ∧ (∀ x ∈ w, isspace x = true) ∧ (∀ x ∈ t, isspace x = true) := by
  unfold is_sep at h
  have hsplit := List.takeWhile_append_dropWhile isspace s
  cases hd : s.dropWhile isspace with
  | nil => exact Or.inl (List.dropWhile_eq_nil_iff.mp hd)
  | cons c t =>
    rw [hd] at h hsplit
    simp only [Bool.and_eq_true, beq_iff_eq, List.all_eq_true] at h
    refine Or.inr ⟨s.takeWhile isspace, t, ?_, fun x hx => List.mem_takeWhile_imp hx, h.2⟩
    rw [← h.1]
    exact hsplit.symm

/-- What follows an element in a well-formed text does not start with a digit. -/
theorem items_head_not_digit (items : List Item) (rest : List Char)
    (hitems : ∀ it ∈ items, item_ok it = true)
    (hrest : ∀ c y', rest = c :: y' → isdigit c = false) :
    ∀ c y', items_text items ++ rest = c :: y' → isdigit c = false := by
  cases items with
  | nil => simpa [items_text] using hrest
  | cons it tl =>
    intro c y' hcy
    have hok := hitems it (List.mem_cons_self it tl)
    unfold item_ok at hok
    simp only [Bool.and_eq_true] at hok
    obtain ⟨⟨hsep, htext⟩, hdel⟩ := hok
    obtain ⟨d, t, he, _, _, hd⟩ := is_int_text_head it.text it.value htext
    rw [items_text_cons] at hcy
    cases hs : it.sep with
    | nil =>
      rw [hs, he] at hcy
      have hcd : d = c := by
        simp only [List.nil_append, List.cons_append, List.cons.injEq] at hcy
        exact hcy.1
      unfold delimits at hdel
      rw [hs, he] at hdel
      simp only [List.isEmpty_nil, Bool.not_true, Bool.false_or, List.head?_cons,
        Bool.or_eq_true, beq_iff_eq, Option.some.injEq] at hdel
      subst hcd
      rcases hdel with h | h <;>
      · rw [h]
        decide
    | cons s0 s1 =>
      rw [hs] at hcy
      have hcs : s0 = c := by
        simp only [List.cons_append, List.cons.injEq] at hcy
        exact hcy.1
      subst hcs
      rcases is_sep_cases it.sep hsep with hall | ⟨w, t', hwt, hw, _⟩
      · have hsp : isspace s0 = true := hall s0 (by rw [hs]; exact List.mem_cons_self _ _)
        by_contra hdig
        have := isdigit_not_space (Bool.eq_true_of_not_eq_false hdig)
        rw [hsp] at this
        exact Bool.noConfusion this
      · rw [hs] at hwt
        cases w with
        | nil =>
          simp only [List.nil_append, List.cons.injEq] at hwt
          rw [hwt.1]
          decide
        | cons w0 w1 =>
          simp only [List.cons_append, List.cons.injEq] at hwt
          have hsp : isspace s0 = true := by
            rw [hwt.1]
            exact hw w0 (List.mem_cons_self _ _)
          by_contra hdig
          have := isdigit_not_space (Bool.eq_true_of_not_eq_false hdig)
          rw [hsp] at this
          exact Bool.noConfusion this

/-- The stream operations of one loop iteration in front of a separator and
a numeral: the stream stays good and ends at the first character of the
numeral. -/
theorem sep_step (txt : List Char) (p : Nat) (sep : List Char) (c : Char) (y : List Char)
    (hsep : is_sep sep = true) (hc : isspace c = false) (hcc : c ≠ ',')
    (hdrop : txt.drop p = sep ++ c :: y) :
    ((⟨txt, p, false, false, false⟩ : istream).ws.get.1).good = true ∧
    (if (⟨txt, p, false, false, false⟩ : istream).ws.get.2 ≠ some ','
      then (⟨txt, p, false, false, false⟩ : istream).ws.get.1.unget
      else (⟨txt, p, false, false, false⟩ : istream).ws.get.1).ws
      = ⟨txt, p + sep.length, false, false, false⟩ := by
  rcases is_sep_cases sep hsep with hall | ⟨w, t, hwt, hw, ht⟩
  · have h1 := istream.ws_good txt p sep c y hdrop hall hc
    have h2 := istream.get_good txt (p + sep.length) c y (drop_add_of_drop_eq hdrop)
    rw [h1, h2]
    refine ⟨rfl, ?_⟩
    have hne : (some c ≠ some ',') := fun h => hcc (Option.some.inj h)
    rw [if_pos hne, istream.unget_good]
    have h3 := istream.ws_good txt (p + sep.length) [] c y
      (by rw [List.nil_append]; exact drop_add_of_drop_eq hdrop)
      (fun x hx => absurd hx (List.not_mem_nil x)) hc
    rw [h3]
    rfl
  · subst hwt
    have hd1 : txt.drop p = w ++ ',' :: (t ++ c :: y) := by
      rw [hdrop]
      simp
    have h1 := istream.ws_good txt p w ',' (t ++ c :: y) hd1 hw (by decide)
    have hd2 : txt.drop (p + w.length) = ',' :: (t ++ c :: y) := drop_add_of_drop_eq hd1
    have h2 := istream.get_good txt (p + w.length) ',' (t ++ c :: y) hd2
    have hd3 : txt.drop (p + w.length + 1) = t ++ c :: y := by
      have := @drop_add_of_drop_eq txt [','] (t ++ c :: y) (p + w.length) hd2
      simpa using this
    have h3 := istream.ws_good txt (p + w.length + 1) t c y hd3 ht hc
    rw [h1, h2]
    refine ⟨rfl, ?_⟩
    rw [if_neg (fun h => h rfl), h3]
    simp only [List.length_append, List.length_cons]
    congr 1
    omega

theorem extract_into_result {σ T : Type} (num_get : List Char → Extraction T)
    (store : Nat → σ → (T → T) → Exec σ) (upd : Nat → σ → (T → T) → σ) (i : Nat)
    (s s' : istream) (a : σ) (v : T)
    (hstore : ∀ f, (store i a f).result = Outcome.ok (upd i a f))
    (hex : s.extract num_get = (s', some v)) :
    (extract_into num_get store i (s, a)).result = Outcome.ok (s', upd i a (fun _ => v)) := by
  unfold extract_into
  rw [Exec.result_bind_ok _ (hstore _)]
  simp only [hex]
  rfl

/-- The loop of the readers in front of well-formed elements: every element
is read and stored, no rollback is taken, and the stream ends right after the
last numeral. -/
theorem read_loop_ok {σ : Type} (store : Nat → σ → (Int → Int) → Exec σ)
    (upd : Nat → σ → (Int → Int) → σ) (fill : σ → σ) (P : Option Nat) (n : Nat)
    (hstore : ∀ i, i < n → ∀ a f, (store i a f).result = Outcome.ok (upd i a f))
    (txt rest : List Char) (hrest : ∀ c y', rest = c :: y' → isdigit c = false) :
    ∀ (items : List Item) (i p : Nat) (a : σ),
      (∀ it ∈ items, item_ok it = true) → i + items.length ≤ n →
      txt.drop p = items_text items ++ rest →
      (read_loop int_get store fill P items.length i
        (⟨txt, p, (items_text items ++ rest).isEmpty, false, false⟩, a)).result
      = Outcome.ok (⟨txt, p + (items_text items).length, rest.isEmpty, false, false⟩,
          store_all upd i (items.map Item.value) a) := by
  intro items
  induction items with
  | nil =>
    intro i p a _ _ _
    simp only [List.length_nil, read_loop, items_text, List.flatMap_nil, List.nil_append,
      Nat.add_zero, List.map_nil, store_all]
    rfl
  | cons it tl ih =>
    intro i p a hitems hlen hdrop
    have hok := hitems it (List.mem_cons_self it tl)
    have htl : ∀ it' ∈ tl, item_ok it' = true :=
      fun it' h => hitems it' (List.mem_cons_of_mem it h)
    unfold item_ok at hok
    simp only [Bool.and_eq_true] at hok
    obtain ⟨⟨hsep, htext⟩, _⟩ := hok
    obtain ⟨c, t, he, hc, hcc, _⟩ := is_int_text_head it.text it.value htext
    have hget := int_get_numeral it.text (items_text tl ++ rest) it.value htext
      (items_head_not_digit tl rest htl hrest)
    rw [he] at hget
    have hd1 : txt.drop p = it.sep ++ c :: (t ++ (items_text tl ++ rest)) := by
      rw [hdrop, items_text_cons, he]
      simp
    obtain ⟨hgood, hstream⟩ := sep_step txt p it.sep c _ hsep hc hcc hd1
    have hd2 : txt.drop (p + it.sep.length) = [] ++ ((c :: t) ++ (items_text tl ++ rest)) := by
      rw [drop_add_of_drop_eq hd1]
      rfl
    have hex := istream.extract_good int_get txt (p + it.sep.length) [] c t
      (items_text tl ++ rest) it.value hd2 (fun x hx => absurd hx (List.not_mem_nil x)) hc hget
    have hi : i < n := by
      simp only [List.length_cons] at hlen
      omega
    have hd3 : txt.drop (p + it.sep.length + ([] : List Char).length + (c :: t).length)
        = items_text tl ++ rest := by
      have := @drop_add_of_drop_eq txt (c :: t) (items_text tl ++ rest)
        (p + it.sep.length) (by rw [hd2]; rfl)
      simpa using this
    have hrec := ih (i + 1) _ (upd i a (fun _ => it.value)) htl
      (by simp only [List.length_cons] at hlen; omega) hd3
    have hemp : (items_text (it :: tl) ++ rest).isEmpty = false := by
      rw [items_text_cons, he]
      cases it.sep <;> rfl
    rw [hemp]
    simp only [List.length_cons, read_loop]
    have hg0 : (⟨txt, p, false, false, false⟩ : istream).good = true := rfl
    simp only [hg0, hgood, Bool.not_true, Bool.false_eq_true, if_false]
    rw [hstream, Exec.result_bind_ok _
      (extract_into_result int_get store upd i _ _ a it.value (hstore i hi a) hex), hrec]
    simp only [List.map_cons, store_all, items_text_cons, he, List.length_append,
      List.length_cons, List.length_nil]
    congr 3
    omega

/-- The body of the readers on a good stream in front of a well-formed text:
all `n` elements are read and stored in order, and the stream is left good
(with `eofbit` when nothing follows) right after the last numeral. -/
theorem read_elements_ok {σ : Type} (store : Nat → σ → (Int → Int) → Exec σ)
    (upd : Nat → σ → (Int → Int) → σ) (fill : σ → σ) (n : Nat)
    (hstore : ∀ i, i < n → ∀ a f, (store i a f).result = Outcome.ok (upd i a f))
    (txt rest : List Char) (hrest : ∀ c y', rest = c :: y' → isdigit c = false)
    (first : Item) (others : List Item) (p : Nat) (a : σ)
    (hfirst : first_ok first = true) (hothers : ∀ it ∈ others, item_ok it = true)
    (hn : n = others.length + 1)
    (hdrop : txt.drop p = items_text (first :: others) ++ rest) :
    (read_elements int_get store fill n (⟨txt, p, false, false, false⟩, a)).result
      = Outcome.ok (⟨txt, p + (items_text (first :: others)).length, rest.isEmpty,
            false, false⟩,
          store_all upd 0 ((first :: others).map Item.value) a) := by
  unfold first_ok at hfirst
  simp only [Bool.and_eq_true, List.all_eq_true] at hfirst
  obtain ⟨hw, htext⟩ := hfirst
  obtain ⟨c, t, he, hc, _, _⟩ := is_int_text_head first.text first.value htext
  have hget := int_get_numeral first.text (items_text others ++ rest) first.value htext
    (items_head_not_digit others rest hothers hrest)
  rw [he] at hget
  have hd1 : txt.drop p = first.sep ++ c :: (t ++ (items_text others ++ rest)) := by
    rw [hdrop, items_text_cons, he]
    simp
  have hws := istream.ws_good txt p first.sep c _ hd1 hw hc
  have hd2 : txt.drop (p + first.sep.length)
      = [] ++ ((c :: t) ++ (items_text others ++ rest)) := by
    rw [drop_add_of_drop_eq hd1]
    rfl
  have hex := istream.extract_good int_get txt (p + first.sep.length) [] c t
    (items_text others ++ rest) first.value hd2 (fun x hx => absurd hx (List.not_mem_nil x))
    hc hget
  have hd3 : txt.drop (p + first.sep.length + ([] : List Char).length + (c :: t).length)
      = items_text others ++ rest := by
    have := @drop_add_of_drop_eq txt (c :: t) (items_text others ++ rest)
      (p + first.sep.length) (by rw [hd2]; rfl)
    simpa using this
  have hloop := read_loop_ok store upd fill (some p) n hstore txt rest hrest others 1 _
    (upd 0 a (fun _ => first.value)) hothers (by omega) hd3
  have htell : (⟨txt, p, false, false, false⟩ : istream).tellg
      = (⟨txt, p, false, false, false⟩, some p) := rfl
  unfold read_elements
  simp only [htell, hws]
  rw [Exec.result_bind_ok _
    (extract_into_result int_get store upd 0 _ _ a first.value (hstore 0 (by omega) a) hex),
    show n - 1 = others.length by omega, hloop]
  simp only [List.map_cons, store_all, items_text_cons, he, List.length_append,
    List.length_cons, List.length_nil]
  congr 3
  omega

theorem matrix.mat_subscript_result {N M : Nat} {T : Type} (a : matrix N M T)
    (i : Fin (N * M)) : (a.op_subscript i.val).result = Outcome.ok (a.data i) :=
  raw_read_result a.data i.val i.isLt

theorem matrix.mat_subscript_modify_result {N M : Nat} {T : Type} (a : matrix N M T)
    (i : Nat) (f : T → T) (h : i < N * M) :
    (a.op_subscript_modify i f).result
      = Outcome.ok ⟨fun x => if x.val = i then f (a.data x) else a.data x⟩ := by
  unfold matrix.op_subscript_modify
  rw [Exec.result_bind_ok _ (raw_modify_result a.data i f h)]
  rfl

/-- Elements of a container after a run of stores at consecutive indices. -/
theorem store_all_data {σ : Type} {K : Nat} (proj : σ → Fin K → Int)
    (upd : Nat → σ → (Int → Int) → σ)
    (hupd : ∀ i a f x, proj (upd i a f) x = if x.val = i then f (proj a x) else proj a x) :
    ∀ (vs : List Int) (i : Nat) (a : σ) (x : Fin K),
      proj (store_all upd i vs a) x
        = if i ≤ x.val ∧ x.val < i + vs.length then vs.getD (x.val - i) 0 else proj a x := by
  intro vs
  induction vs with
  | nil =>
    intro i a x
    have h : ¬ (i ≤ x.val ∧ x.val < i + ([] : List Int).length) := by
      simp only [List.length_nil]
      omega
    rw [if_neg h]
    rfl
  | cons v vs ih =>
    intro i a x
    simp only [store_all, ih, hupd, List.length_cons]
    by_cases h1 : x.val = i
    · have h2 : ¬ (i + 1 ≤ x.val ∧ x.val < i + 1 + vs.length) := by omega
      have h3 : i ≤ x.val ∧ x.val < i + (vs.length + 1) := by omega
      rw [if_neg h2, if_pos h1, if_pos h3, h1, Nat.sub_self]
      rfl
    · by_cases h2 : i + 1 ≤ x.val ∧ x.val < i + 1 + vs.length
      · have h3 : i ≤ x.val ∧ x.val < i + (vs.length + 1) := by omega
        rw [if_pos h2, if_pos h3, show x.val - i = (x.val - (i + 1)) + 1 by omega,
          List.getD_cons_succ]
      · have h3 : ¬ (i ≤ x.val ∧ x.val < i + (vs.length + 1)) := by omega
        rw [if_neg h2, if_neg h1, if_neg h3]

theorem ofFn_store_all {σ : Type} {K : Nat} (proj : σ → Fin K → Int)
    (upd : Nat → σ → (Int → Int) → σ)
    (hupd : ∀ i a f x, proj (upd i a f) x = if x.val = i then f (proj a x) else proj a x)
    (vs : List Int) (a : σ) (hlen : vs.length = K) :
    List.ofFn (proj (store_all upd 0 vs a)) = vs := by
  apply List.ext_getElem
  · simp [hlen]
  · intro k h1 h2
    rw [List.getElem_ofFn, store_all_data proj upd hupd vs 0 a ⟨k, by simpa using h1⟩]
    simp only [Nat.zero_le, Nat.zero_add, true_and, Nat.sub_zero]
    rw [if_pos h2, List.getD_eq_getElem vs 0 h2]

/-- The vector reader on a good stream in front of a well-formed text. -/
theorem op_extract_v_ok {N : Nat} (txt rest : List Char)
    (hrest : ∀ c y', rest = c :: y' → isdigit c = false)
    (first : Item) (others : List Item) (p : Nat) (a0 : vector N Int)
    (hfirst : first_ok first = true) (hothers : ∀ it ∈ others, item_ok it = true)
    (hn : N = others.length + 1)
    (hdrop : txt.drop p = items_text (first :: others) ++ rest) :
    ∃ a, (op_extract_v int_get 0 ⟨txt, p, false, false, false⟩ a0).result
        = Outcome.ok (⟨txt, p + (items_text (first :: others)).length, rest.isEmpty,
            false, false⟩, a) ∧
      List.ofFn a.data = (first :: others).map Item.value := by
  refine ⟨_, ?_, ofFn_store_all (fun (a : vector N Int) => a.data)
    (fun i a f => ⟨fun x => if x.val = i then f (a.data x) else a.data x⟩)
    (fun _ _ _ _ => rfl) ((first :: others).map Item.value) a0 (by simp [hn])⟩
  unfold op_extract_v
  rw [if_neg (by omega)]
  exact read_elements_ok _ _ _ N (fun i hi a f => a.op_subscript_modify_result i f hi)
    txt rest hrest first others p a0 hfirst hothers hn hdrop

/-- The matrix reader on a good stream in front of a well-formed text. -/
theorem op_extract_m_ok {N M : Nat} (txt rest : List Char)
    (hrest : ∀ c y', rest = c :: y' → isdigit c = false)
    (first : Item) (others : List Item) (p : Nat) (a0 : matrix N M Int)
    (hfirst : first_ok first = true) (hothers : ∀ it ∈ others, item_ok it = true)
    (hn : N * M = others.length + 1)
    (hdrop : txt.drop p = items_text (first :: others) ++ rest) :
    ∃ a, (op_extract_m int_get 0 ⟨txt, p, false, false, false⟩ a0).result
        = Outcome.ok (⟨txt, p + (items_text (first :: others)).length, rest.isEmpty,
            false, false⟩, a) ∧
      List.ofFn a.data = (first :: others).map Item.value := by
  refine ⟨_, ?_, ofFn_store_all (fun (a : matrix N M Int) => a.data)
    (fun i a f => ⟨fun x => if x.val = i then f (a.data x) else a.data x⟩)
    (fun _ _ _ _ => rfl) ((first :: others).map Item.value) a0 (by simp [hn])⟩
  have hpos : ¬ (N ≤ 0 ∨ M ≤ 0) := by
    rintro (h | h)
    · have : N = 0 := by omega
      rw [this, Nat.zero_mul] at hn
      omega
    · have : M = 0 := by omega
      rw [this, Nat.mul_zero] at hn
      omega
  unfold op_extract_m
  rw [if_neg hpos]
  exact read_elements_ok _ _ _ (N * M)
    (fun i hi a f => a.mat_subscript_modify_result i f hi)
    txt rest hrest first others p a0 hfirst hothers hn hdrop

/-! ## The writers -/

/-- The body of the writers on a container with at least one element: the
written characters are appended as specified. -/
theorem write_elements_ok {T : Type} (num_put : T → List Char) (read : Nat → Exec T)
    (x : T) (xs : List T)
    (hread : ∀ (i : Nat) (h : i < (x :: xs).length),
      (read i).result = Outcome.ok ((x :: xs).get ⟨i, h⟩))
    (os : List Char) :
    (write_elements num_put read (x :: xs).length os).result
      = Outcome.ok (os ++ written_text num_put (x :: xs)) := by
  obtain ⟨s, hs, hP⟩ := forRange_inv
    (fun k (s : List Char) =>
      s = os ++ num_put x ++ (xs.take k).flatMap (fun y => [',', ' '] ++ num_put y))
    xs.length
    (fun k os => read (k + 1) >>= fun y => pure (os ++ [',', ' '] ++ num_put y))
    (os ++ num_put x) (by simp)
    (fun k hk s hinv => ⟨s ++ [',', ' '] ++ num_put (xs.get ⟨k, hk⟩), by
        have h := hread (k + 1) (by simp only [List.length_cons]; omega)
        rw [Exec.result_bind_ok _ h]
        rfl, by
        beta_reduce at hinv ⊢
        rw [hinv, List.take_succ, List.flatMap_append, List.getElem?_eq_getElem hk]
        simp⟩)
  unfold write_elements
  rw [Exec.result_bind_ok _ (hread 0 (by simp))]
  simp only [List.length_cons, Nat.add_sub_cancel]
  show (forRange xs.length _ (os ++ num_put x)).result = _
  rw [hs, hP, List.take_length]
  simp [written_text]

theorem op_insert_v_result {N : Nat} {T : Type} (num_put : T → List Char) (os : List Char)
    (a : vector N T) :
    (op_insert_v num_put os a).result
      = Outcome.ok (os ++ written_text num_put (List.ofFn a.data)) := by
  unfold op_insert_v
  cases hel : List.ofFn a.data with
  | nil =>
    have hN : N = 0 := List.ofFn_eq_nil_iff.mp hel
    rw [if_pos (by omega)]
    simp [written_text]
    rfl
  | cons x xs =>
    have hlen : (x :: xs).length = N := by rw [← hel, List.length_ofFn]
    have hN : ¬ N ≤ 0 := by
      simp only [List.length_cons] at hlen
      omega
    rw [if_neg hN]
    have hw := write_elements_ok num_put (fun i => a.op_subscript i) x xs (by
      intro i h
      have hi : i < N := by rw [← hlen]; exact h
      rw [a.op_subscript_result ⟨i, hi⟩]
      congr 1
      have hofn : (List.ofFn a.data).get ⟨i, by rw [List.length_ofFn]; exact hi⟩
          = a.data ⟨i, hi⟩ := by
        rw [List.get_eq_getElem]
        exact List.getElem_ofFn a.data i _
      rw [← hofn]
      simp only [List.get_eq_getElem, hel]) os
    rw [hlen] at hw
    exact hw

theorem op_insert_m_result {N M : Nat} {T : Type} (num_put : T → List Char) (os : List Char)
    (a : matrix N M T) :
    (op_insert_m num_put os a).result
      = Outcome.ok (os ++ written_text num_put (List.ofFn a.data)) := by
  unfold op_insert_m
  cases hel : List.ofFn a.data with
  | nil =>
    have hN : N * M = 0 := List.ofFn_eq_nil_iff.mp hel
    have h0 : N ≤ 0 ∨ M ≤ 0 := by
      rcases Nat.mul_eq_zero.mp hN with h | h
      · exact Or.inl (by omega)
      · exact Or.inr (by omega)
    rw [if_pos h0]
    simp [written_text]
    rfl
  | cons x xs =>
    have hlen : (x :: xs).length = N * M := by rw [← hel, List.length_ofFn]
    have hN : ¬ (N ≤ 0 ∨ M ≤ 0) := by
      simp only [List.length_cons] at hlen
      rintro (h | h)
      · have : N = 0 := by omega
        rw [this, Nat.zero_mul] at hlen
        omega
      · have : M = 0 := by omega
        rw [this, Nat.mul_zero] at hlen
        omega
    rw [if_neg hN]
    have hw := write_elements_ok num_put (fun i => a.op_subscript i) x xs (by
      intro i h
      have hi : i < N * M := by rw [← hlen]; exact h
      rw [a.mat_subscript_result ⟨i, hi⟩]
      congr 1
      have hofn : (List.ofFn a.data).get ⟨i, by rw [List.length_ofFn]; exact hi⟩
          = a.data ⟨i, hi⟩ := by
        rw [List.get_eq_getElem]
        exact List.getElem_ofFn a.data i _
      rw [← hofn]
      simp only [List.get_eq_getElem, hel]) os
    rw [hlen] at hw
    exact hw

/-! ## Writing, then reading -/

/-- The text written for `int` elements is a well-formed input text of the
same elements. -/
theorem written_text_items (x : Int) (xs : List Int)
    (hr : ∀ v ∈ x :: xs, INT_MIN ≤ v ∧ v ≤ INT_MAX) :
    written_text int_put (x :: xs)
        = items_text (⟨[], int_put x, x⟩ :: xs.map (fun v => ⟨[',', ' '], int_put v, v⟩)) ∧
      first_ok ⟨[], int_put x, x⟩ = true ∧
      (∀ it ∈ xs.map (fun v => (⟨[',', ' '], int_put v, v⟩ : Item)), item_ok it = true) ∧
      ((⟨[], int_put x, x⟩ : Item) :: xs.map (fun v => ⟨[',', ' '], int_put v, v⟩)).map
        Item.value = x :: xs := by
  refine ⟨?_, ?_, ?_, ?_⟩
  · rw [items_text_cons]
    unfold written_text items_text
    rw [List.flatMap_map]
    rfl
  · unfold first_ok
    have hx := hr x (List.mem_cons_self x xs)
    simp only [List.all_nil, Bool.true_and]
    exact is_int_text_int_put x hx.1 hx.2
  · intro it hit
    obtain ⟨v, hv, rfl⟩ := List.mem_map.mp hit
    have hvr := hr v (List.mem_cons_of_mem x hv)
    unfold item_ok
    simp only [Bool.and_eq_true]
    exact ⟨⟨by decide, is_int_text_int_put v hvr.1 hvr.2⟩, rfl⟩
  · simp only [List.map_cons, List.map_map, List.cons.injEq, true_and]
    exact List.map_id _

theorem roundtrip_v {N : Nat} (a b0 : vector N Int)
    (hr : ∀ i, INT_MIN ≤ a.data i ∧ a.data i ≤ INT_MAX) :
    ∃ txt s b, (op_insert_v int_put [] a).result = Outcome.ok txt ∧
      (op_extract_v int_get 0 ⟨txt, 0, false, false, false⟩ b0).result = Outcome.ok (s, b) ∧
      b = a := by
  refine ⟨written_text int_put (List.ofFn a.data), ?_⟩
  rw [op_insert_v_result, List.nil_append]
  cases hel : List.ofFn a.data with
  | nil =>
    have hN : N = 0 := List.ofFn_eq_nil_iff.mp hel
    subst hN
    exact ⟨_, b0, rfl, rfl, vector.ext (funext fun x => x.elim0)⟩
  | cons x xs =>
    have hlen : N = xs.length + 1 := by
      have := congrArg List.length hel
      simpa using this
    have hrange : ∀ v ∈ x :: xs, INT_MIN ≤ v ∧ v ≤ INT_MAX := by
      intro v hv
      rw [← hel] at hv
      obtain ⟨i, rfl⟩ := (List.mem_ofFn _ _).mp hv
      exact hr i
    obtain ⟨htxt, hfirst, hothers, hvals⟩ := written_text_items x xs hrange
    obtain ⟨b, hb, hdata⟩ := op_extract_v_ok (written_text int_put (x :: xs)) []
      (fun _ _ h => List.noConfusion h) _ _ 0 b0 hfirst hothers (by simpa using hlen)
      (by rw [List.drop_zero, List.append_nil, htxt])
    refine ⟨_, b, rfl, hb, ?_⟩
    rw [hvals, ← hel] at hdata
    exact vector.ext (List.ofFn_injective hdata)

theorem roundtrip_m {N M : Nat} (a b0 : matrix N M Int)
    (hr : ∀ i, INT_MIN ≤ a.data i ∧ a.data i ≤ INT_MAX) :
    ∃ txt s b, (op_insert_m int_put [] a).result = Outcome.ok txt ∧
      (op_extract_m int_get 0 ⟨txt, 0, false, false, false⟩ b0).result = Outcome.ok (s, b) ∧
      b = a := by
  refine ⟨written_text int_put (List.ofFn a.data), ?_⟩
  rw [op_insert_m_result, List.nil_append]
  cases hel : List.ofFn a.data with
  | nil =>
    have hN : N * M = 0 := List.ofFn_eq_nil_iff.mp hel
    have h0 : N ≤ 0 ∨ M ≤ 0 := by
      rcases Nat.mul_eq_zero.mp hN with h | h
      · exact Or.inl (by omega)
      · exact Or.inr (by omega)
    refine ⟨⟨written_text int_put [], 0, false, false, false⟩, b0, rfl, ?_,
      matrix.ext (funext fun x => absurd x.isLt (by omega))⟩
    unfold op_extract_m
    rw [if_pos h0]
    rfl
  | cons x xs =>
    have hlen : N * M = xs.length + 1 := by
      have := congrArg List.length hel
      simpa using this
    have hrange : ∀ v ∈ x :: xs, INT_MIN ≤ v ∧ v ≤ INT_MAX := by
      intro v hv
      rw [← hel] at hv
      obtain ⟨i, rfl⟩ := (List.mem_ofFn _ _).mp hv
      exact hr i
    obtain ⟨htxt, hfirst, hothers, hvals⟩ := written_text_items x xs hrange
    obtain ⟨b, hb, hdata⟩ := op_extract_m_ok (written_text int_put (x :: xs)) []
      (fun _ _ h => List.noConfusion h) _ _ 0 b0 hfirst hothers (by simpa using hlen)
      (by rw [List.drop_zero, List.append_nil, htxt])
    refine ⟨_, b, rfl, hb, ?_⟩
    rw [hvals, ← hel] at hdata
    exact matrix.ext (List.ofFn_injective hdata)

/-! ## Claims on the cross product of short and long operands, and on text I/O -/

/-- Witness for C12: `cross(x_3, x_4)` of the cross-product test. -/
theorem C12_cross_ignores_fourth_witness :
    ((3 = 3 ∨ 3 = 4) ∧ (4 = 3 ∨ 4 = 4)) ∧
    ∃ a3 b3 c, (resize_cast_v 3 id (vector.ofList [1, 0, 0] : vector 3 Int)).result
        = Outcome.ok a3 ∧
      (resize_cast_v 3 id (vector.ofList [1, 0, 0, 0] : vector 4 Int)).result = Outcome.ok b3 ∧
      (cross (vector.ofList [1, 0, 0] : vector 3 Int)
        (vector.ofList [1, 0, 0, 0] : vector 4 Int)).result = Outcome.ok c ∧
      (cross a3 b3).result = Outcome.ok c :=
  ⟨⟨by decide, by decide⟩,
    (C12_cross_ignores_fourth (vector.ofList [1, 0, 0] : vector 3 Int)
      (vector.ofList [1, 0, 0, 0] : vector 4 Int) (by decide) (by decide)).1⟩

/-- C15. Reader tolerance.  For `n` `int` values and an input text made of
leading whitespace, a numeral of the first value and, for each further value,
a separator (whitespace, at most one comma, whitespace; not empty unless the
numeral starts with a sign) and a numeral of it, reading the text from its
start into a vector of `n` elements, or a matrix of `N * M = n` elements,
completes without failure and stores the values in linear index order. -/
theorem C15_reader_tolerance (first : Item) (others : List Item)
    (hfirst : first_ok first = true) (hothers : ∀ it ∈ others, item_ok it = true) :
    (∀ (N : Nat) (a0 : vector N Int), N = others.length + 1 →
      ∃ s a, (op_extract_v int_get 0
          ⟨items_text (first :: others), 0, false, false, false⟩ a0).result
          = Outcome.ok (s, a) ∧
        s.fail = false ∧ List.ofFn a.data = (first :: others).map Item.value) ∧
    (∀ (N M : Nat) (a0 : matrix N M Int), N * M = others.length + 1 →
      ∃ s a, (op_extract_m int_get 0
          ⟨items_text (first :: others), 0, false, false, false⟩ a0).result
          = Outcome.ok (s, a) ∧
        s.fail = false ∧ List.ofFn a.data = (first :: others).map Item.value) := by
  constructor
  · intro N a0 hN
    obtain ⟨a, ha, hdata⟩ := op_extract_v_ok (items_text (first :: others)) []
      (fun _ _ h => List.noConfusion h) first others 0 a0 hfirst hothers hN
      (by rw [List.drop_zero, List.append_nil])
    exact ⟨_, a, ha, rfl, hdata⟩
  · intro N M a0 hN
    obtain ⟨a, ha, hdata⟩ := op_extract_m_ok (items_text (first :: others)) []
      (fun _ _ h => List.noConfusion h) first others 0 a0 hfirst hothers hN
      (by rw [List.drop_zero, List.append_nil])
    exact ⟨_, a, ha, rfl, hdata⟩

/-- Witness for C15: the text `1, 2 3 4 5 6` of the stream test, read into a
3×2 matrix. -/
theorem C15_reader_tolerance_witness :
    (first_ok ⟨[], ['1'], 1⟩ = true ∧
      ∀ it ∈ ([⟨[',', ' '], ['2'], 2⟩, ⟨[' '], ['3'], 3⟩, ⟨[' '], ['4'], 4⟩,
        ⟨[' '], ['5'], 5⟩, ⟨[' '], ['6'], 6⟩] : List Item), item_ok it = true) ∧
    ∃ s a, (op_extract_m int_get 0
        ⟨['1', ',', ' ', '2', ' ', '3', ' ', '4', ' ', '5', ' ', '6'], 0, false, false, false⟩
        (matrix.zero : matrix 3 2 Int)).result = Outcome.ok (s, a) ∧
      s.fail = false ∧ List.ofFn a.data = [1, 2, 3, 4, 5, 6] :=
  ⟨⟨by decide, by decide⟩,
    (C15_reader_tolerance ⟨[], ['1'], 1⟩
      [⟨[',', ' '], ['2'], 2⟩, ⟨[' '], ['3'], 3⟩, ⟨[' '], ['4'], 4⟩,
        ⟨[' '], ['5'], 5⟩, ⟨[' '], ['6'], 6⟩] (by decide) (by decide)).2 3 2 _ rfl⟩

/-- C16, evaluated where the code departs from it.  Reading `1 x` into a
2-vector of `int` holding `(5, 5)`: the extraction of the last element fails,
the loop ends without another test of the stream, and the destination is left
as `(1, 0)` instead of being filled with `quiet_NaN()` (0 for `int`).
For a 1-vector of any element type the result does not depend on the
`quiet_NaN` value at all: no fill is ever made. -/
theorem C16_reader_last_failure_not_filled :
    (∃ s a, (op_extract_v int_get 0 ⟨['1', ' ', 'x'], 0, false, false, false⟩
        (vector.ofList [5, 5] : vector 2 Int)).result = Outcome.ok (s, a) ∧
      s.failbit = true ∧ a.data 0 = 1 ∧ a.data 1 = 0) ∧
    (∀ (T : Type) (num_get : List Char → Extraction T) (q1 q2 : T) (is : istream)
      (a : vector 1 T), op_extract_v num_get q1 is a = op_extract_v num_get q2 is a) :=
  ⟨⟨_, _, rfl, rfl, rfl, rfl⟩, fun _ _ _ _ _ _ => rfl⟩

/-- C17, evaluated where the code departs from it.  Reading `1 x` into a
2-vector of `int` from position 0: the last extraction fails, no rollback is
made, and the stream is left at position 2.  Reading `1 x 3` into a 3-vector:
the rollback is taken (the destination is filled), but `seekg` does nothing on
a stream with `failbit` set, and the stream is left at position 2 as well.
Reading `1, 2` into a 4-vector, where the text ends right after an element and
only `eofbit` is set, does restore position 0. -/
theorem C17_reader_position_not_restored :
    (∃ s a, (op_extract_v int_get 0 ⟨['1', ' ', 'x'], 0, false, false, false⟩
        (vector.ofList [5, 5] : vector 2 Int)).result = Outcome.ok (s, a) ∧ s.pos = 2) ∧
    (∃ s a, (op_extract_v int_get 0 ⟨['1', ' ', 'x', ' ', '3'], 0, false, false, false⟩
        (vector.ofList [5, 5, 5] : vector 3 Int)).result = Outcome.ok (s, a) ∧
      s.pos = 2 ∧ s.failbit = true ∧ a.data 0 = 0 ∧ a.data 1 = 0 ∧ a.data 2 = 0) ∧
    (∃ s a, (op_extract_v int_get 0 ⟨['1', ',', ' ', '2'], 0, false, false, false⟩
        (vector.ofList [5, 5, 5, 5] : vector 4 Int)).result = Outcome.ok (s, a) ∧
      s.pos = 0 ∧ a.data 0 = 0 ∧ a.data 1 = 0 ∧ a.data 2 = 0 ∧ a.data 3 = 0) :=
  ⟨⟨_, _, rfl, rfl⟩, ⟨_, _, rfl, rfl, rfl, rfl, rfl, rfl⟩, ⟨_, _, rfl, rfl, rfl, rfl, rfl, rfl⟩⟩

/-- C18. On a well-formed input, whatever text `rest` follows the last numeral
(not a digit first, which would belong to the numeral), the reader completes
with the stream positioned right after the last numeral: the unread part of
the stream is `rest`. -/
theorem C18_reader_stops_after_last (pre rest : List Char) (first : Item)
    (others : List Item)
    (hfirst : first_ok first = true) (hothers : ∀ it ∈ others, item_ok it = true)
    (hrest : ∀ c y', rest = c :: y' → isdigit c = false) :
    (∀ (N : Nat) (a0 : vector N Int), N = others.length + 1 →
      ∃ s a, (op_extract_v int_get 0
          ⟨pre ++ (items_text (first :: others) ++ rest), pre.length, false, false, false⟩
          a0).result = Outcome.ok (s, a) ∧
        s.text = pre ++ (items_text (first :: others) ++ rest) ∧
        s.pos = pre.length + (items_text (first :: others)).length ∧ s.rest = rest) ∧
    (∀ (N M : Nat) (a0 : matrix N M Int), N * M = others.length + 1 →
      ∃ s a, (op_extract_m int_get 0
          ⟨pre ++ (items_text (first :: others) ++ rest), pre.length, false, false, false⟩
          a0).result = Outcome.ok (s, a) ∧
        s.text = pre ++ (items_text (first :: others) ++ rest) ∧
        s.pos = pre.length + (items_text (first :: others)).length ∧ s.rest = rest) := by
  have hdrop : (pre ++ (items_text (first :: others) ++ rest)).drop pre.length
      = items_text (first :: others) ++ rest := List.drop_left _ _
  constructor
  · intro N a0 hN
    obtain ⟨a, ha, _⟩ := op_extract_v_ok _ rest hrest first others pre.length a0 hfirst
      hothers hN hdrop
    exact ⟨_, a, ha, rfl, rfl, drop_add_of_drop_eq hdrop⟩
  · intro N M a0 hN
    obtain ⟨a, ha, _⟩ := op_extract_m_ok _ rest hrest first others pre.length a0 hfirst
      hothers hN hdrop
    exact ⟨_, a, ha, rfl, rfl, drop_add_of_drop_eq hdrop⟩

/-- Witness for C18: `7 8 ,x` read into a 2-vector from position 0 stops in
front of ` ,x`. -/
theorem C18_reader_stops_after_last_witness :
    (first_ok ⟨[], ['7'], 7⟩ = true ∧
      (∀ it ∈ ([⟨[' '], ['8'], 8⟩] : List Item), item_ok it = true) ∧
      ∀ c y', [' ', ',', 'x'] = c :: y' → isdigit c = false) ∧
    ∃ s a, (op_extract_v int_get 0
        ⟨['7', ' ', '8', ' ', ',', 'x'], 0, false, false, false⟩
        (vector.zero : vector 2 Int)).result = Outcome.ok (s, a) ∧
      s.text = ['7', ' ', '8', ' ', ',', 'x'] ∧ s.pos = 3 ∧ s.rest = [' ', ',', 'x'] :=
  ⟨⟨by decide, by decide, fun _ _ h => by cases h; decide⟩,
    (C18_reader_stops_after_last [] [' ', ',', 'x'] ⟨[], ['7'], 7⟩ [⟨[' '], ['8'], 8⟩]
      (by decide) (by decide) (fun _ _ h => by cases h; decide)).1 2 _ rfl⟩

/-- C19. Round trip.  For every vector and every matrix of `int` elements, of
any shape, writing it and reading the written text from its start into a
container of the same shape (whatever it held) completes and yields a
container equal to the written one. -/
theorem C19_round_trip :
    (∀ (N : Nat) (a b0 : vector N Int), (∀ i, INT_MIN ≤ a.data i ∧ a.data i ≤ INT_MAX) →
      ∃ txt s b, (op_insert_v int_put [] a).result = Outcome.ok txt ∧
        (op_extract_v int_get 0 ⟨txt, 0, false, false, false⟩ b0).result = Outcome.ok (s, b) ∧
        b = a) ∧
    (∀ (N M : Nat) (a b0 : matrix N M Int), (∀ i, INT_MIN ≤ a.data i ∧ a.data i ≤ INT_MAX) →
      ∃ txt s b, (op_insert_m int_put [] a).result = Outcome.ok txt ∧
        (op_extract_m int_get 0 ⟨txt, 0, false, false, false⟩ b0).result = Outcome.ok (s, b) ∧
        b = a) :=
  ⟨fun _ a b0 hr => roundtrip_v a b0 hr, fun _ _ a b0 hr => roundtrip_m a b0 hr⟩

/-- Witness for C19: a 2×2 matrix with a negative, a zero and the largest
`int`. -/
theorem C19_round_trip_witness :
    (∀ i, INT_MIN ≤ (matrix.ofList [1, -20, 0, 2147483647] : matrix 2 2 Int).data i ∧
      (matrix.ofList [1, -20, 0, 2147483647] : matrix 2 2 Int).data i ≤ INT_MAX) ∧
    ∃ txt s b, (op_insert_m int_put []
        (matrix.ofList [1, -20, 0, 2147483647] : matrix 2 2 Int)).result = Outcome.ok txt ∧
      (op_extract_m int_get 0 ⟨txt, 0, false, false, false⟩
        (matrix.zero : matrix 2 2 Int)).result = Outcome.ok (s, b) ∧
      b = matrix.ofList [1, -20, 0, 2147483647] :=
  ⟨by decide, C19_round_trip.2 2 2 _ _ (by decide)⟩

/-- C20. Writer format.  The characters written for a vector or a matrix are
the formatted element 0 followed, for each further element in linear index
order, by a comma, a space and the formatted element; nothing is written for a
container without elements. -/
theorem C20_writer_format {T : Type} (num_put : T → List Char) (os : List Char) :
    (∀ (N : Nat) (a : vector N T),
      (op_insert_v num_put os a).result
        = Outcome.ok (os ++ written_text num_put (List.ofFn a.data))) ∧
    (∀ (N M : Nat) (a : matrix N M T),
      (op_insert_m num_put os a).result
        = Outcome.ok (os ++ written_text num_put (List.ofFn a.data))) ∧
    (∀ a : vector 0 T, (op_insert_v num_put os a).result = Outcome.ok os) ∧
    (∀ (M : Nat) (a : matrix 0 M T), (op_insert_m num_put os a).result = Outcome.ok os) ∧
    (∀ (N : Nat) (a : matrix N 0 T), (op_insert_m num_put os a).result = Outcome.ok os) :=
  ⟨fun _ a => op_insert_v_result num_put os a, fun _ _ a => op_insert_m_result num_put os a,
    fun _ => rfl, fun _ _ => rfl, fun _ _ => by
      unfold op_insert_m
      rw [if_pos (Or.inr (Nat.le_refl 0))]
      rfl⟩

/-! ## Bounds of the element access -/

/-- C21, evaluated where the code departs from it.  For the 3×4 matrix of the
access test and the index 12 (and for a 3-vector and the index 3), `a[i]`
does not end in `std::out_of_range`: the test `i >= N * M` builds the
exception object without `throw`, and `data[i]` is evaluated past the end of
the storage, in the read-only and in the mutable form.  An in-range index
yields its element. -/
theorem C21_subscript_out_of_range_not_thrown :
    ((matrix.ofList (List.range 12) : matrix 3 4 Nat).op_subscript 12).result
      = Outcome.undefined ∧
    ((matrix.ofList (List.range 12) : matrix 3 4 Nat).op_subscript_modify 12
      (fun _ => 0)).result = Outcome.undefined ∧
    ((vector.ofList [1, 2, 3] : vector 3 Nat).op_subscript 3).result = Outcome.undefined ∧
    ((vector.ofList [1, 2, 3] : vector 3 Nat).op_subscript_modify 3 (fun _ => 0)).result
      = Outcome.undefined ∧
    ((matrix.ofList (List.range 12) : matrix 3 4 Nat).op_subscript 11).result
      = Outcome.ok 11 :=
  ⟨rfl, rfl, rfl, rfl, rfl⟩

/-- A pair beyond the extent of the matrix whose linear index is in range does
not fail: on the 3×4 matrix holding 0..11, `a(3, 0)` returns element 3. -/
theorem C22_pair_beyond_extent_in_range :
    ((3 : Nat) ≥ 3 ∨ (0 : Nat) ≥ 4) ∧
    ((matrix.ofList (List.range 12) : matrix 3 4 Nat).op_call 3 0).result = Outcome.ok 3 ∧
    ((matrix.ofList (List.range 12) : matrix 3 4 Nat).op_call 3 0).result
      ≠ Outcome.out_of_range :=
  ⟨Or.inl (Nat.le_refl 3), rfl, by
    rw [show ((matrix.ofList (List.range 12) : matrix 3 4 Nat).op_call 3 0).result
      = Outcome.ok 3 from rfl]
    exact fun h => Outcome.noConfusion h⟩

/-- C22, amended.  Pair access is checked through the linear index only:
`a(i, j)` is `a[k]` with `k = i + j * N` in `size_t` arithmetic, and whenever
`k < N * M`, also for a pair beyond the extent of the matrix, it does not fail
and returns element `k`. -/
theorem C22_pair_access_by_linear_index {N M : Nat} {T : Type} (a : matrix N M T)
    (i j : Nat) (hk : (i + j * N) % (SIZE_MAX + 1) < N * M) :
    a.op_call i j = a.op_subscript ((i + j * N) % (SIZE_MAX + 1)) ∧
    (a.op_call i j).result = Outcome.ok (a.data ⟨(i + j * N) % (SIZE_MAX + 1), hk⟩) ∧
    (a.op_call i j).result ≠ Outcome.out_of_range := by
  have h : (a.op_call i j).result
      = Outcome.ok (a.data ⟨(i + j * N) % (SIZE_MAX + 1), hk⟩) :=
    raw_read_result a.data _ hk
  refine ⟨rfl, h, ?_⟩
  rw [h]
  exact fun h' => Outcome.noConfusion h'

/-- Witness for the amended C22: the pair (5, 2) on the 3×4 matrix of the
access test has linear index 11. -/
theorem C22_pair_access_by_linear_index_witness :
    ((5 + 2 * 3) % (SIZE_MAX + 1) < 3 * 4) ∧
    ((matrix.ofList (List.range 12) : matrix 3 4 Nat).op_call 5 2
        = (matrix.ofList (List.range 12) : matrix 3 4 Nat).op_subscript
          ((5 + 2 * 3) % (SIZE_MAX + 1)) ∧
      (∃ h : (5 + 2 * 3) % (SIZE_MAX + 1) < 3 * 4,
        ((matrix.ofList (List.range 12) : matrix 3 4 Nat).op_call 5 2).result
          = Outcome.ok ((matrix.ofList (List.range 12) : matrix 3 4 Nat).data
            ⟨(5 + 2 * 3) % (SIZE_MAX + 1), h⟩)) ∧
      ((matrix.ofList (List.range 12) : matrix 3 4 Nat).op_call 5 2).result
        ≠ Outcome.out_of_range) :=
  ⟨by decide,
    (C22_pair_access_by_linear_index _ 5 2 (by decide)).1,
    ⟨by decide, (C22_pair_access_by_linear_index _ 5 2 (by decide)).2.1⟩,
    (C22_pair_access_by_linear_index _ 5 2 (by decide)).2.2⟩

/-! ## The readers on a text with too few elements -/

theorem drop_takeWhile_length (q : Char → Bool) (l : List Char) :
    l.drop (l.takeWhile q).length = l.dropWhile q := by
  induction l with
  | nil => rfl
  | cons c t ih =>
    rw [List.takeWhile_cons, List.dropWhile_cons]
    by_cases h : q c = true
    · rw [if_pos h, if_pos h]
      exact ih
    · rw [if_neg h, if_neg h]
      rfl

theorem dropWhile_idem (q : Char → Bool) (l : List Char) :
    (l.dropWhile q).dropWhile q = l.dropWhile q := by
  induction l with
  | nil => rfl
  | cons c t ih =>
    rw [List.dropWhile_cons]
    by_cases h : q c = true
    · rw [if_pos h]
      exact ih
    · rw [if_neg h, List.dropWhile_cons, if_neg h]

/-- Skipping whitespace on a good stream, whatever follows. -/
theorem istream.ws_any (txt : List Char) (p : Nat) :
    (⟨txt, p, false, false, false⟩ : istream).ws
      = ⟨txt, p + ((txt.drop p).takeWhile isspace).length,
          ((txt.drop p).dropWhile isspace).isEmpty, false, false⟩ ∧
    txt.drop (p + ((txt.drop p).takeWhile isspace).length)
      = (txt.drop p).dropWhile isspace := by
  constructor
  · have hg : (⟨txt, p, false, false, false⟩ : istream).sentry
        = (⟨txt, p, false, false, false⟩, true) := rfl
    unfold istream.ws
    rw [hg]
    unfold istream.skip_ws istream.rest
    simp only [drop_takeWhile_length, Bool.false_or, if_true]
  · rw [← List.drop_drop, drop_takeWhile_length]

/-- A stream with `failbit` keeps it through `seekg`. -/
theorem istream.seekg_failbit (s : istream) (P : Option Nat) (h : s.failbit = true) :
    (s.seekg P).failbit = true := by
  unfold istream.seekg istream.sentry istream.good istream.fail
  simp [h]

/-- Once `failbit` is set, the loop of the readers returns with it set. -/
theorem read_loop_sticky {σ T : Type} (num_get : List Char → Extraction T)
    (store : Nat → σ → (T → T) → Exec σ) (fill : σ → σ) (P : Option Nat) :
    ∀ (k i : Nat) (st : istream × σ), st.1.failbit = true →
      ∃ s a, (read_loop num_get store fill P k i st).result = Outcome.ok (s, a) ∧
        s.failbit = true := by
  intro k i st h
  cases k with
  | zero => exact ⟨st.1, st.2, rfl, h⟩
  | succ k =>
    have hg : st.1.good = false := by
      unfold istream.good
      simp [h]
    refine ⟨st.1.seekg P, fill st.2, ?_, istream.seekg_failbit _ _ h⟩
    simp only [read_loop, hg, Bool.not_false, if_true]
    rfl

/-- Formatted extraction where no field can be obtained sets `failbit`. -/
theorem istream.extract_fails {T : Type} (num_get : List Char → Extraction T)
    (txt : List Char) (q : Nat) (e : Bool)
    (h : (((txt.drop q).dropWhile isspace).isEmpty
      || (num_get ((txt.drop q).dropWhile isspace)).fail) = true) :
    ((⟨txt, q, e, false, false⟩ : istream).extract num_get).1.failbit = true := by
  unfold istream.extract
  cases e with
  | true => rfl
  | false =>
    have hws := istream.ws_any txt q
    have hsk : (⟨txt, q, false, false, false⟩ : istream).skip_ws
        = ⟨txt, q + ((txt.drop q).takeWhile isspace).length,
          ((txt.drop q).dropWhile isspace).isEmpty, false, false⟩ := by
      rw [← hws.1]
      rfl
    simp only [istream.good, Bool.not_false, Bool.and_self, if_true, hsk, istream.rest, hws.2]
    by_cases hemp : ((txt.drop q).dropWhile isspace).isEmpty = true
    · rw [if_pos hemp]
    · rw [if_neg hemp]
      simp only [hemp, Bool.false_or] at h
      simp only [h, Bool.or_true]

theorem extract_into_any {σ T : Type} (num_get : List Char → Extraction T)
    (store : Nat → σ → (T → T) → Exec σ) (upd : Nat → σ → (T → T) → σ) (i : Nat)
    (s : istream) (a : σ)
    (hstore : ∀ f, (store i a f).result = Outcome.ok (upd i a f)) :
    ∃ a', (extract_into num_get store i (s, a)).result
      = Outcome.ok ((s.extract num_get).1, a') := by
  refine ⟨upd i a (fun t => ((s.extract num_get).2).getD t), ?_⟩
  unfold extract_into
  rw [Exec.result_bind_ok _ (hstore _)]
  rfl

/-- An iteration of the readers' loop on a good stream from which no further
element can be obtained: the loop returns with `failbit` set. -/
theorem read_loop_fails {σ : Type} (store : Nat → σ → (Int → Int) → Exec σ)
    (upd : Nat → σ → (Int → Int) → σ) (fill : σ → σ) (P : Option Nat) (n : Nat)
    (hstore : ∀ i, i < n → ∀ a f, (store i a f).result = Outcome.ok (upd i a f))
    (txt : List Char) (p k i : Nat) (a : σ) (hi : i < n)
    (hfail : no_int_at (next_field (txt.drop p)) = true) :
    ∃ s a', (read_loop int_get store fill P (k + 1) i
        (⟨txt, p, false, false, false⟩, a)).result = Outcome.ok (s, a') ∧
      s.failbit = true := by
  obtain ⟨hws, hdrop1⟩ := istream.ws_any txt p
  have hg0 : (⟨txt, p, false, false, false⟩ : istream).good = true := rfl
  simp only [read_loop, hg0, Bool.not_true, Bool.false_eq_true, if_false, hws]
  unfold no_int_at next_field at hfail
  cases hr1 : (txt.drop p).dropWhile isspace with
  | nil =>
    simp only [List.isEmpty_nil]
    refine ⟨_, fill a, rfl, ?_⟩
    exact istream.seekg_failbit _ _ rfl
  | cons c t =>
    rw [hr1] at hdrop1 hfail
    have hget := istream.get_good txt _ c t hdrop1
    simp only [List.isEmpty_cons, hget]
    have hg2 : (⟨txt, p + ((txt.drop p).takeWhile isspace).length + 1, false, false,
        false⟩ : istream).good = true := rfl
    simp only [hg2, Bool.not_true, Bool.false_eq_true, if_false]
    have hidem : (c :: t).dropWhile isspace = c :: t := by
      rw [← hr1]
      exact dropWhile_idem isspace _
    by_cases hc : c = ','
    · subst hc
      have hd2 : txt.drop (p + ((txt.drop p).takeWhile isspace).length + 1) = t := by
        have := @drop_add_of_drop_eq txt [','] t _ hdrop1
        simpa using this
      obtain ⟨hws2, hdrop2⟩ := istream.ws_any txt
        (p + ((txt.drop p).takeWhile isspace).length + 1)
      rw [hd2] at hws2 hdrop2
      simp only [ne_eq, not_true_eq_false, if_false, hws2]
      simp only [List.head?_cons, if_true, List.tail_cons] at hfail
      have hx := istream.extract_fails int_get txt _ (t.dropWhile isspace).isEmpty
        (by rw [hdrop2, dropWhile_idem]; exact hfail)
      obtain ⟨a', ha'⟩ := extract_into_any int_get store upd i
        (⟨txt, p + ((txt.drop p).takeWhile isspace).length + 1
          + (t.takeWhile isspace).length, (t.dropWhile isspace).isEmpty, false, false⟩) a
        (hstore i hi a)
      rw [Exec.result_bind_ok _ ha']
      exact read_loop_sticky int_get store fill P k (i + 1) _ hx
    · have hne : (some c ≠ some ',') := fun h => hc (Option.some.inj h)
      obtain ⟨hws2, hdrop2⟩ := istream.ws_any txt (p + ((txt.drop p).takeWhile isspace).length)
      rw [hdrop1] at hws2 hdrop2
      simp only [ne_eq, hne, not_false_eq_true, if_true, istream.unget_good, hws2]
      have hhead : ¬ ((c :: t).head? = some ',') := fun h => hc (Option.some.inj h)
      simp only [hhead, if_false, hidem] at hfail
      have hx := istream.extract_fails int_get txt _ ((c :: t).dropWhile isspace).isEmpty
        (by rw [hdrop2, dropWhile_idem, hidem]; exact hfail)
      obtain ⟨a', ha'⟩ := extract_into_any int_get store upd i
        (⟨txt, p + ((txt.drop p).takeWhile isspace).length
          + ((c :: t).takeWhile isspace).length, ((c :: t).dropWhile isspace).isEmpty,
          false, false⟩) a (hstore i hi a)
      rw [Exec.result_bind_ok _ ha']
      exact read_loop_sticky int_get store fill P k (i + 1) _ hx

/-- An iteration of the readers' loop on a stream that is not good by `eofbit`
alone: the rollback repositions the stream, which is handed back good, and
fills the destination. -/
theorem read_loop_rollback_eof {σ T : Type} (num_get : List Char → Extraction T)
    (store : Nat → σ → (T → T) → Exec σ) (fill : σ → σ)
    (txt : List Char) (p q k i : Nat) (a : σ) (hp : p ≤ txt.length) :
    (read_loop num_get store fill (some p) (k + 1) i
      (⟨txt, q, true, false, false⟩, a)).result
      = Outcome.ok (⟨txt, p, false, false, false⟩, fill a) := by
  have hg : (⟨txt, q, true, false, false⟩ : istream).good = false := rfl
  have hseek : (⟨txt, q, true, false, false⟩ : istream).seekg (some p)
      = ⟨txt, p, false, false, false⟩ := by
    unfold istream.seekg istream.sentry istream.good istream.fail
    simp [hp]
  simp only [read_loop, hg, Bool.not_false, if_true, hseek]
  rfl

/-- The loop of the readers in front of well-formed elements, with `m`
iterations to go after them: the elements are read and stored, and the loop
goes on behind the last numeral. -/
theorem read_loop_prefix {σ : Type} (store : Nat → σ → (Int → Int) → Exec σ)
    (upd : Nat → σ → (Int → Int) → σ) (fill : σ → σ) (P : Option Nat) (n : Nat)
    (hstore : ∀ i, i < n → ∀ a f, (store i a f).result = Outcome.ok (upd i a f))
    (txt rest : List Char) (hrest : ∀ c y', rest = c :: y' → isdigit c = false) (m : Nat) :
    ∀ (items : List Item) (i p : Nat) (a : σ),
      (∀ it ∈ items, item_ok it = true) → i + items.length ≤ n →
      txt.drop p = items_text items ++ rest →
      (read_loop int_get store fill P (items.length + m) i
        (⟨txt, p, (items_text items ++ rest).isEmpty, false, false⟩, a)).result
      = (read_loop int_get store fill P m (i + items.length)
        (⟨txt, p + (items_text items).length, rest.isEmpty, false, false⟩,
          store_all upd i (items.map Item.value) a)).result := by
  intro items
  induction items with
  | nil =>
    intro i p a _ _ _
    simp only [List.length_nil, Nat.zero_add, items_text, List.flatMap_nil, List.nil_append,
      Nat.add_zero, List.map_nil, store_all]
  | cons it tl ih =>
    intro i p a hitems hlen hdrop
    have hok := hitems it (List.mem_cons_self it tl)
    have htl : ∀ it' ∈ tl, item_ok it' = true :=
      fun it' h => hitems it' (List.mem_cons_of_mem it h)
    unfold item_ok at hok
    simp only [Bool.and_eq_true] at hok
    obtain ⟨⟨hsep, htext⟩, _⟩ := hok
    obtain ⟨c, t, he, hc, hcc, _⟩ := is_int_text_head it.text it.value htext
    have hget := int_get_numeral it.text (items_text tl ++ rest) it.value htext
      (items_head_not_digit tl rest htl hrest)
    rw [he] at hget
    have hd1 : txt.drop p = it.sep ++ c :: (t ++ (items_text tl ++ rest)) := by
      rw [hdrop, items_text_cons, he]
      simp
    obtain ⟨hgood, hstream⟩ := sep_step txt p it.sep c _ hsep hc hcc hd1
    have hd2 : txt.drop (p + it.sep.length) = [] ++ ((c :: t) ++ (items_text tl ++ rest)) := by
      rw [drop_add_of_drop_eq hd1]
      rfl
    have hex := istream.extract_good int_get txt (p + it.sep.length) [] c t
      (items_text tl ++ rest) it.value hd2 (fun x hx => absurd hx (List.not_mem_nil x)) hc hget
    have hi : i < n := by
      simp only [List.length_cons] at hlen
      omega
    have hd3 : txt.drop (p + it.sep.length + ([] : List Char).length + (c :: t).length)
        = items_text tl ++ rest := by
      have := @drop_add_of_drop_eq txt (c :: t) (items_text tl ++ rest)
        (p + it.sep.length) (by rw [hd2]; rfl)
      simpa using this
    have hrec := ih (i + 1) _ (upd i a (fun _ => it.value)) htl
      (by simp only [List.length_cons] at hlen; omega) hd3
    have hemp : (items_text (it :: tl) ++ rest).isEmpty = false := by
      rw [items_text_cons, he]
      cases it.sep <;> rfl
    rw [hemp, show (it :: tl).length + m = (tl.length + m) + 1 by
      simp only [List.length_cons]; omega]
    simp only [read_loop]
    have hg0 : (⟨txt, p, false, false, false⟩ : istream).good = true := rfl
    simp only [hg0, hgood, Bool.not_true, Bool.false_eq_true, if_false]
    rw [hstream, Exec.result_bind_ok _
      (extract_into_result int_get store upd i _ _ a it.value (hstore i hi a) hex), hrec]
    simp only [List.map_cons, store_all, items_text_cons, he, List.length_append,
      List.length_cons, List.length_nil]
    have e1 : p + it.sep.length + 0 + (t.length + 1) + (items_text tl).length
        = p + (it.sep.length + (t.length + 1) + (items_text tl).length) := by omega
    have e2 : i + 1 + tl.length = i + (tl.length + 1) := by omega
    simp only [e1, e2]

/-- The body of the readers in front of well-formed elements that are fewer
than the container's: the elements are read and stored, and the loop goes on
behind the last numeral with the iterations that remain. -/
theorem read_elements_prefix {σ : Type} (store : Nat → σ → (Int → Int) → Exec σ)
    (upd : Nat → σ → (Int → Int) → σ) (fill : σ → σ) (n m : Nat)
    (hstore : ∀ i, i < n → ∀ a f, (store i a f).result = Outcome.ok (upd i a f))
    (txt rest : List Char) (hrest : ∀ c y', rest = c :: y' → isdigit c = false)
    (first : Item) (others : List Item) (p : Nat) (a : σ)
    (hfirst : first_ok first = true) (hothers : ∀ it ∈ others, item_ok it = true)
    (hn : n = others.length + 1 + m)
    (hdrop : txt.drop p = items_text (first :: others) ++ rest) :
    (read_elements int_get store fill n (⟨txt, p, false, false, false⟩, a)).result
      = (read_loop int_get store fill (some p) m (1 + others.length)
        (⟨txt, p + (items_text (first :: others)).length, rest.isEmpty, false, false⟩,
          store_all upd 0 ((first :: others).map Item.value) a)).result := by
  unfold first_ok at hfirst
  simp only [Bool.and_eq_true, List.all_eq_true] at hfirst
  obtain ⟨hw, htext⟩ := hfirst
  obtain ⟨c, t, he, hc, _, _⟩ := is_int_text_head first.text first.value htext
  have hget := int_get_numeral first.text (items_text others ++ rest) first.value htext
    (items_head_not_digit others rest hothers hrest)
  rw [he] at hget
  have hd1 : txt.drop p = first.sep ++ c :: (t ++ (items_text others ++ rest)) := by
    rw [hdrop, items_text_cons, he]
    simp
  have hws := istream.ws_good txt p first.sep c _ hd1 hw hc
  have hd2 : txt.drop (p + first.sep.length)
      = [] ++ ((c :: t) ++ (items_text others ++ rest)) := by
    rw [drop_add_of_drop_eq hd1]
    rfl
  have hex := istream.extract_good int_get txt (p + first.sep.length) [] c t
    (items_text others ++ rest) first.value hd2 (fun x hx => absurd hx (List.not_mem_nil x))
    hc hget
  have hd3 : txt.drop (p + first.sep.length + ([] : List Char).length + (c :: t).length)
      = items_text others ++ rest := by
    have := @drop_add_of_drop_eq txt (c :: t) (items_text others ++ rest)
      (p + first.sep.length) (by rw [hd2]; rfl)
    simpa using this
  have hloop := read_loop_prefix store upd fill (some p) n hstore txt rest hrest m others 1 _
    (upd 0 a (fun _ => first.value)) hothers (by omega) hd3
  have htell : (⟨txt, p, false, false, false⟩ : istream).tellg
      = (⟨txt, p, false, false, false⟩, some p) := rfl
  unfold read_elements
  simp only [htell, hws]
  rw [Exec.result_bind_ok _
    (extract_into_result int_get store upd 0 _ _ a first.value (hstore 0 (by omega) a) hex),
    show n - 1 = others.length + m by omega, hloop]
  simp only [List.map_cons, store_all, items_text_cons, he, List.length_append,
    List.length_cons, List.length_nil]
  have e1 : p + first.sep.length + 0 + (t.length + 1) + (items_text others).length
      = p + (first.sep.length + (t.length + 1) + (items_text others).length) := by omega
  simp only [e1]

theorem elems_ok_cons (first : Item) (others : List Item)
    (h : elems_ok (first :: others) = true) :
    first_ok first = true ∧ ∀ it ∈ others, item_ok it = true := by
  unfold elems_ok at h
  simp only [Bool.and_eq_true, List.all_eq_true] at h
  exact h

/-- The body of the readers on a text from which fewer elements than the
container's can be obtained.  The stream handed back has `failbit` set, except
when at least one element was read and the data ends right after an element:
then the stream is handed back good at the position where the read began, and
the destination is filled. -/
theorem read_elements_short {σ : Type} (store : Nat → σ → (Int → Int) → Exec σ)
    (upd : Nat → σ → (Int → Int) → σ) (fill : σ → σ) (n : Nat)
    (hstore : ∀ i, i < n → ∀ a f, (store i a f).result = Outcome.ok (upd i a f))
    (txt rest : List Char) (elems : List Item) (p : Nat) (a : σ)
    (helems : elems_ok elems = true)
    (hrest : elems ≠ [] → ∀ c y', rest = c :: y' → isdigit c = false)
    (hfail : no_element elems rest = true) (hn : elems.length < n)
    (hdrop : txt.drop p = items_text elems ++ rest) (hp : p ≤ txt.length) :
    ∃ s a', (read_elements int_get store fill n (⟨txt, p, false, false, false⟩, a)).result
        = Outcome.ok (s, a') ∧
      (elems ≠ [] → rest = [] → s = ⟨txt, p, false, false, false⟩ ∧
        a' = fill (store_all upd 0 (elems.map Item.value) a)) ∧
      (elems = [] ∨ rest ≠ [] → s.failbit = true) := by
  cases elems with
  | nil =>
    have hdrop' : txt.drop p = rest := by
      rw [hdrop]
      rfl
    obtain ⟨hws, hdrop1⟩ := istream.ws_any txt p
    have htell : (⟨txt, p, false, false, false⟩ : istream).tellg
        = (⟨txt, p, false, false, false⟩, some p) := rfl
    have hx := istream.extract_fails int_get txt (p + ((txt.drop p).takeWhile isspace).length)
      ((txt.drop p).dropWhile isspace).isEmpty
      (by rw [hdrop1, dropWhile_idem, hdrop']; exact hfail)
    obtain ⟨a', ha'⟩ := extract_into_any int_get store upd 0
      (⟨txt, p + ((txt.drop p).takeWhile isspace).length,
        ((txt.drop p).dropWhile isspace).isEmpty, false, false⟩) a (hstore 0 (by omega) a)
    obtain ⟨s, a'', hres, hs⟩ := read_loop_sticky int_get store fill (some p) (n - 1) 1
      ((⟨txt, p + ((txt.drop p).takeWhile isspace).length,
        ((txt.drop p).dropWhile isspace).isEmpty, false, false⟩ : istream).extract int_get
        |>.1, a') hx
    refine ⟨s, a'', ?_, fun h => absurd rfl h, fun _ => hs⟩
    unfold read_elements
    simp only [htell, hws]
    rw [Exec.result_bind_ok _ ha']
    exact hres
  | cons first others =>
    obtain ⟨hfirst, hothers⟩ := elems_ok_cons first others helems
    have hrest' := hrest (List.cons_ne_nil first others)
    simp only [List.length_cons] at hn
    obtain ⟨m, hm⟩ : ∃ m, n = others.length + 1 + (m + 1) := ⟨n - others.length - 2, by omega⟩
    have hpre := read_elements_prefix store upd fill n (m + 1) hstore txt rest hrest' first
      others p a hfirst hothers hm hdrop
    cases hr : rest with
    | nil =>
      refine ⟨⟨txt, p, false, false, false⟩, _, ?_, fun _ _ => ⟨rfl, rfl⟩,
        fun h => h.elim (fun h1 => absurd h1 (List.cons_ne_nil first others))
          (fun h2 => absurd rfl h2)⟩
      rw [hpre, hr]
      exact read_loop_rollback_eof int_get store fill txt p _ m _ _ hp
    | cons c y =>
      have hd : txt.drop (p + (items_text (first :: others)).length) = rest :=
        @drop_add_of_drop_eq txt (items_text (first :: others)) rest p hdrop
      have hf : no_int_at (next_field (txt.drop (p + (items_text (first :: others)).length)))
          = true := by
        rw [hd]
        exact hfail
      obtain ⟨s, a', hres, hs⟩ := read_loop_fails store upd fill (some p) n hstore txt
        (p + (items_text (first :: others)).length) m (1 + others.length)
        (store_all upd 0 ((first :: others).map Item.value) a) (by omega) hf
      refine ⟨s, a', ?_, fun _ h => List.noConfusion h, fun _ => hs⟩
      rw [hpre, hr]
      exact hres

theorem istream.not_good_of_failbit (s : istream) (h : s.failbit = true) : s.good = false := by
  unfold istream.good
  simp [h]

/-- The vector reader on a text from which fewer elements than the vector's
can be obtained. -/
theorem op_extract_v_short {N : Nat} (txt rest : List Char) (elems : List Item) (p : Nat)
    (a0 : vector N Int) (helems : elems_ok elems = true)
    (hrest : elems ≠ [] → ∀ c y', rest = c :: y' → isdigit c = false)
    (hfail : no_element elems rest = true) (hn : elems.length < N)
    (hdrop : txt.drop p = items_text elems ++ rest) (hp : p ≤ txt.length) :
    ∃ s a, (op_extract_v int_get 0 ⟨txt, p, false, false, false⟩ a0).result
        = Outcome.ok (s, a) ∧
      (elems ≠ [] → rest = [] → s = ⟨txt, p, false, false, false⟩ ∧
        a = a0.op_assign_scalar 0) ∧
      (elems = [] ∨ rest ≠ [] → s.failbit = true) := by
  obtain ⟨s, a, hres, h1, h2⟩ := read_elements_short
    (fun i (a : vector N Int) f => a.op_subscript_modify i f)
    (fun i a f => ⟨fun x => if x.val = i then f (a.data x) else a.data x⟩)
    (fun a => a.op_assign_scalar 0) N
    (fun i hi a f => a.op_subscript_modify_result i f hi)
    txt rest elems p a0 helems hrest hfail hn hdrop hp
  refine ⟨s, a, ?_, fun he hr => ⟨(h1 he hr).1, (h1 he hr).2⟩, h2⟩
  unfold op_extract_v
  rw [if_neg (by omega)]
  exact hres

/-- The matrix reader on a text from which fewer elements than the matrix's
can be obtained. -/
theorem op_extract_m_short {N M : Nat} (txt rest : List Char) (elems : List Item) (p : Nat)
    (a0 : matrix N M Int) (helems : elems_ok elems = true)
    (hrest : elems ≠ [] → ∀ c y', rest = c :: y' → isdigit c = false)
    (hfail : no_element elems rest = true) (hn : elems.length < N * M)
    (hdrop : txt.drop p = items_text elems ++ rest) (hp : p ≤ txt.length) :
    ∃ s a, (op_extract_m int_get 0 ⟨txt, p, false, false, false⟩ a0).result
        = Outcome.ok (s, a) ∧
      (elems ≠ [] → rest = [] → s = ⟨txt, p, false, false, false⟩ ∧
        a = a0.op_assign_scalar 0) ∧
      (elems = [] ∨ rest ≠ [] → s.failbit = true) := by
  obtain ⟨s, a, hres, h1, h2⟩ := read_elements_short
    (fun i (a : matrix N M Int) f => a.op_subscript_modify i f)
    (fun i a f => ⟨fun x => if x.val = i then f (a.data x) else a.data x⟩)
    (fun a => a.op_assign_scalar 0) (N * M)
    (fun i hi a f => a.mat_subscript_modify_result i f hi)
    txt rest elems p a0 helems hrest hfail hn hdrop hp
  have hpos : ¬ (N ≤ 0 ∨ M ≤ 0) := by
    rintro (h | h)
    · have : N = 0 := by omega
      rw [this, Nat.zero_mul] at hn
      omega
    · have : M = 0 := by omega
      rw [this, Nat.mul_zero] at hn
      omega
  refine ⟨s, a, ?_, fun he hr => ⟨(h1 he hr).1, (h1 he hr).2⟩, h2⟩
  unfold op_extract_m
  rw [if_neg hpos]
  exact hres

/-- C23, evaluated where the code departs from it.  Reading `1, 2` into a
4-vector of `int` holding `(5, 5, 5, 5)`: two of the four elements are
obtained and the data ends right after the second, so the read fails by end of
data.  The rollback `is.seekg(pos)` clears `eofbit` and repositions the
stream: the stream handed back is good (no `eofbit`, no `failbit`, no
`badbit`) at position 0, and only the filled destination shows the failure. -/
theorem C23_short_read_hands_back_good_stream :
    ∃ s a, (op_extract_v int_get 0 ⟨['1', ',', ' ', '2'], 0, false, false, false⟩
        (vector.ofList [5, 5, 5, 5] : vector 4 Int)).result = Outcome.ok (s, a) ∧
      s.good = true ∧ s.eofbit = false ∧ s.failbit = false ∧ s.badbit = false ∧
      s.pos = 0 ∧ a.data 0 = 0 ∧ a.data 1 = 0 ∧ a.data 2 = 0 ∧ a.data 3 = 0 :=
  ⟨_, _, rfl, rfl, rfl, rfl, rfl, rfl, rfl, rfl, rfl, rfl⟩

/-- C23, amended.  A read fails when the text at the get position is the
well-formed elements `elems`, fewer than the container's, followed by a text
`rest` from which no further element can be obtained (the data ends, or no
`int` can be parsed where the next numeral would start).  The reader then
completes, and the stream handed back has `failbit` set and is not good,
except when at least one element was read and the data ends right after an
element: then the stream is handed back in good state at the position where
the read began, and the destination is filled with `quiet_NaN()`. -/
theorem C23_failed_read_stream_state (pre : List Char) (elems : List Item) (rest : List Char)
    (helems : elems_ok elems = true)
    (hrest : elems ≠ [] → ∀ c y', rest = c :: y' → isdigit c = false)
    (hfail : no_element elems rest = true) :
    (∀ (N : Nat) (a0 : vector N Int), elems.length < N →
      ∃ s a, (op_extract_v int_get 0
          ⟨pre ++ (items_text elems ++ rest), pre.length, false, false, false⟩ a0).result
          = Outcome.ok (s, a) ∧
        (elems ≠ [] → rest = [] →
          s = ⟨pre ++ (items_text elems ++ rest), pre.length, false, false, false⟩ ∧
          s.good = true ∧ a = a0.op_assign_scalar 0) ∧
        (elems = [] ∨ rest ≠ [] → s.failbit = true ∧ s.good = false)) ∧
    (∀ (N M : Nat) (a0 : matrix N M Int), elems.length < N * M →
      ∃ s a, (op_extract_m int_get 0
          ⟨pre ++ (items_text elems ++ rest), pre.length, false, false, false⟩ a0).result
          = Outcome.ok (s, a) ∧
        (elems ≠ [] → rest = [] →
          s = ⟨pre ++ (items_text elems ++ rest), pre.length, false, false, false⟩ ∧
          s.good = true ∧ a = a0.op_assign_scalar 0) ∧
        (elems = [] ∨ rest ≠ [] → s.failbit = true ∧ s.good = false)) := by
  have hdrop : (pre ++ (items_text elems ++ rest)).drop pre.length
      = items_text elems ++ rest := List.drop_left _ _
  have hp : pre.length ≤ (pre ++ (items_text elems ++ rest)).length := by
    rw [List.length_append]
    omega
  constructor
  · intro N a0 hN
    obtain ⟨s, a, hres, h1, h2⟩ := op_extract_v_short _ rest elems pre.length a0 helems hrest
      hfail hN hdrop hp
    refine ⟨s, a, hres, fun he hr => ?_, fun h => ⟨h2 h, s.not_good_of_failbit (h2 h)⟩⟩
    obtain ⟨hs, ha⟩ := h1 he hr
    refine ⟨hs, ?_, ha⟩
    rw [hs]
    rfl
  · intro N M a0 hN
    obtain ⟨s, a, hres, h1, h2⟩ := op_extract_m_short _ rest elems pre.length a0 helems hrest
      hfail hN hdrop hp
    refine ⟨s, a, hres, fun he hr => ?_, fun h => ⟨h2 h, s.not_good_of_failbit (h2 h)⟩⟩
    obtain ⟨hs, ha⟩ := h1 he hr
    refine ⟨hs, ?_, ha⟩
    rw [hs]
    rfl

/-- Witness for C23: `1 x` read into a 2-vector: one element is obtained, no
`int` can be parsed at `x`, and the stream handed back has `failbit` set. -/
theorem C23_failed_read_stream_state_witness :
    (elems_ok [⟨[], ['1'], 1⟩] = true ∧
      (([⟨[], ['1'], 1⟩] : List Item) ≠ [] →
        ∀ c y', [' ', 'x'] = c :: y' → isdigit c = false) ∧
      no_element [⟨[], ['1'], 1⟩] [' ', 'x'] = true) ∧
    ∃ s a, (op_extract_v int_get 0 ⟨['1', ' ', 'x'], 0, false, false, false⟩
        (vector.zero : vector 2 Int)).result = Outcome.ok (s, a) ∧
      s.failbit = true ∧ s.good = false :=
  ⟨⟨by decide, fun _ _ _ h => by cases h; decide, by decide⟩,
    match (C23_failed_read_stream_state [] [⟨[], ['1'], 1⟩] [' ', 'x'] (by decide)
      (fun _ _ _ h => by cases h; decide) (by decide)).1 2 vector.zero (by decide) with
    | ⟨s, a, h, _, h2⟩ => ⟨s, a, h, h2 (Or.inr (List.cons_ne_nil _ _))⟩⟩

/-! ## Equality -/

/-- The comparison loop completes; it returns `true` exactly when the
elements from `i0` on are pairwise equal. -/
theorem eq_loop_spec {T : Type} [DecidableEq T] {n : Nat} (ra rb : Nat → Exec T)
    (fa fb : Fin n → T)
    (hra : ∀ (i : Nat) (h : i < n), (ra i).result = Outcome.ok (fa ⟨i, h⟩))
    (hrb : ∀ (i : Nat) (h : i < n), (rb i).result = Outcome.ok (fb ⟨i, h⟩)) :
    ∀ (k i0 : Nat), i0 + k = n →
      ∃ r, (eq_loop ra rb k i0).result = Outcome.ok r ∧
        (r = true ↔ ∀ x : Fin n, i0 ≤ x.val → fa x = fb x) := by
  intro k
  induction k with
  | zero =>
    intro i0 h
    exact ⟨true, rfl, fun _ => fun x hx => absurd x.isLt (by omega), fun _ => rfl⟩
  | succ k ih =>
    intro i0 h
    have hi : i0 < n := by omega
    obtain ⟨r, hr, hiff⟩ := ih (i0 + 1) (by omega)
    have hstep : (eq_loop ra rb (k + 1) i0).result
        = (if fa ⟨i0, hi⟩ ≠ fb ⟨i0, hi⟩ then (pure false : Exec Bool)
            else eq_loop ra rb k (i0 + 1)).result := by
      show (ra i0 >>= fun x => rb i0 >>= fun y =>
        if x ≠ y then pure false else eq_loop ra rb k (i0 + 1)).result = _
      rw [Exec.result_bind_ok _ (hra i0 hi), Exec.result_bind_ok _ (hrb i0 hi)]
    by_cases hne : fa ⟨i0, hi⟩ = fb ⟨i0, hi⟩
    · refine ⟨r, ?_, ?_⟩
      · rw [hstep, if_neg (not_not.mpr hne), hr]
      · rw [hiff]
        constructor
        · intro hall x hx
          rcases Nat.eq_or_lt_of_le hx with h0 | h0
          · have : x = ⟨i0, hi⟩ := Fin.ext h0.symm
            rw [this]
            exact hne
          · exact hall x h0
        · intro hall x hx
          exact hall x (by omega)
    · refine ⟨false, ?_, ?_⟩
      · rw [hstep, if_pos hne]
        rfl
      · constructor
        · intro hf
          exact Bool.noConfusion hf
        · intro hall
          exact absurd (hall ⟨i0, hi⟩ (Nat.le_refl _)) hne

/-- Vector equality completes; it is `true` exactly for equal lengths and
equal element sequences. -/
theorem op_eq_v_spec {N M : Nat} {T : Type} [DecidableEq T] (a : vector N T)
    (b : vector M T) :
    ∃ r, (op_eq_v a b).result = Outcome.ok r ∧
      (r = true ↔ N = M ∧ List.ofFn a.data = List.ofFn b.data) := by
  unfold op_eq_v
  by_cases h : M = N
  · subst h
    rw [if_neg (not_not.mpr rfl)]
    obtain ⟨r, hr, hiff⟩ := eq_loop_spec (fun i => a.op_subscript i)
      (fun i => b.op_subscript i) a.data b.data
      (fun i h => a.op_subscript_result ⟨i, h⟩) (fun i h => b.op_subscript_result ⟨i, h⟩)
      M 0 (Nat.zero_add M)
    refine ⟨r, hr, ?_⟩
    rw [hiff, List.ofFn_inj]
    constructor
    · intro hall
      exact ⟨rfl, funext fun x => hall x (Nat.zero_le _)⟩
    · intro hd x _
      rw [hd.2]
  · rw [if_pos h]
    refine ⟨false, rfl, ?_⟩
    constructor
    · intro hf
      exact Bool.noConfusion hf
    · intro hd
      exact absurd hd.1.symm h

/-- Matrix equality completes; it is `true` exactly for equal shapes and
equal element sequences. -/
theorem op_eq_m_spec {N M I J : Nat} {T : Type} [DecidableEq T] (a : matrix N M T)
    (b : matrix I J T) :
    ∃ r, (op_eq_m a b).result = Outcome.ok r ∧
      (r = true ↔ (N = I ∧ M = J) ∧ List.ofFn a.data = List.ofFn b.data) := by
  unfold op_eq_m
  by_cases h : N ≠ I ∨ M ≠ J
  · rw [if_pos h]
    refine ⟨false, rfl, ?_⟩
    constructor
    · intro hf
      exact Bool.noConfusion hf
    · intro hd
      rcases h with h | h
      · exact absurd hd.1.1 h
      · exact absurd hd.1.2 h
  · have hN : N = I := by
      by_contra hc
      exact h (Or.inl hc)
    have hM : M = J := by
      by_contra hc
      exact h (Or.inr hc)
    subst hN
    subst hM
    rw [if_neg h]
    obtain ⟨r, hr, hiff⟩ := eq_loop_spec (fun i => a.op_subscript i)
      (fun i => b.op_subscript i) a.data b.data
      (fun i h => a.mat_subscript_result ⟨i, h⟩) (fun i h => b.mat_subscript_result ⟨i, h⟩)
      (N * M) 0 (Nat.zero_add _)
    refine ⟨r, hr, ?_⟩
    rw [hiff, List.ofFn_inj]
    constructor
    · intro hall
      exact ⟨⟨rfl, rfl⟩, funext fun x => hall x (Nat.zero_le _)⟩
    · intro hd x _
      rw [hd.2]

theorem op_ne_of_eq {r : Bool} {x : Exec Bool} (h : x.result = Outcome.ok r) :
    (x >>= fun r => (pure (!r) : Exec Bool)).result = Outcome.ok (!r) := by
  rw [Exec.result_bind_ok _ h]
  rfl

theorem ofFn_eq_iff_subscript {K L : Nat} {T : Type} (da : Fin K → T) (db : Fin L → T)
    (hKL : K = L) :
    List.ofFn da = List.ofFn db ↔
      ∀ k, k < K → (raw_read da k).result = (raw_read db k).result := by
  subst hKL
  rw [List.ofFn_inj]
  constructor
  · intro h k _
    rw [h]
  · intro h
    funext x
    have := h x.val x.isLt
    rw [raw_read_result da x.val x.isLt, raw_read_result db x.val x.isLt] at this
    exact Outcome.ok.inj this

/-- C24. Equality is shape-aware.  `a == b` completes, and it holds exactly
when the shapes are identical and `a[k] == b[k]` for every linear index `k`;
`a != b` is its negation; a 2×3 and a 3×2 matrix are never equal. -/
theorem C24_equality_shape_aware {T : Type} [DecidableEq T] :
    (∀ (N M : Nat) (a : vector N T) (b : vector M T),
      ∃ r, (op_eq_v a b).result = Outcome.ok r ∧ (op_ne_v a b).result = Outcome.ok (!r) ∧
        (r = true ↔ N = M ∧
          ∀ k, k < N → (a.op_subscript k).result = (b.op_subscript k).result)) ∧
    (∀ (N M I J : Nat) (a : matrix N M T) (b : matrix I J T),
      ∃ r, (op_eq_m a b).result = Outcome.ok r ∧ (op_ne_m a b).result = Outcome.ok (!r) ∧
        (r = true ↔ (N = I ∧ M = J) ∧
          ∀ k, k < N * M → (a.op_subscript k).result = (b.op_subscript k).result)) ∧
    (∀ (a : matrix 2 3 T) (b : matrix 3 2 T), (op_eq_m a b).result = Outcome.ok false) := by
  refine ⟨?_, ?_, fun _ _ => rfl⟩
  · intro N M a b
    obtain ⟨r, hr, hiff⟩ := op_eq_v_spec a b
    refine ⟨r, hr, op_ne_of_eq hr, ?_⟩
    rw [hiff]
    constructor
    · rintro ⟨hNM, hd⟩
      exact ⟨hNM, (ofFn_eq_iff_subscript a.data b.data hNM).mp hd⟩
    · rintro ⟨hNM, hd⟩
      exact ⟨hNM, (ofFn_eq_iff_subscript a.data b.data hNM).mpr hd⟩
  · intro N M I J a b
    obtain ⟨r, hr, hiff⟩ := op_eq_m_spec a b
    refine ⟨r, hr, op_ne_of_eq hr, ?_⟩
    rw [hiff]
    constructor
    · rintro ⟨hs, hd⟩
      exact ⟨hs, (ofFn_eq_iff_subscript a.data b.data (by rw [hs.1, hs.2])).mp hd⟩
    · rintro ⟨hs, hd⟩
      exact ⟨hs, (ofFn_eq_iff_subscript a.data b.data (by rw [hs.1, hs.2])).mpr hd⟩

/-- C25. Equality of containers of possibly different shapes is reflexive,
symmetric and transitive, for vectors and for matrices. -/
theorem C25_equality_equivalence {T : Type} [DecidableEq T] :
    (∀ (N : Nat) (a : vector N T), (op_eq_v a a).result = Outcome.ok true) ∧
    (∀ (N M : Nat) (a : vector N T) (b : vector M T),
      (op_eq_v a b).result = Outcome.ok true → (op_eq_v b a).result = Outcome.ok true) ∧
    (∀ (N M K : Nat) (a : vector N T) (b : vector M T) (c : vector K T),
      (op_eq_v a b).result = Outcome.ok true → (op_eq_v b c).result = Outcome.ok true →
      (op_eq_v a c).result = Outcome.ok true) ∧
    (∀ (N M : Nat) (a : matrix N M T), (op_eq_m a a).result = Outcome.ok true) ∧
    (∀ (N M I J : Nat) (a : matrix N M T) (b : matrix I J T),
      (op_eq_m a b).result = Outcome.ok true → (op_eq_m b a).result = Outcome.ok true) ∧
    (∀ (N M I J K L : Nat) (a : matrix N M T) (b : matrix I J T) (c : matrix K L T),
      (op_eq_m a b).result = Outcome.ok true → (op_eq_m b c).result = Outcome.ok true →
      (op_eq_m a c).result = Outcome.ok true) := by
  have hv : ∀ {N M : Nat} (a : vector N T) (b : vector M T),
      (op_eq_v a b).result = Outcome.ok true ↔
        N = M ∧ List.ofFn a.data = List.ofFn b.data := by
    intro N M a b
    obtain ⟨r, hr, hiff⟩ := op_eq_v_spec a b
    rw [hr, ← hiff]
    exact ⟨fun h => Outcome.ok.inj h, fun h => by rw [h]⟩
  have hm : ∀ {N M I J : Nat} (a : matrix N M T) (b : matrix I J T),
      (op_eq_m a b).result = Outcome.ok true ↔
        (N = I ∧ M = J) ∧ List.ofFn a.data = List.ofFn b.data := by
    intro N M I J a b
    obtain ⟨r, hr, hiff⟩ := op_eq_m_spec a b
    rw [hr, ← hiff]
    exact ⟨fun h => Outcome.ok.inj h, fun h => by rw [h]⟩
  refine ⟨?_, ?_, ?_, ?_, ?_, ?_⟩
  · intro N a
    exact (hv a a).mpr ⟨rfl, rfl⟩
  · intro N M a b h
    obtain ⟨h1, h2⟩ := (hv a b).mp h
    exact (hv b a).mpr ⟨h1.symm, h2.symm⟩
  · intro N M K a b c hab hbc
    obtain ⟨h1, h2⟩ := (hv a b).mp hab
    obtain ⟨h3, h4⟩ := (hv b c).mp hbc
    exact (hv a c).mpr ⟨h1.trans h3, h2.trans h4⟩
  · intro N M a
    exact (hm a a).mpr ⟨⟨rfl, rfl⟩, rfl⟩
  · intro N M I J a b h
    obtain ⟨⟨h1, h1'⟩, h2⟩ := (hm a b).mp h
    exact (hm b a).mpr ⟨⟨h1.symm, h1'.symm⟩, h2.symm⟩
  · intro N M I J K L a b c hab hbc
    obtain ⟨⟨h1, h1'⟩, h2⟩ := (hm a b).mp hab
    obtain ⟨⟨h3, h3'⟩, h4⟩ := (hm b c).mp hbc
    exact (hm a c).mpr ⟨⟨h1.trans h3, h1'.trans h3'⟩, h2.trans h4⟩

/-- Witness for C25: vectors `(1, 2)` compared in both orders and in a chain. -/
theorem C25_equality_equivalence_witness :
    ((op_eq_v (vector.ofList [1, 2] : vector 2 Int)
        (vector.ofList [1, 2, 0] : vector 2 Int)).result = Outcome.ok true ∧
      (op_eq_v (vector.ofList [1, 2, 0] : vector 2 Int)
        (vector.ofList [1, 2] : vector 2 Int)).result = Outcome.ok true) ∧
    ((op_eq_v (vector.ofList [1, 2, 0] : vector 2 Int)
        (vector.ofList [1, 2, 5] : vector 2 Int)).result = Outcome.ok true ∧
      (op_eq_v (vector.ofList [1, 2] : vector 2 Int)
        (vector.ofList [1, 2, 5] : vector 2 Int)).result = Outcome.ok true) :=
  ⟨⟨rfl, C25_equality_equivalence.2.1 2 2 _ _ rfl⟩,
    ⟨rfl, C25_equality_equivalence.2.2.1 2 2 2 (vector.ofList [1, 2] : vector 2 Int)
      (vector.ofList [1, 2, 0] : vector 2 Int) _ rfl rfl⟩⟩

/-! ## Resizing -/

theorem idx_mod_div {N n m : Nat} (hn : n < N) :
    (n + m * N) % N = n ∧ (n + m * N) / N = m := by
  have hpos : 0 < N := by omega
  constructor
  · rw [Nat.add_mul_mod_self_right, Nat.mod_eq_of_lt hn]
  · rw [Nat.add_mul_div_right _ _ hpos, Nat.div_eq_of_lt hn, Nat.zero_add]

/-- Matrix resizing completes; cell `(i, j)` of the result is the cast of the
source cell `(i, j)` where the source has one, and the cast of 0 elsewhere. -/
theorem resize_cast_m_result (N M : Nat) {I J : Nat} {T U : Type} [Zero T] [Zero U]
    (cast : U → T) (a : matrix I J U)
    (hNM : N * M ≤ SIZE_MAX) (hIJ : I * J ≤ SIZE_MAX) :
    ∃ b, (resize_cast_m N M cast a).result = Outcome.ok b ∧
      ∀ (i : Fin N) (j : Fin M), b.cell i j
        = cast (if h : i.val < I ∧ j.val < J then a.cell ⟨i.val, h.1⟩ ⟨j.val, h.2⟩ else 0) := by
  obtain ⟨V, hV⟩ : ∃ V : Nat → Nat → T, ∀ n m, V n m
      = cast (if h : n < I ∧ m < J then a.cell ⟨n, h.1⟩ ⟨m, h.2⟩ else 0) := ⟨_, fun _ _ => rfl⟩
  -- the statement inside the inner loop
  have hstmt : ∀ m, m < M → ∀ n, n < N → ∀ b : matrix N M T,
      (do
        let x ← (if n < I ∧ m < J then a.op_call n m else pure 0)
        b.op_call_modify n m (fun _ => cast x)).result
      = Outcome.ok ⟨fun y => if y.val = n + m * N then V n m else b.data y⟩ := by
    intro m hm n hn b
    rw [hV]
    by_cases h : n < I ∧ m < J
    · rw [if_pos h, Exec.result_bind_ok _ (a.op_call_result ⟨n, h.1⟩ ⟨m, h.2⟩ hIJ), dif_pos h]
      exact b.op_call_modify_result n m _ hn hm hNM
    · rw [if_neg h, Exec.result_bind_ok _ (Exec.result_pure 0), dif_neg h]
      exact b.op_call_modify_result n m _ hn hm hNM
  -- the loop over n fills column m
  have hcol : ∀ m, m < M → ∀ b : matrix N M T,
      (∀ y : Fin (N * M), y.val < m * N → b.data y = V (y.val % N) (y.val / N)) →
      ∃ b', (forRange N (fun n b => do
          let x ← (if n < I ∧ m < J then a.op_call n m else pure 0)
          b.op_call_modify n m (fun _ => cast x)) b).result = Outcome.ok b' ∧
        ∀ y : Fin (N * M), y.val < (m + 1) * N → b'.data y = V (y.val % N) (y.val / N) := by
    intro m hm b hb
    obtain ⟨b', hb', hQ⟩ := forRange_inv
      (fun n' (b : matrix N M T) =>
        ∀ y : Fin (N * M), y.val < n' + m * N → b.data y = V (y.val % N) (y.val / N))
      N _ b (fun y hy => hb y (by omega))
      (fun n hn b hinv => ⟨_, hstmt m hm n hn b, fun y hy => by
        show (if y.val = n + m * N then V n m else b.data y) = _
        by_cases hyk : y.val = n + m * N
        · rw [if_pos hyk, hyk, (idx_mod_div hn).1, (idx_mod_div hn).2]
        · rw [if_neg hyk]
          exact hinv y (by omega)⟩)
    refine ⟨b', hb', fun y hy => hQ y ?_⟩
    rw [Nat.add_mul, Nat.one_mul] at hy
    omega
  -- the loop over m
  obtain ⟨b, hb, hP⟩ := forRange_inv
    (fun m' (b : matrix N M T) =>
      ∀ y : Fin (N * M), y.val < m' * N → b.data y = V (y.val % N) (y.val / N))
    M _ (matrix.zero : matrix N M T)
    (fun y hy => absurd hy (by omega))
    (fun m hm b hinv => hcol m hm b hinv)
  refine ⟨b, hb, fun i j => ?_⟩
  unfold matrix.cell
  rw [hP _ (by
    show i.val + j.val * N < M * N
    rw [Nat.mul_comm M N]
    exact idx_lt i.isLt j.isLt)]
  simp only [(idx_mod_div i.isLt).1, (idx_mod_div i.isLt).2]
  rw [hV]
  rfl

/-- C26. Matrix resize truncation.  `resize_cast<N2,M2,U>(a)` of an N×M matrix
completes; for every `i < N2`, `j < M2` the result's `b(i, j)` is the cast of
the source's `a(i, j)` when `i < N` and `j < M` (that is, `i < min(N, N2)` and
`j < min(M, M2)`), and 0 otherwise. -/
theorem C26_matrix_resize_truncation (N2 M2 : Nat) {N M : Nat} {T U : Type} [Zero T] [Zero U]
    (cast : U → T) (a : matrix N M U) (hcast : cast 0 = 0)
    (hN2M2 : N2 * M2 ≤ SIZE_MAX) (hNM : N * M ≤ SIZE_MAX) :
    (∀ (i : Fin N) (j : Fin M), (a.op_call i j).result = Outcome.ok (a.cell i j)) ∧
    ∃ b, (resize_cast_m N2 M2 cast a).result = Outcome.ok b ∧
      ∀ (i : Fin N2) (j : Fin M2),
        (∀ (hi : i.val < N) (hj : j.val < M),
          (b.op_call i j).result = Outcome.ok (cast (a.cell ⟨i.val, hi⟩ ⟨j.val, hj⟩))) ∧
        (¬ (i.val < N ∧ j.val < M) → (b.op_call i j).result = Outcome.ok 0) := by
  refine ⟨fun i j => a.op_call_result i j hNM, ?_⟩
  obtain ⟨b, hb, hcell⟩ := resize_cast_m_result N2 M2 cast a hN2M2 hNM
  refine ⟨b, hb, fun i j => ⟨fun hi hj => ?_, fun h => ?_⟩⟩
  · rw [b.op_call_result i j hN2M2, hcell, dif_pos ⟨hi, hj⟩]
  · rw [b.op_call_result i j hN2M2, hcell, dif_neg h, hcast]

/-- Witness for C26: the 3×4 matrix of the resize test, cut to 3×3 and
widened to 4×2. -/
theorem C26_matrix_resize_truncation_witness :
    ((id (0 : Int) = 0) ∧ 3 * 3 ≤ SIZE_MAX ∧ 4 * 2 ≤ SIZE_MAX ∧ 3 * 4 ≤ SIZE_MAX) ∧
    (∃ b, (resize_cast_m 3 3 id
        (matrix.ofList [1, 2, 3, 4, 5, 6, 7, 8, 9, 10, 11, 12] : matrix 3 4 Int)).result
        = Outcome.ok b ∧
      ∀ (i : Fin 3) (j : Fin 3),
        (∀ (hi : i.val < 3) (hj : j.val < 4), (b.op_call i j).result
          = Outcome.ok (id ((matrix.ofList [1, 2, 3, 4, 5, 6, 7, 8, 9, 10, 11, 12] :
              matrix 3 4 Int).cell ⟨i.val, hi⟩ ⟨j.val, hj⟩))) ∧
        (¬ (i.val < 3 ∧ j.val < 4) → (b.op_call i j).result = Outcome.ok 0)) ∧
    (∃ b, (resize_cast_m 4 2 id
        (matrix.ofList [1, 2, 3, 4, 5, 6, 7, 8, 9, 10, 11, 12] : matrix 3 4 Int)).result
        = Outcome.ok b ∧
      ∀ (i : Fin 4) (j : Fin 2),
        (∀ (hi : i.val < 3) (hj : j.val < 4), (b.op_call i j).result
          = Outcome.ok (id ((matrix.ofList [1, 2, 3, 4, 5, 6, 7, 8, 9, 10, 11, 12] :
              matrix 3 4 Int).cell ⟨i.val, hi⟩ ⟨j.val, hj⟩))) ∧
        (¬ (i.val < 3 ∧ j.val < 4) → (b.op_call i j).result = Outcome.ok 0)) :=
  ⟨⟨rfl, by decide, by decide, by decide⟩,
    (C26_matrix_resize_truncation 3 3 id _ rfl (by decide) (by decide)).2,
    (C26_matrix_resize_truncation 4 2 id _ rfl (by decide) (by decide)).2⟩

/-- C27. Resizing to the same shape and element type returns the container
itself, for matrices and for vectors. -/
theorem C27_resize_same_shape {N M : Nat} {T : Type} [Zero T] (a : matrix N M T)
    (v : vector N T) (hNM : N * M ≤ SIZE_MAX) :
    (resize_cast_m N M id a).result = Outcome.ok a ∧
    (resize_cast_v N id v).result = Outcome.ok v := by
  constructor
  · obtain ⟨b, hb, hcell⟩ := resize_cast_m_result N M id a hNM hNM
    rw [hb]
    congr 1
    apply matrix.ext_cell
    intro i j
    rw [hcell, dif_pos ⟨i.isLt, j.isLt⟩]
    rfl
  · rw [resize_cast_v_result]
    congr 1
    apply vector.ext
    funext x
    simp only [id, dif_pos x.isLt]

/-- Witness for C27: a 3×3 matrix and a 3-vector. -/
theorem C27_resize_same_shape_witness :
    (3 * 3 ≤ SIZE_MAX) ∧
    (resize_cast_m 3 3 id (matrix.ofList [0, 1, 2, 3, 4, 5, 6, 7, 8] : matrix 3 3 Int)).result
      = Outcome.ok (matrix.ofList [0, 1, 2, 3, 4, 5, 6, 7, 8]) ∧
    (resize_cast_v 3 id (vector.ofList [1, 2, 3] : vector 3 Int)).result
      = Outcome.ok (vector.ofList [1, 2, 3]) :=
  ⟨by decide, C27_resize_same_shape _ _ (by decide)⟩

/-- C28. Vector resize.  `resize_cast<N2,U>(v)` of an N-vector completes with
`b[i]` the cast of `v[i]` for `i < N` and `i < N2`, and `b[i] = 0` for
`N <= i < N2`; the result has `N2` elements, so source elements from `N2` on
are dropped. -/
theorem C28_vector_resize (N2 : Nat) {N : Nat} {T U : Type} [Zero T] [Zero U]
    (cast : U → T) (v : vector N U) (hcast : cast 0 = 0) :
    (∀ i : Fin N, (v.op_subscript i).result = Outcome.ok (v.data i)) ∧
    ∃ b, (resize_cast_v N2 cast v).result = Outcome.ok b ∧
      (∀ (i : Nat) (h : i < N), i < N2 →
        (b.op_subscript i).result = Outcome.ok (cast (v.data ⟨i, h⟩))) ∧
      (∀ (i : Nat), N ≤ i → i < N2 → (b.op_subscript i).result = Outcome.ok 0) := by
  refine ⟨fun i => v.op_subscript_result i, _, resize_cast_v_result N2 cast v, ?_, ?_⟩
  · intro i h1 h2
    rw [vector.op_subscript_result _ ⟨i, h2⟩]
    simp only [dif_pos h1]
  · intro i h1 h2
    rw [vector.op_subscript_result _ ⟨i, h2⟩]
    simp only [dif_neg (Nat.not_lt.mpr h1), hcast]

/-- Witness for C28: `(1, 2, 3)` cut to length 2 and widened to length 5. -/
theorem C28_vector_resize_witness :
    (id (0 : Int) = 0) ∧
    (∃ b, (resize_cast_v 2 id (vector.ofList [1, 2, 3] : vector 3 Int)).result
        = Outcome.ok b ∧
      (∀ (i : Nat) (h : i < 3), i < 2 → (b.op_subscript i).result
        = Outcome.ok (id ((vector.ofList [1, 2, 3] : vector 3 Int).data ⟨i, h⟩))) ∧
      (∀ (i : Nat), 3 ≤ i → i < 2 → (b.op_subscript i).result = Outcome.ok 0)) ∧
    (∃ b, (resize_cast_v 5 id (vector.ofList [1, 2, 3] : vector 3 Int)).result
        = Outcome.ok b ∧
      (∀ (i : Nat) (h : i < 3), i < 5 → (b.op_subscript i).result
        = Outcome.ok (id ((vector.ofList [1, 2, 3] : vector 3 Int).data ⟨i, h⟩))) ∧
      (∀ (i : Nat), 3 ≤ i → i < 5 → (b.op_subscript i).result = Outcome.ok 0)) :=
  ⟨rfl, (C28_vector_resize 2 id _ rfl).2, (C28_vector_resize 5 id _ rfl).2⟩

/-! ## Element-wise operators -/

/-- The loop of the scalar compound assignments with a scalar that is not an
element of the container: the elements `i .. i + k - 1` are combined with it. -/
theorem scalar_loop_outside_run {n : Nat} {T : Type} (op : T → T → T) (s : T) :
    ∀ (k i : Nat) (d : Fin n → T) (x : Fin n),
      scalar_loop op (ScalarRef.outside s) k i d x
        = if i ≤ x.val ∧ x.val < i + k then op (d x) s else d x := by
  intro k
  induction k with
  | zero =>
    intro i d x
    rw [if_neg (by omega)]
    rfl
  | succ k ih =>
    intro i d x
    simp only [scalar_loop, ScalarRef.read]
    rw [ih (i + 1)]
    by_cases hx : x.val = i
    · rw [if_neg (by omega), if_pos hx, if_pos (by omega)]
    · rw [if_neg hx]
      by_cases h : i + 1 ≤ x.val ∧ x.val < i + 1 + k
      · rw [if_pos h, if_pos (by omega)]
      · rw [if_neg h, if_neg (by omega)]

/-- The whole loop with a scalar that is not an element of the container
broadcasts it. -/
theorem scalar_loop_outside {n : Nat} {T : Type} (op : T → T → T) (s : T) (d : Fin n → T) :
    scalar_loop op (ScalarRef.outside s) n 0 d = fun x => op (d x) s := by
  funext x
  rw [scalar_loop_outside_run op s n 0 d x, if_pos ⟨Nat.zero_le _, by have := x.isLt; omega⟩]

/-- Matrix negation completes, whatever the initial contents of its local
result, and negates every element. -/
theorem matrix.mat_neg_result {N M : Nat} {T : Type} [Neg T] (a b0 : matrix N M T) :
    (a.op_neg b0).result = Outcome.ok ⟨fun x => - a.data x⟩ := by
  obtain ⟨b, hb, hP⟩ := forRange_inv
    (fun k (b : matrix N M T) => ∀ x : Fin (N * M), x.val < k → b.data x = - a.data x)
    (N * M) (fun i b => do
      let x ← a.op_subscript i
      b.op_subscript_modify i (fun _ => -x)) b0
    (fun x hx => absurd hx (Nat.not_lt_zero _))
    (fun k hk b hinv => ⟨⟨fun x => if x.val = k then - a.data ⟨k, hk⟩ else b.data x⟩, by
        rw [Exec.result_bind_ok _ (a.mat_subscript_result ⟨k, hk⟩)]
        exact b.mat_subscript_modify_result k _ hk, fun x hx => by
        show (if x.val = k then - a.data ⟨k, hk⟩ else b.data x) = - a.data x
        by_cases hxk : x.val = k
        · rw [if_pos hxk]
          congr 2
          exact Fin.ext hxk.symm
        · rw [if_neg hxk]
          exact hinv x (by omega)⟩)
  unfold matrix.op_neg
  rw [hb]
  congr 1
  apply matrix.ext
  funext x
  exact hP x x.isLt

/-- C29. Scalar-on-left subtraction.  `s - a` completes, whatever the
uninitialised local of the negation held, and its element `k` is `s - a[k]`
(the cast scalar minus the element), for vectors and for matrices.  The
operand is the function's own copy: no state of the caller's container is
produced. -/
theorem C29_scalar_minus_container {T U : Type} [AddCommGroup T] (cast : U → T) (s : U) :
    (∀ (N : Nat) (a b0 : vector N T),
      ∃ c, (op_sub_sv cast s a b0).result = Outcome.ok c ∧
        ∀ k : Fin N, (a.op_subscript k).result = Outcome.ok (a.data k) ∧
          (c.op_subscript k).result = Outcome.ok (cast s - a.data k)) ∧
    (∀ (N M : Nat) (a b0 : matrix N M T),
      ∃ c, (op_sub_sm cast s a b0).result = Outcome.ok c ∧
        ∀ k : Fin (N * M), (a.op_subscript k).result = Outcome.ok (a.data k) ∧
          (c.op_subscript k).result = Outcome.ok (cast s - a.data k)) := by
  constructor
  · intro N a b0
    refine ⟨⟨fun k => - a.data k + cast s⟩, ?_, fun k => ⟨a.op_subscript_result k, ?_⟩⟩
    · unfold op_sub_sv
      rw [Exec.result_bind_ok _ (a.op_neg_result b0)]
      exact congrArg Outcome.ok (vector.ext (scalar_loop_outside _ _ _))
    · rw [vector.op_subscript_result _ k]
      congr 1
      show - a.data k + cast s = cast s - a.data k
      rw [neg_add_eq_sub]
  · intro N M a b0
    refine ⟨⟨fun k => - a.data k + cast s⟩, ?_, fun k => ⟨a.mat_subscript_result k, ?_⟩⟩
    · unfold op_sub_sm
      rw [Exec.result_bind_ok _ (a.mat_neg_result b0)]
      exact congrArg Outcome.ok (matrix.ext (scalar_loop_outside _ _ _))
    · rw [matrix.mat_subscript_result _ k]
      congr 1
      show - a.data k + cast s = cast s - a.data k
      rw [neg_add_eq_sub]

/-- C30. Container compound assignment.  After `a op= b` element `k` of `a` is
`old_a[k] op b[k]`, the destination being the left operand, for `+`, `-`, `*`
and (with non-zero divisors) `/`, on vectors and on matrices; the returned
reference denotes the changed `a`.  `b` is a constant reference: no new state
of it is produced. -/
theorem C30_compound_assignment {T : Type} [Add T] [Sub T] [Mul T] [Div T] [Zero T] :
    (∀ (N : Nat) (a b : vector N T),
      (∀ k, (a.op_add_assign b).target.data k = a.data k + b.data k) ∧
      (∀ k, (a.op_sub_assign b).target.data k = a.data k - b.data k) ∧
      (∀ k, (a.op_mul_assign b).target.data k = a.data k * b.data k) ∧
      ((∀ k, b.data k ≠ 0) → ∀ k, (a.op_div_assign b).target.data k = a.data k / b.data k) ∧
      (a.op_add_assign b).returned = (a.op_add_assign b).target ∧
      (a.op_sub_assign b).returned = (a.op_sub_assign b).target ∧
      (a.op_mul_assign b).returned = (a.op_mul_assign b).target ∧
      (a.op_div_assign b).returned = (a.op_div_assign b).target) ∧
    (∀ (N M : Nat) (a b : matrix N M T),
      (∀ k, (a.op_add_assign b).target.data k = a.data k + b.data k) ∧
      (∀ k, (a.op_sub_assign b).target.data k = a.data k - b.data k) ∧
      (∀ k, (a.op_mul_assign b).target.data k = a.data k * b.data k) ∧
      ((∀ k, b.data k ≠ 0) → ∀ k, (a.op_div_assign b).target.data k = a.data k / b.data k) ∧
      (a.op_add_assign b).returned = (a.op_add_assign b).target ∧
      (a.op_sub_assign b).returned = (a.op_sub_assign b).target ∧
      (a.op_mul_assign b).returned = (a.op_mul_assign b).target ∧
      (a.op_div_assign b).returned = (a.op_div_assign b).target) :=
  ⟨fun _ _ _ => ⟨fun _ => rfl, fun _ => rfl, fun _ => rfl, fun _ _ => rfl, rfl, rfl, rfl, rfl⟩,
    fun _ _ _ _ =>
      ⟨fun _ => rfl, fun _ => rfl, fun _ => rfl, fun _ _ => rfl, rfl, rfl, rfl, rfl⟩⟩

/-- Witness for C30: `(6, 8) /= (2, 4)` on `int` vectors. -/
theorem C30_compound_assignment_witness :
    (∀ k, (vector.ofList [2, 4] : vector 2 Int).data k ≠ 0) ∧
    ∀ k, ((vector.ofList [6, 8] : vector 2 Int).op_div_assign
        (vector.ofList [2, 4] : vector 2 Int)).target.data k
      = (vector.ofList [6, 8] : vector 2 Int).data k
        / (vector.ofList [2, 4] : vector 2 Int).data k :=
  ⟨by decide, (C30_compound_assignment.1 2 _ _).2.2.2.1 (by decide)⟩

/-! ## Element-wise operators -/

theorem op_eq_v_of_eq {N : Nat} {T : Type} [DecidableEq T] (a b : vector N T) (h : a = b) :
    (op_eq_v a b).result = Outcome.ok true := by
  obtain ⟨r, hr, hiff⟩ := op_eq_v_spec a b
  rw [hr, hiff.mpr ⟨rfl, by rw [h]⟩]

theorem op_eq_m_of_eq {N M : Nat} {T : Type} [DecidableEq T] (a b : matrix N M T)
    (h : a = b) : (op_eq_m a b).result = Outcome.ok true := by
  obtain ⟨r, hr, hiff⟩ := op_eq_m_spec a b
  rw [hr, hiff.mpr ⟨⟨rfl, rfl⟩, by rw [h]⟩]

/-- C31, evaluated where the code departs from it.  The scalar is taken by
reference and read anew at every iteration.  In `c /= c[0]` on the vector
`(2, 4, 6)` of `int` the scalar is `s = 2`, not zero; the first iteration
stores `2 / 2 = 1` in `c[0]`, the later ones divide by 1, and `c` ends as
`(1, 4, 6)`: element 1 is 4, not `old_c[1] / s = 2`.  Likewise `c += c[0]`
ends as `(4, 8, 10)`, not `(4, 6, 8)`. -/
theorem C31_aliased_scalar_not_broadcast :
    (vector.ofList [2, 4, 6] : vector 3 Int).data 0 = 2 ∧
    List.ofFn ((vector.ofList [2, 4, 6] : vector 3 Int).op_div_assign_scalar
      (ScalarRef.element 0)).target.data = [1, 4, 6] ∧
    ((vector.ofList [2, 4, 6] : vector 3 Int).op_div_assign_scalar
        (ScalarRef.element 0)).target.data 1
      ≠ (vector.ofList [2, 4, 6] : vector 3 Int).data 1 / 2 ∧
    List.ofFn ((vector.ofList [2, 4, 6] : vector 3 Int).op_add_assign_scalar
      (ScalarRef.element 0)).target.data = [4, 8, 10] :=
  ⟨rfl, by decide, by decide, by decide⟩

/-- C31, amended.  Scalar compound assignment broadcasts a scalar that is not
an element of the container itself.  After `c op= s` with such an `s`,
element `k` of `c` is `old_c[k] op s`, for `+`, `-`, `*` and (with a non-zero
scalar) `/`, on vectors and on matrices; the returned reference denotes the
changed `c`, whatever the scalar refers to. -/
theorem C31_scalar_compound_assignment {T : Type} [Add T] [Sub T] [Mul T] [Div T] [Zero T] :
    (∀ (N : Nat) (c : vector N T) (s : T),
      (∀ k, (c.op_add_assign_scalar (ScalarRef.outside s)).target.data k = c.data k + s) ∧
      (∀ k, (c.op_sub_assign_scalar (ScalarRef.outside s)).target.data k = c.data k - s) ∧
      (∀ k, (c.op_mul_assign_scalar (ScalarRef.outside s)).target.data k = c.data k * s) ∧
      (s ≠ 0 →
        ∀ k, (c.op_div_assign_scalar (ScalarRef.outside s)).target.data k = c.data k / s)) ∧
    (∀ (N M : Nat) (c : matrix N M T) (s : T),
      (∀ k, (c.op_add_assign_scalar (ScalarRef.outside s)).target.data k = c.data k + s) ∧
      (∀ k, (c.op_sub_assign_scalar (ScalarRef.outside s)).target.data k = c.data k - s) ∧
      (∀ k, (c.op_mul_assign_scalar (ScalarRef.outside s)).target.data k = c.data k * s) ∧
      (s ≠ 0 →
        ∀ k, (c.op_div_assign_scalar (ScalarRef.outside s)).target.data k = c.data k / s)) ∧
    (∀ (N : Nat) (c : vector N T) (a : ScalarRef N T),
      (c.op_add_assign_scalar a).returned = (c.op_add_assign_scalar a).target ∧
      (c.op_sub_assign_scalar a).returned = (c.op_sub_assign_scalar a).target ∧
      (c.op_mul_assign_scalar a).returned = (c.op_mul_assign_scalar a).target ∧
      (c.op_div_assign_scalar a).returned = (c.op_div_assign_scalar a).target) ∧
    (∀ (N M : Nat) (c : matrix N M T) (a : ScalarRef (N * M) T),
      (c.op_add_assign_scalar a).returned = (c.op_add_assign_scalar a).target ∧
      (c.op_sub_assign_scalar a).returned = (c.op_sub_assign_scalar a).target ∧
      (c.op_mul_assign_scalar a).returned = (c.op_mul_assign_scalar a).target ∧
      (c.op_div_assign_scalar a).returned = (c.op_div_assign_scalar a).target) := by
  refine ⟨fun N c s => ⟨fun k => ?_, fun k => ?_, fun k => ?_, fun _ k => ?_⟩,
    fun N M c s => ⟨fun k => ?_, fun k => ?_, fun k => ?_, fun _ k => ?_⟩,
    fun _ _ _ => ⟨rfl, rfl, rfl, rfl⟩, fun _ _ _ _ => ⟨rfl, rfl, rfl, rfl⟩⟩
  · exact congrFun (scalar_loop_outside (fun v s => v + s) s c.data) k
  · exact congrFun (scalar_loop_outside (fun v s => v - s) s c.data) k
  · exact congrFun (scalar_loop_outside (fun v s => v * s) s c.data) k
  · exact congrFun (scalar_loop_outside (fun v s => v / s) s c.data) k
  · exact congrFun (scalar_loop_outside (fun v s => v + s) s c.data) k
  · exact congrFun (scalar_loop_outside (fun v s => v - s) s c.data) k
  · exact congrFun (scalar_loop_outside (fun v s => v * s) s c.data) k
  · exact congrFun (scalar_loop_outside (fun v s => v / s) s c.data) k

/-- Witness for the amended C31: `(4, 4) /= 2` of the compound assignment
test, the scalar being a temporary. -/
theorem C31_scalar_compound_assignment_witness :
    ((2 : Int) ≠ 0) ∧
    ∀ k, ((vector.ofList [4, 4] : vector 2 Int).op_div_assign_scalar
        (ScalarRef.outside 2)).target.data k
      = (vector.ofList [4, 4] : vector 2 Int).data k / 2 :=
  ⟨by decide, (C31_scalar_compound_assignment.1 2 _ 2).2.2.2 (by decide)⟩

/-- C32. Every binary operator is element-wise.  For same-shape containers
`a`, `b` and a scalar `s` (cast to the element type), element `k` of `a op b`
is `a[k] op b[k]` and element `k` of `a op s` is `a[k] op s` for `+`, `-`, `*`
and (with a non-zero divisor) `/`; element `k` of `s op a` is `s op a[k]` for
`+` and `*`; and `s + a == a + s`, `s * a == a * s`.  The operators work on
their own copy of the container operand: no new state of an operand is
produced. -/
theorem C32_binary_operators_elementwise {T U : Type} [CommRing T] [Div T] [DecidableEq T]
    (cast : U → T) :
    (∀ (N : Nat) (a b : vector N T) (s : U) (k : Fin N),
      ((op_add_vv a b).data k = a.data k + b.data k ∧
        (op_sub_vv a b).data k = a.data k - b.data k ∧
        (op_mul_vv a b).data k = a.data k * b.data k ∧
        (b.data k ≠ 0 → (op_div_vv a b).data k = a.data k / b.data k)) ∧
      ((op_add_vs cast a s).data k = a.data k + cast s ∧
        (op_sub_vs cast a s).data k = a.data k - cast s ∧
        (op_mul_vs cast a s).data k = a.data k * cast s ∧
        (cast s ≠ 0 → (op_div_vs cast a s).data k = a.data k / cast s)) ∧
      ((op_add_sv cast s a).data k = cast s + a.data k ∧
        (op_mul_sv cast s a).data k = cast s * a.data k) ∧
      (op_eq_v (op_add_sv cast s a) (op_add_vs cast a s)).result = Outcome.ok true ∧
      (op_eq_v (op_mul_sv cast s a) (op_mul_vs cast a s)).result = Outcome.ok true) ∧
    (∀ (N M : Nat) (a b : matrix N M T) (s : U) (k : Fin (N * M)),
      ((op_add_mm a b).data k = a.data k + b.data k ∧
        (op_sub_mm a b).data k = a.data k - b.data k ∧
        (op_mul_mm a b).data k = a.data k * b.data k ∧
        (b.data k ≠ 0 → (op_div_mm a b).data k = a.data k / b.data k)) ∧
      ((op_add_ms cast a s).data k = a.data k + cast s ∧
        (op_sub_ms cast a s).data k = a.data k - cast s ∧
        (op_mul_ms cast a s).data k = a.data k * cast s ∧
        (cast s ≠ 0 → (op_div_ms cast a s).data k = a.data k / cast s)) ∧
      ((op_add_sm cast s a).data k = cast s + a.data k ∧
        (op_mul_sm cast s a).data k = cast s * a.data k) ∧
      (op_eq_m (op_add_sm cast s a) (op_add_ms cast a s)).result = Outcome.ok true ∧
      (op_eq_m (op_mul_sm cast s a) (op_mul_ms cast a s)).result = Outcome.ok true) := by
  constructor
  · intro N a b s k
    have hadd := congrFun (scalar_loop_outside (fun v s => v + s) (cast s) a.data) k
    have hsub := congrFun (scalar_loop_outside (fun v s => v - s) (cast s) a.data) k
    have hmul := congrFun (scalar_loop_outside (fun v s => v * s) (cast s) a.data) k
    have hdiv := congrFun (scalar_loop_outside (fun v s => v / s) (cast s) a.data) k
    exact ⟨⟨rfl, rfl, rfl, fun _ => rfl⟩, ⟨hadd, hsub, hmul, fun _ => hdiv⟩,
      ⟨hadd.trans (add_comm (a.data k) (cast s)), hmul.trans (mul_comm (a.data k) (cast s))⟩,
      op_eq_v_of_eq _ _ rfl, op_eq_v_of_eq _ _ rfl⟩
  · intro N M a b s k
    have hadd := congrFun (scalar_loop_outside (fun v s => v + s) (cast s) a.data) k
    have hsub := congrFun (scalar_loop_outside (fun v s => v - s) (cast s) a.data) k
    have hmul := congrFun (scalar_loop_outside (fun v s => v * s) (cast s) a.data) k
    have hdiv := congrFun (scalar_loop_outside (fun v s => v / s) (cast s) a.data) k
    exact ⟨⟨rfl, rfl, rfl, fun _ => rfl⟩, ⟨hadd, hsub, hmul, fun _ => hdiv⟩,
      ⟨hadd.trans (add_comm (a.data k) (cast s)), hmul.trans (mul_comm (a.data k) (cast s))⟩,
      op_eq_m_of_eq _ _ rfl, op_eq_m_of_eq _ _ rfl⟩

/-- Witness for C32: `(6, 8) / (2, 4)` and `(6, 8) / 2` at element 1. -/
theorem C32_binary_operators_elementwise_witness :
    ((vector.ofList [2, 4] : vector 2 Int).data 1 ≠ 0 ∧ (id (2 : Int)) ≠ 0) ∧
    (op_div_vv (vector.ofList [6, 8] : vector 2 Int) (vector.ofList [2, 4])).data 1
      = (vector.ofList [6, 8] : vector 2 Int).data 1
        / (vector.ofList [2, 4] : vector 2 Int).data 1 ∧
    (op_div_vs id (vector.ofList [6, 8] : vector 2 Int) (2 : Int)).data 1
      = (vector.ofList [6, 8] : vector 2 Int).data 1 / id (2 : Int) :=
  ⟨⟨by decide, by decide⟩,
    ((C32_binary_operators_elementwise (id : Int → Int)).1 2 (vector.ofList [6, 8])
      (vector.ofList [2, 4]) 2 1).1.2.2.2 (by decide),
    ((C32_binary_operators_elementwise (id : Int → Int)).1 2 (vector.ofList [6, 8])
      (vector.ofList [2, 4]) 2 1).2.1.2.2.2 (by decide)⟩

/-- C33. Unary negation.  `-a` completes, whatever the uninitialised local
`b` held, with a container of the same shape in which every element `k` is
defined and equal to `-a[k]`, for vectors and for matrices.  The operator
only reads `a`: no new state of it is produced. -/
theorem C33_unary_negation {T : Type} [Neg T] :
    (∀ (N : Nat) (a b0 : vector N T),
      ∃ b, (a.op_neg b0).result = Outcome.ok b ∧
        ∀ k : Fin N, (b.op_subscript k).result = Outcome.ok (- a.data k) ∧
          (a.op_subscript k).result = Outcome.ok (a.data k)) ∧
    (∀ (N M : Nat) (a b0 : matrix N M T),
      ∃ b, (a.op_neg b0).result = Outcome.ok b ∧
        ∀ k : Fin (N * M), (b.op_subscript k).result = Outcome.ok (- a.data k) ∧
          (a.op_subscript k).result = Outcome.ok (a.data k)) := by
  constructor
  · intro N a b0
    refine ⟨_, a.op_neg_result b0, fun k => ⟨?_, a.op_subscript_result k⟩⟩
    exact vector.op_subscript_result ⟨fun x => - a.data x⟩ k
  · intro N M a b0
    refine ⟨_, a.mat_neg_result b0, fun k => ⟨?_, a.mat_subscript_result k⟩⟩
    exact matrix.mat_subscript_result ⟨fun x => - a.data x⟩ k

/-- C34. Scalar broadcast assignment.  After `c = s` every element of `c` is
`s`, whatever `c` held before, for vectors and for matrices. -/
theorem C34_scalar_broadcast_assignment {T : Type} (s : T) :
    (∀ (N : Nat) (c : vector N T) (k : Fin N),
      (c.op_assign_scalar s).data k = s ∧
      ((c.op_assign_scalar s).op_subscript k).result = Outcome.ok s) ∧
    (∀ (N M : Nat) (c : matrix N M T) (k : Fin (N * M)),
      (c.op_assign_scalar s).data k = s ∧
      ((c.op_assign_scalar s).op_subscript k).result = Outcome.ok s) :=
  ⟨fun _ c k => ⟨rfl, (c.op_assign_scalar s).op_subscript_result k⟩,
    fun _ _ c k => ⟨rfl, (c.op_assign_scalar s).mat_subscript_result k⟩⟩

/-! ## Algebraic laws of the element-wise operators -/

/-- C35. Element-wise addition of same-shape containers over an exact element
type is commutative and associative: `a + b == b + a` and
`(a + b) + c == a + (b + c)`, for vectors and for matrices. -/
theorem C35_addition_commutative_associative {T : Type} [AddCommSemigroup T]
    [DecidableEq T] :
    (∀ (N : Nat) (a b c : vector N T),
      op_add_vv a b = op_add_vv b a ∧
      (op_eq_v (op_add_vv a b) (op_add_vv b a)).result = Outcome.ok true ∧
      op_add_vv (op_add_vv a b) c = op_add_vv a (op_add_vv b c) ∧
      (op_eq_v (op_add_vv (op_add_vv a b) c) (op_add_vv a (op_add_vv b c))).result
        = Outcome.ok true) ∧
    (∀ (N M : Nat) (a b c : matrix N M T),
      op_add_mm a b = op_add_mm b a ∧
      (op_eq_m (op_add_mm a b) (op_add_mm b a)).result = Outcome.ok true ∧
      op_add_mm (op_add_mm a b) c = op_add_mm a (op_add_mm b c) ∧
      (op_eq_m (op_add_mm (op_add_mm a b) c) (op_add_mm a (op_add_mm b c))).result
        = Outcome.ok true) := by
  constructor
  · intro N a b c
    have hc : op_add_vv a b = op_add_vv b a :=
      vector.ext (funext fun k => add_comm (a.data k) (b.data k))
    have ha : op_add_vv (op_add_vv a b) c = op_add_vv a (op_add_vv b c) :=
      vector.ext (funext fun k => add_assoc (a.data k) (b.data k) (c.data k))
    exact ⟨hc, op_eq_v_of_eq _ _ hc, ha, op_eq_v_of_eq _ _ ha⟩
  · intro N M a b c
    have hc : op_add_mm a b = op_add_mm b a :=
      matrix.ext (funext fun k => add_comm (a.data k) (b.data k))
    have ha : op_add_mm (op_add_mm a b) c = op_add_mm a (op_add_mm b c) :=
      matrix.ext (funext fun k => add_assoc (a.data k) (b.data k) (c.data k))
    exact ⟨hc, op_eq_m_of_eq _ _ hc, ha, op_eq_m_of_eq _ _ ha⟩

/-- C36. Identity and cancellation.  Over an exact element type (a ring),
`a - a` equals the default-constructed (all-zero) container of the same
shape, `a * 1 == a` and `a + 0 == a`, where the scalars are the `int`
literals 1 and 0 cast to the element type; for vectors and for matrices. -/
theorem C36_identity_and_cancellation {T : Type} [Ring T] [DecidableEq T] :
    (∀ (N : Nat) (a : vector N T),
      (op_sub_vv a a = vector.zero ∧
        (op_eq_v (op_sub_vv a a) (vector.zero : vector N T)).result = Outcome.ok true) ∧
      (op_mul_vs (fun (n : Int) => (n : T)) a 1 = a ∧
        (op_eq_v (op_mul_vs (fun (n : Int) => (n : T)) a 1) a).result = Outcome.ok true) ∧
      (op_add_vs (fun (n : Int) => (n : T)) a 0 = a ∧
        (op_eq_v (op_add_vs (fun (n : Int) => (n : T)) a 0) a).result = Outcome.ok true)) ∧
    (∀ (N M : Nat) (a : matrix N M T),
      (op_sub_mm a a = matrix.zero ∧
        (op_eq_m (op_sub_mm a a) (matrix.zero : matrix N M T)).result = Outcome.ok true) ∧
      (op_mul_ms (fun (n : Int) => (n : T)) a 1 = a ∧
        (op_eq_m (op_mul_ms (fun (n : Int) => (n : T)) a 1) a).result = Outcome.ok true) ∧
      (op_add_ms (fun (n : Int) => (n : T)) a 0 = a ∧
        (op_eq_m (op_add_ms (fun (n : Int) => (n : T)) a 0) a).result = Outcome.ok true)) := by
  constructor
  · intro N a
    have h1 : op_sub_vv a a = vector.zero :=
      vector.ext (funext fun k => sub_self (a.data k))
    have h2 : op_mul_vs (fun (n : Int) => (n : T)) a 1 = a :=
      vector.ext (funext fun k => by
        refine (congrFun (scalar_loop_outside (fun v s => v * s) ((1 : Int) : T) a.data) k).trans ?_
        show a.data k * ((1 : Int) : T) = a.data k
        rw [Int.cast_one, mul_one])
    have h3 : op_add_vs (fun (n : Int) => (n : T)) a 0 = a :=
      vector.ext (funext fun k => by
        refine (congrFun (scalar_loop_outside (fun v s => v + s) ((0 : Int) : T) a.data) k).trans ?_
        show a.data k + ((0 : Int) : T) = a.data k
        rw [Int.cast_zero, add_zero])
    exact ⟨⟨h1, op_eq_v_of_eq _ _ h1⟩, ⟨h2, op_eq_v_of_eq _ _ h2⟩, ⟨h3, op_eq_v_of_eq _ _ h3⟩⟩
  · intro N M a
    have h1 : op_sub_mm a a = matrix.zero :=
      matrix.ext (funext fun k => sub_self (a.data k))
    have h2 : op_mul_ms (fun (n : Int) => (n : T)) a 1 = a :=
      matrix.ext (funext fun k => by
        refine (congrFun (scalar_loop_outside (fun v s => v * s) ((1 : Int) : T) a.data) k).trans ?_
        show a.data k * ((1 : Int) : T) = a.data k
        rw [Int.cast_one, mul_one])
    have h3 : op_add_ms (fun (n : Int) => (n : T)) a 0 = a :=
      matrix.ext (funext fun k => by
        refine (congrFun (scalar_loop_outside (fun v s => v + s) ((0 : Int) : T) a.data) k).trans ?_
        show a.data k + ((0 : Int) : T) = a.data k
        rw [Int.cast_zero, add_zero])
    exact ⟨⟨h1, op_eq_m_of_eq _ _ h1⟩, ⟨h2, op_eq_m_of_eq _ _ h2⟩, ⟨h3, op_eq_m_of_eq _ _ h3⟩⟩

/-! ## The pair accessor and the linear index -/

/-- C37. The pair accessor depends only on the combined linear index.  For a
matrix of representable shape and every pair `(i, j)` whose linear index
`i + j * N` is below `N * M`, in particular with `i >= N`, `a(i, j)` does not
fail and returns `a[i + j * N]`, the element of the in-range cell
`((i + j * N) mod N, (i + j * N) div N)`; and two pairs with the same
`i + j * N` are the same access. -/
theorem C37_pair_access_linear_only {N M : Nat} {T : Type} (a : matrix N M T)
    (i j : Nat) (hsz : N * M ≤ SIZE_MAX) (hk : i + j * N < N * M) :
    (a.op_call i j).result = (a.op_subscript (i + j * N)).result ∧
    (a.op_call i j).result = Outcome.ok (a.data ⟨i + j * N, hk⟩) ∧
    (a.op_call i j).result ≠ Outcome.out_of_range ∧
    (∃ (hr : (i + j * N) % N < N) (hc : (i + j * N) / N < M),
      (a.op_call i j).result
        = Outcome.ok (a.cell ⟨(i + j * N) % N, hr⟩ ⟨(i + j * N) / N, hc⟩)) ∧
    (∀ i2 j2 : Nat, i2 + j2 * N = i + j * N → a.op_call i2 j2 = a.op_call i j) := by
  have hmod : (i + j * N) % (SIZE_MAX + 1) = i + j * N := Nat.mod_eq_of_lt (by omega)
  have hNpos : 0 < N := by
    rcases Nat.eq_zero_or_pos N with h | h
    · rw [h, Nat.zero_mul] at hk
      omega
    · exact h
  have hcall : a.op_call i j = a.op_subscript (i + j * N) := by
    show a.op_subscript ((i + j * N) % (SIZE_MAX + 1)) = _
    rw [hmod]
  have hres : (a.op_call i j).result = Outcome.ok (a.data ⟨i + j * N, hk⟩) := by
    rw [hcall]
    exact a.mat_subscript_result ⟨i + j * N, hk⟩
  refine ⟨by rw [hcall], hres, ?_, ⟨Nat.mod_lt _ hNpos, Nat.div_lt_of_lt_mul hk, ?_⟩, ?_⟩
  · rw [hres]
    exact fun h => Outcome.noConfusion h
  · rw [hres]
    unfold matrix.cell
    congr 3
    rw [Nat.mul_comm ((i + j * N) / N) N]
    exact (Nat.mod_add_div (i + j * N) N).symm
  · intro i2 j2 h
    show a.op_subscript ((i2 + j2 * N) % (SIZE_MAX + 1))
      = a.op_subscript ((i + j * N) % (SIZE_MAX + 1))
    rw [h]

/-- Witness for C37: on the 3×4 matrix holding 0..11 the pair (5, 2), beyond
the row extent, has linear index 11 and reads the cell (2, 3). -/
theorem C37_pair_access_linear_only_witness :
    (3 * 4 ≤ SIZE_MAX ∧ 5 + 2 * 3 < 3 * 4) ∧
    ((matrix.ofList (List.range 12) : matrix 3 4 Nat).op_call 5 2).result
      = ((matrix.ofList (List.range 12) : matrix 3 4 Nat).op_subscript (5 + 2 * 3)).result ∧
    ((matrix.ofList (List.range 12) : matrix 3 4 Nat).op_call 5 2).result
      ≠ Outcome.out_of_range ∧
    (∀ i2 j2 : Nat, i2 + j2 * 3 = 5 + 2 * 3 →
      (matrix.ofList (List.range 12) : matrix 3 4 Nat).op_call i2 j2
        = (matrix.ofList (List.range 12) : matrix 3 4 Nat).op_call 5 2) :=
  ⟨⟨by decide, by decide⟩,
    (C37_pair_access_linear_only _ 5 2 (by decide) (by decide)).1,
    (C37_pair_access_linear_only _ 5 2 (by decide) (by decide)).2.2.1,
    (C37_pair_access_linear_only _ 5 2 (by decide) (by decide)).2.2.2.2⟩

/-! ## Laws of the products -/

/-- C38. The vector overloads of `dot` agree with the matrix-matrix overload.
With `V` the M×1 matrix holding the elements of `v` and `U` the 1×N matrix
holding the elements of `u`, all four products complete, and
`dot(a, v)[n] == dot(a, V)(n, 0)` and `dot(u, b)[m] == dot(U, b)(0, m)`. -/
theorem C38_dot_vector_overloads_agree {N M : Nat} {T : Type} [Semiring T]
    (a : matrix N M T) (v : vector M T) (V : matrix M 1 T)
    (u : vector N T) (b : matrix N M T) (U : matrix 1 N T)
    (hV : ∀ (k : Fin (M * 1)) (h : k.val < M), V.data k = v.data ⟨k.val, h⟩)
    (hU : ∀ (k : Fin (1 * N)) (h : k.val < N), U.data k = u.data ⟨k.val, h⟩)
    (hNM : N * M ≤ SIZE_MAX) (hN : N ≤ SIZE_MAX) (hM : M ≤ SIZE_MAX) :
    (∃ c C, (dot_mv a v).result = Outcome.ok c ∧ (dot_mm a V).result = Outcome.ok C ∧
      ∀ n : Fin N, (c.op_subscript n).result = (C.op_call n 0).result ∧
        (c.op_subscript n).result = Outcome.ok (∑ m : Fin M, a.cell n m * v.data m)) ∧
    (∃ c C, (dot_vm u b).result = Outcome.ok c ∧ (dot_mm U b).result = Outcome.ok C ∧
      ∀ m : Fin M, (c.op_subscript m).result = (C.op_call 0 m).result ∧
        (c.op_subscript m).result = Outcome.ok (∑ n : Fin N, u.data n * b.cell n m)) := by
  constructor
  · obtain ⟨c, hc, hcd⟩ := dot_mv_result a v hNM
    obtain ⟨C, hC, hCd⟩ := dot_mm_result a V hNM (by omega) (by omega)
    refine ⟨c, C, hc, hC, fun n => ?_⟩
    have h1 : (c.op_subscript n).result = Outcome.ok (∑ m : Fin M, a.cell n m * v.data m) := by
      rw [c.op_subscript_result n, hcd n]
    refine ⟨?_, h1⟩
    have h2 := C.op_call_result n ⟨0, Nat.one_pos⟩ (by omega)
    rw [h1]
    show _ = (C.op_call n.val 0).result
    rw [h2, hCd n ⟨0, Nat.one_pos⟩]
    congr 1
    refine Finset.sum_congr rfl fun m _ => ?_
    congr 1
    unfold matrix.cell
    rw [hV _ (by simp)]
    congr 1
    exact Fin.ext (by simp)
  · obtain ⟨c, hc, hcd⟩ := dot_vm_result u b hNM
    obtain ⟨C, hC, hCd⟩ := dot_mm_result U b (by omega) hNM (by omega)
    refine ⟨c, C, hc, hC, fun m => ?_⟩
    have h1 : (c.op_subscript m).result = Outcome.ok (∑ n : Fin N, u.data n * b.cell n m) := by
      rw [c.op_subscript_result m, hcd m]
    refine ⟨?_, h1⟩
    have h2 := C.op_call_result ⟨0, Nat.one_pos⟩ m (by omega)
    rw [h1]
    show _ = (C.op_call 0 m.val).result
    rw [h2, hCd ⟨0, Nat.one_pos⟩ m]
    congr 1
    refine Finset.sum_congr rfl fun n _ => ?_
    congr 1
    unfold matrix.cell
    rw [hU _ (by simp)]
    congr 1
    exact Fin.ext (by simp)

/-- Witness for C38: a 2×2 matrix of `int` with the vector `(5, 6)` as a
column and the vector `(7, 8)` as a row. -/
theorem C38_dot_vector_overloads_agree_witness :
    ((∀ (k : Fin (2 * 1)) (h : k.val < 2),
        (matrix.ofList [5, 6] : matrix 2 1 Int).data k
          = (vector.ofList [5, 6] : vector 2 Int).data ⟨k.val, h⟩) ∧
      (∀ (k : Fin (1 * 2)) (h : k.val < 2),
        (matrix.ofList [7, 8] : matrix 1 2 Int).data k
          = (vector.ofList [7, 8] : vector 2 Int).data ⟨k.val, h⟩) ∧
      2 * 2 ≤ SIZE_MAX ∧ 2 ≤ SIZE_MAX) ∧
    (∃ c C, (dot_mv (matrix.ofList [1, 2, 3, 4] : matrix 2 2 Int)
        (vector.ofList [5, 6] : vector 2 Int)).result = Outcome.ok c ∧
      (dot_mm (matrix.ofList [1, 2, 3, 4] : matrix 2 2 Int)
        (matrix.ofList [5, 6] : matrix 2 1 Int)).result = Outcome.ok C ∧
      ∀ n : Fin 2, (c.op_subscript n).result = (C.op_call n 0).result) ∧
    (∃ c C, (dot_vm (vector.ofList [7, 8] : vector 2 Int)
        (matrix.ofList [1, 2, 3, 4] : matrix 2 2 Int)).result = Outcome.ok c ∧
      (dot_mm (matrix.ofList [7, 8] : matrix 1 2 Int)
        (matrix.ofList [1, 2, 3, 4] : matrix 2 2 Int)).result = Outcome.ok C ∧
      ∀ m : Fin 2, (c.op_subscript m).result = (C.op_call 0 m).result) :=
  ⟨⟨by decide, by decide, by decide, by decide⟩,
    match (C38_dot_vector_overloads_agree (matrix.ofList [1, 2, 3, 4] : matrix 2 2 Int)
      (vector.ofList [5, 6]) (matrix.ofList [5, 6]) (vector.ofList [7, 8])
      (matrix.ofList [1, 2, 3, 4]) (matrix.ofList [7, 8]) (by decide) (by decide)
      (by decide) (by decide) (by decide)) with
    | ⟨⟨c, C, h1, h2, h3⟩, ⟨d, D, h4, h5, h6⟩⟩ =>
      ⟨⟨c, C, h1, h2, fun n => (h3 n).1⟩, ⟨d, D, h4, h5, fun m => (h6 m).1⟩⟩⟩

/-- C39. The matrix product is associative: over an exact element type, for
matrices of representable shapes, the four products complete and
`dot(dot(a, b), c)` equals `dot(a, dot(b, c))`. -/
theorem C39_dot_associative {N M O P : Nat} {T : Type} [Semiring T]
    (a : matrix N M T) (b : matrix M O T) (c : matrix O P T)
    (hNM : N * M ≤ SIZE_MAX) (hMO : M * O ≤ SIZE_MAX) (hNO : N * O ≤ SIZE_MAX)
    (hOP : O * P ≤ SIZE_MAX) (hMP : M * P ≤ SIZE_MAX) (hNP : N * P ≤ SIZE_MAX) :
    ∃ ab bc x, (dot_mm a b).result = Outcome.ok ab ∧ (dot_mm b c).result = Outcome.ok bc ∧
      (dot_mm ab c).result = Outcome.ok x ∧ (dot_mm a bc).result = Outcome.ok x := by
  obtain ⟨ab, hab, habc⟩ := dot_mm_result a b hNM hMO hNO
  obtain ⟨bc, hbc, hbcc⟩ := dot_mm_result b c hMO hOP hMP
  obtain ⟨x, hx, hxc⟩ := dot_mm_result ab c hNO hOP hNP
  obtain ⟨y, hy, hyc⟩ := dot_mm_result a bc hNM hMP hNP
  have hxy : x = y := by
    apply matrix.ext_cell
    intro n p
    rw [hxc n p, hyc n p]
    simp only [habc, hbcc, Finset.sum_mul, Finset.mul_sum]
    rw [Finset.sum_comm]
    exact Finset.sum_congr rfl fun m _ => Finset.sum_congr rfl fun o _ => mul_assoc _ _ _
  exact ⟨ab, bc, x, hab, hbc, hx, by rw [hxy]; exact hy⟩

/-- Witness for C39: three 2×2 matrices of `int`. -/
theorem C39_dot_associative_witness :
    (2 * 2 ≤ SIZE_MAX) ∧
    ∃ ab bc x,
      (dot_mm (matrix.ofList [1, 2, 3, 4] : matrix 2 2 Int)
        (matrix.ofList [0, 1, 1, 0] : matrix 2 2 Int)).result = Outcome.ok ab ∧
      (dot_mm (matrix.ofList [0, 1, 1, 0] : matrix 2 2 Int)
        (matrix.ofList [5, 6, 7, 8] : matrix 2 2 Int)).result = Outcome.ok bc ∧
      (dot_mm ab (matrix.ofList [5, 6, 7, 8] : matrix 2 2 Int)).result = Outcome.ok x ∧
      (dot_mm (matrix.ofList [1, 2, 3, 4] : matrix 2 2 Int) bc).result = Outcome.ok x :=
  ⟨by decide, C39_dot_associative _ _ _ (by decide) (by decide) (by decide) (by decide)
    (by decide) (by decide)⟩

/-! ## Growing and shrinking -/

/-- C40. Growing and then shrinking back loses nothing: for a matrix `a` of
shape (N, M) and a target shape (N2, M2) with `N2 >= N` and `M2 >= M` (shapes
representable), both resizes complete and
`resize_cast<N,M,T>(resize_cast<N2,M2,T>(a))` is `a`; and for a vector `v` of
length N and `K2 >= N`, `resize_cast<N,T>(resize_cast<K2,T>(v))` is `v`. -/
theorem C40_grow_then_shrink {N M : Nat} {T : Type} [Zero T] (N2 M2 K2 : Nat)
    (a : matrix N M T) (v : vector N T) (hN : N ≤ N2) (hM : M ≤ M2) (hK : N ≤ K2)
    (hsz : N * M ≤ SIZE_MAX) (hsz2 : N2 * M2 ≤ SIZE_MAX) :
    (∃ big : matrix N2 M2 T, (resize_cast_m N2 M2 id a).result = Outcome.ok big ∧
      (resize_cast_m N M id big).result = Outcome.ok a) ∧
    (∃ w : vector K2 T, (resize_cast_v K2 id v).result = Outcome.ok w ∧
      (resize_cast_v N id w).result = Outcome.ok v) := by
  constructor
  · obtain ⟨big, hbig, hcell⟩ := resize_cast_m_result N2 M2 id a hsz2 hsz
    obtain ⟨back, hback, hcell2⟩ := resize_cast_m_result N M id big hsz hsz2
    refine ⟨big, hbig, ?_⟩
    rw [hback]
    congr 1
    apply matrix.ext_cell
    intro i j
    have hi := i.isLt
    have hj := j.isLt
    rw [hcell2 i j, dif_pos ⟨by omega, by omega⟩, hcell ⟨i.val, by omega⟩ ⟨j.val, by omega⟩,
      dif_pos ⟨hi, hj⟩]
    rfl
  · refine ⟨_, resize_cast_v_result K2 id v, ?_⟩
    rw [resize_cast_v_result N id]
    congr 1
    apply vector.ext
    funext x
    have hx := x.isLt
    show id (if h : x.val < K2 then id (if h2 : x.val < N then v.data ⟨x.val, h2⟩ else 0)
      else 0) = v.data x
    rw [dif_pos (by omega), dif_pos hx]
    rfl

/-- Witness for C40: the 3×4 matrix holding 0..11 grown to 4×5 and cut back,
and the vector `(1, 2, 3)` grown to length 5 and cut back. -/
theorem C40_grow_then_shrink_witness :
    ((3 ≤ 4 ∧ 4 ≤ 5 ∧ 3 ≤ 5) ∧ 3 * 4 ≤ SIZE_MAX ∧ 4 * 5 ≤ SIZE_MAX) ∧
    (∃ big : matrix 4 5 Nat,
      (resize_cast_m 4 5 id (matrix.ofList (List.range 12) : matrix 3 4 Nat)).result
        = Outcome.ok big ∧
      (resize_cast_m 3 4 id big).result
        = Outcome.ok (matrix.ofList (List.range 12) : matrix 3 4 Nat)) ∧
    (∃ w : vector 5 Nat,
      (resize_cast_v 5 id (vector.ofList [1, 2, 3] : vector 3 Nat)).result = Outcome.ok w ∧
      (resize_cast_v 3 id w).result = Outcome.ok (vector.ofList [1, 2, 3] : vector 3 Nat)) :=
  ⟨⟨⟨by decide, by decide, by decide⟩, by decide, by decide⟩,
    C40_grow_then_shrink 4 5 5 _ _ (by decide) (by decide) (by decide) (by decide)
      (by decide)⟩

end vecmat
